import Mathlib

/-!
# Order book (`order_book.cpp`)

A shallow embedding of `OrderBook` from `src/order_book.cpp`.

* `std::list<Order>` is a list of nodes. A node carries the identity `ref` that a
  `std::list<Order>::iterator` denotes; `push_back` allocates a node whose identity is
  different from that of every node allocated before (`OrderBook.next_ref`).
* `std::map<Price, Level>` is an association list kept in ascending key order. A map
  iterator denotes the map node of one key, so `level_it` is that key; it is resolved in
  the map chosen by `OrderPtr.is_bid`, the map `add_order` took it from.
* `std::unordered_map<OrderId, OrderPtr>` is an association list (its iteration order is
  never observed by the program).
* Dereferencing an iterator that denotes no live node is undefined behaviour; the
  operations return `none` there.
* `uint32_t`/`uint64_t` arguments are natural numbers; the only place where the width
  matters is the conversion to `int` in `get_bbo`.
-/

namespace order_book

/-! ## Data model -/

/-- The struct `Order`. -/
structure Order where
  id : Nat
  is_bid : Bool
  price : Nat
  qty : Nat
deriving DecidableEq, Repr

/-- One node of a `std::list<Order>`: `ref` is the node identity an iterator denotes. -/
structure Node where
  ref : Nat
  order : Order
deriving DecidableEq, Repr

/-- The alias `Level = std::list<Order>`, front of the list first. -/
abbrev Level := List Node

/-- The type `std::map<Price, Level>`: entries in ascending key order. -/
abbrev PriceMap := List (Nat × Level)

/-- The struct `OrderPtr`: `level_it` is the key of the map node, `order_it` the identity
of the list node. -/
structure OrderPtr where
  level_it : Nat
  order_it : Nat
  is_bid : Bool
deriving DecidableEq, Repr

/-- The class `OrderBook`: members `bids`, `asks`, `orders`; `next_ref` is the identity the
next allocated list node receives. -/
structure OrderBook where
  bids : PriceMap
  asks : PriceMap
  orders : List (Nat × OrderPtr)
  next_ref : Nat
deriving DecidableEq, Repr

/-! ## Container operations -/

/-- The call `m.find(k)`: the value stored under key `k`, if any. -/
def lookup {β : Type} : List (Nat × β) → Nat → Option β
  | [], _ => none
  | (k, v) :: t, p => if k = p then some v else lookup t p

/-- The call `m.erase(it)` for the entry with key `p`. -/
def erase_key {β : Type} : List (Nat × β) → Nat → List (Nat × β)
  | [], _ => []
  | (k, v) :: t, p => if k = p then erase_key t p else (k, v) :: erase_key t p

/-- Write access `it->second = f(it->second)` through the iterator of key `p`. -/
def update {β : Type} : List (Nat × β) → Nat → (β → β) → List (Nat × β)
  | [], _, _ => []
  | (k, v) :: t, p, f => if k = p then (k, f v) :: t else (k, v) :: update t p f

/-- The call `side.try_emplace(price)`: inserts an empty level at its place in key order
when the key is absent, and changes nothing when it is present. -/
def try_emplace : PriceMap → Nat → PriceMap
  | [], p => [(p, [])]
  | (k, l) :: t, p =>
    if p < k then (p, []) :: (k, l) :: t
    else if p = k then (k, l) :: t
    else (k, l) :: try_emplace t p

/-- The statement `orders[id] = ptr`: overwrites the entry of `id`, or inserts one. -/
def index_assign (orders : List (Nat × OrderPtr)) (id : Nat) (ptr : OrderPtr) :
    List (Nat × OrderPtr) :=
  match lookup orders id with
  | some _ => update orders id (fun _ => ptr)
  | none => (id, ptr) :: orders

/-- The node an `order_it` with identity `r` denotes inside a level. -/
def find_node (l : Level) (r : Nat) : Option Node :=
  l.find? (fun n => n.ref == r)

/-- The call `level.erase(order_it)`: unlinks the node with identity `r`. -/
def erase_node (l : Level) (r : Nat) : Level :=
  l.eraseP (fun n => n.ref == r)

/-- The write `order_it->qty = q` on the node with identity `r`. -/
def write_qty (l : Level) (r : Nat) (q : Nat) : Level :=
  l.map (fun n => if n.ref = r then { n with order := { n.order with qty := q } } else n)

namespace OrderBook

/-- The default-constructed book. -/
def empty : OrderBook := ⟨[], [], [], 0⟩

/-- The expression `is_bid ? bids : asks`. -/
def side (b : OrderBook) (is_bid : Bool) : PriceMap :=
  if is_bid then b.bids else b.asks

/-- Stores a new value for the map `is_bid ? bids : asks`. -/
def set_side (b : OrderBook) (is_bid : Bool) (m : PriceMap) : OrderBook :=
  if is_bid then { b with bids := m } else { b with asks := m }

/-- Dereference `*order_it` of a locator. -/
def deref (b : OrderBook) (ptr : OrderPtr) : Option Order :=
  match lookup (b.side ptr.is_bid) ptr.level_it with
  | none => none
  | some level =>
    match find_node level ptr.order_it with
    | none => none
    | some n => some n.order

/-- The member `OrderBook::add_order`. -/
def add_order (b : OrderBook) (id : Nat) (is_bid : Bool) (price qty : Nat) : OrderBook :=
  match lookup b.orders id with
  | some _ => b
  | none =>
    let order : Order := ⟨id, is_bid, price, qty⟩
    let m := try_emplace (b.side is_bid) price
    let m := update m price (fun level => level ++ [⟨b.next_ref, order⟩])
    { b.set_side is_bid m with
      orders := index_assign b.orders id ⟨price, b.next_ref, is_bid⟩
      next_ref := b.next_ref + 1 }

/-- The member `OrderBook::delete_order`. -/
def delete_order (b : OrderBook) (id : Nat) : Option OrderBook :=
  match lookup b.orders id with
  | none => some b
  | some ptr =>
    match lookup (b.side ptr.is_bid) ptr.level_it with
    | none => none
    | some level =>
      match find_node level ptr.order_it with
      | none => none
      | some _ =>
        let level := erase_node level ptr.order_it
        let m :=
          if level.isEmpty then erase_key (b.side ptr.is_bid) ptr.level_it
          else update (b.side ptr.is_bid) ptr.level_it (fun _ => level)
        some { b.set_side ptr.is_bid m with orders := erase_key b.orders id }

/-- The member `OrderBook::modify_order`. -/
def modify_order (b : OrderBook) (id new_price new_qty : Nat) : Option OrderBook :=
  match lookup b.orders id with
  | none => some b
  | some ptr =>
    match b.deref ptr with
    | none => none
    | some o =>
      if new_qty = 0 then delete_order b o.id
      else
        let written := o.qty ≠ new_qty
        let b1 :=
          if written then
            b.set_side ptr.is_bid
              (update (b.side ptr.is_bid) ptr.level_it
                (fun level => write_qty level ptr.order_it new_qty))
          else b
        let o1 : Order := if written then { o with qty := new_qty } else o
        if o1.price ≠ new_price then
          let order : Order := ⟨o1.id, o1.is_bid, new_price, o1.qty⟩
          match delete_order b1 order.id with
          | none => none
          | some b2 => some (add_order b2 order.id order.is_bid order.price order.qty)
        else some b1

/-- Conversion of an `unsigned int` value to `int` (two's complement, 32 bits). -/
def to_int (u : Nat) : Int :=
  if u % 2 ^ 32 < 2 ^ 31 then ((u % 2 ^ 32 : Nat) : Int)
  else ((u % 2 ^ 32 : Nat) : Int) - 2 ^ 32

/-- The member `OrderBook::get_bbo`. Each conditional has operands `int` and `uint32_t`, so
its value is an `unsigned int` (`-1` becomes `2^32 - 1`), converted to `int` by the pair. -/
def get_bbo (b : OrderBook) : Int × Int :=
  let best_bid : Nat :=
    match b.bids.getLast? with
    | none => 2 ^ 32 - 1
    | some (p, _) => p
  let best_ask : Nat :=
    match b.asks.head? with
    | none => 2 ^ 32 - 1
    | some (p, _) => p
  (to_int best_bid, to_int best_ask)

end OrderBook

/-! ## Rendering (`operator<<`) -/

/-- The text written for one order: its id and its quantity. -/
def render_order (o : Order) : String :=
  "\x7b id: " ++ toString o.id ++ " , qty: " ++ toString o.qty ++ " \x7d"

/-- The inner loop of `operator<<`: the orders of a level front first, separated by an
arrow. -/
def render_orders : List Order → String
  | [] => ""
  | [o] => render_order o
  | o :: o1 :: t => render_order o ++ " -> " ++ render_orders (o1 :: t)

/-- The line written for one map entry. -/
def render_level (label : String) (e : Nat × Level) : String :=
  label ++ toString e.1 ++ " | " ++ render_orders (e.2.map Node.order) ++ "\n"

/-- The outer loop of `operator<<` over one map, from `rbegin()` to `rend()`: one line per
entry. -/
def render_side (label : String) (m : PriceMap) : List String :=
  m.reverse.map (render_level label)

/-- The friend `operator<<`: the text written to the stream. -/
def OrderBook.render (b : OrderBook) : String :=
  "====================\n" ++ String.join (render_side "ask: $" b.asks) ++ "\n" ++
    String.join (render_side "bid: $" b.bids) ++ "===================="

/-! ## Call sequences -/

/-- One call on the public interface. -/
inductive Op where
  | add (id : Nat) (is_bid : Bool) (price qty : Nat)
  | delete (id : Nat)
  | modify (id new_price new_qty : Nat)
deriving DecidableEq, Repr

/-- Executes one call. -/
def step (b : OrderBook) : Op → Option OrderBook
  | .add id is_bid price qty => some (b.add_order id is_bid price qty)
  | .delete id => b.delete_order id
  | .modify id new_price new_qty => b.modify_order id new_price new_qty

/-- Executes a sequence of calls, first call first. -/
def run (b : OrderBook) : List Op → Option OrderBook
  | [] => some b
  | op :: ops =>
    match step b op with
    | none => none
    | some b1 => run b1 ops


/-! ## Observations used by the specification -/

/-- The keys of a map, in storage order. -/
def keys {β : Type} (m : List (Nat × β)) : List Nat := m.map Prod.fst

/-- The ordering invariant of `std::map`: keys strictly ascending. -/
def Sorted {β : Type} (m : List (Nat × β)) : Prop := (keys m).Pairwise (· < ·)

namespace OrderBook

/-- The orders of the level at price `p` on side `is_bid`, front first; empty when the side
has no level at that price. -/
def level_orders (b : OrderBook) (is_bid : Bool) (p : Nat) : List Order :=
  match lookup (b.side is_bid) p with
  | none => []
  | some level => level.map Node.order

/-- Every order resting in the book: the bid levels, then the ask levels. -/
def resting (b : OrderBook) : List Order :=
  (b.bids ++ b.asks).flatMap (fun e => e.2.map Node.order)

end OrderBook

/-- The prices a call carries. -/
def Op.prices : Op → List Nat
  | .add _ _ price _ => [price]
  | .delete _ => []
  | .modify _ new_price _ => [new_price]

/-- The second scenario of `main`: four bids and two asks. -/
def main_ops : List Op :=
  [.add 3 true 10 10, .add 4 true 9 8, .add 5 true 5 1, .add 6 true 5 10,
   .add 7 false 15 5, .add 8 false 20 10]

/-- The first scenario of `main`, up to the first query of the best bid and offer. -/
def main_ops_first : List Op := [.add 1 true 10 100, .modify 1 12 200, .add 2 false 20 100]

/-- The book `main_ops_first` builds. -/
def main_book_first : OrderBook :=
  ⟨[(12, [⟨1, ⟨1, true, 12, 200⟩⟩])], [(20, [⟨2, ⟨2, false, 20, 100⟩⟩])],
    [(2, ⟨20, 2, false⟩), (1, ⟨12, 1, true⟩)], 3⟩

/-- A short call sequence used to instantiate the theorems: two bids at price 10, one ask
at price 20. -/
def sample_ops : List Op := [.add 1 true 10 5, .add 2 true 10 7, .add 3 false 20 1]

/-- The book `sample_ops` builds. -/
def sample_book : OrderBook :=
  ((OrderBook.empty.add_order 1 true 10 5).add_order 2 true 10 7).add_order 3 false 20 1

/-- Every price key of the book is below `bound`. -/
def PricesBelow (bound : Nat) (b : OrderBook) : Prop :=
  ∀ s p l, lookup (b.side s) p = some l → p < bound

/-- A level without the nodes of order `id`, the other nodes in their order. -/
def drop_id (id : Nat) (l : Level) : Level :=
  l.filter (fun n => decide (n.order.id ≠ id))

/-- A node with its quantity replaced by `q` when it holds order `id`. -/
def set_qty (id q : Nat) (n : Node) : Node :=
  if n.order.id = id then { n with order := { n.order with qty := q } } else n

/-- The representation invariant of the book: both maps are in key order, no level is
empty, node identities inside a level are distinct and already allocated, every resting
node is described by its index entry, and every index entry denotes a resting node. -/
structure Inv (b : OrderBook) : Prop where
  sorted : ∀ s, Sorted (b.side s)
  nonempty : ∀ s p l, lookup (b.side s) p = some l → l ≠ []
  refs : ∀ s p l, lookup (b.side s) p = some l → (l.map Node.ref).Nodup
  node : ∀ s p l n, lookup (b.side s) p = some l → n ∈ l →
    n.order.price = p ∧ n.order.is_bid = s ∧
      lookup b.orders n.order.id = some ⟨p, n.ref, s⟩
  ptr : ∀ id ptr, lookup b.orders id = some ptr →
    ∃ l n, lookup (b.side ptr.is_bid) ptr.level_it = some l ∧ n ∈ l ∧
      n.ref = ptr.order_it ∧ n.order.id = id
  fresh : ∀ s p l n, lookup (b.side s) p = some l → n ∈ l → n.ref < b.next_ref

/-- The levels of one side as the program can observe them: the price of each level, in
map order, with the (id, qty) pairs of its orders, front first. -/
def OrderBook.ladder (b : OrderBook) (is_bid : Bool) : List (Nat × List (Nat × Nat)) :=
  (b.side is_bid).map (fun e => (e.1, e.2.map (fun n => (n.order.id, n.order.qty))))

end order_book

/-! # Second draft of the order book (`order_book_2.cpp`) -/

namespace order_book_2

open order_book (lookup erase_key update)

/-! ## Data model -/

/-- The struct `Order` of the second draft. -/
structure Order where
  id : Nat
  price : Nat
  qty : Nat
  is_bid : Bool
deriving DecidableEq, Repr

/-- One node of a `std::list<Order>`: `ref` is the node identity an iterator denotes. -/
structure Node where
  ref : Nat
  order : Order
deriving DecidableEq, Repr

/-- The alias `Level = std::list<Order>`, front of the list first. -/
abbrev Level := List Node

/-- The type `std::map<Price, Level>`: entries in ascending key order. -/
abbrev PriceMap := List (Nat × Level)

/-- A `std::map<Price, Level>::iterator` of the book: the map it belongs to and the key of
the map node it denotes. -/
structure LevelIt where
  in_bids : Bool
  key : Nat
deriving DecidableEq, Repr

/-- The struct `OrderPtr` of the second draft: no side is stored. -/
structure OrderPtr where
  level_it : LevelIt
  order_it : Nat
deriving DecidableEq, Repr

/-- The class `Book`: members `bids`, `asks`, `orders`; `next_ref` is the identity the next
allocated list node receives. -/
structure Book where
  bids : PriceMap
  asks : PriceMap
  orders : List (Nat × OrderPtr)
  next_ref : Nat
deriving DecidableEq, Repr

/-! ## Container operations -/

/-- The call `side.try_emplace(price)`. -/
def try_emplace : PriceMap → Nat → PriceMap
  | [], p => [(p, [])]
  | (k, l) :: t, p =>
    if p < k then (p, []) :: (k, l) :: t
    else if p = k then (k, l) :: t
    else (k, l) :: try_emplace t p

/-- The call `orders.emplace(id, ptr)`: inserts the entry unless the key is present. -/
def index_emplace (orders : List (Nat × OrderPtr)) (id : Nat) (ptr : OrderPtr) :
    List (Nat × OrderPtr) :=
  match lookup orders id with
  | some _ => orders
  | none => (id, ptr) :: orders

/-- The node an `order_it` with identity `r` denotes inside a level. -/
def find_node (l : Level) (r : Nat) : Option Node :=
  l.find? (fun n => n.ref == r)

/-- The call `level.erase(order_it)`: unlinks the node with identity `r`. -/
def erase_node (l : Level) (r : Nat) : Level :=
  l.eraseP (fun n => n.ref == r)

/-- The write `order_it->qty = q` on the node with identity `r`. -/
def write_qty (l : Level) (r : Nat) (q : Nat) : Level :=
  l.map (fun n => if n.ref = r then { n with order := { n.order with qty := q } } else n)

namespace Book

/-- The book `Book{}`. -/
def empty : Book := ⟨[], [], [], 0⟩

/-- The expression `is_bid ? bids : asks`. -/
def side (b : Book) (is_bid : Bool) : PriceMap :=
  if is_bid then b.bids else b.asks

/-- Stores a new value for the map `is_bid ? bids : asks`. -/
def set_side (b : Book) (is_bid : Bool) (m : PriceMap) : Book :=
  if is_bid then { b with bids := m } else { b with asks := m }

/-- Dereference `*order_it` of a locator. -/
def deref (b : Book) (ptr : OrderPtr) : Option Order :=
  match lookup (b.side ptr.level_it.in_bids) ptr.level_it.key with
  | none => none
  | some level =>
    match find_node level ptr.order_it with
    | none => none
    | some n => some n.order

/-- The member `Book::add_order`: the returned flag and the new state. -/
def add_order (b : Book) (id price qty : Nat) (is_bid : Bool) : Bool × Book :=
  match lookup b.orders id with
  | some _ => (false, b)
  | none =>
    let m := try_emplace (b.side is_bid) price
    let m := update m price (fun level => level ++ [⟨b.next_ref, ⟨id, price, qty, is_bid⟩⟩])
    (true,
      { b.set_side is_bid m with
        orders := index_emplace b.orders id ⟨⟨is_bid, price⟩, b.next_ref⟩
        next_ref := b.next_ref + 1 })

/-- The member `Book::delete_order`: the returned flag and the new state; `none` when an
iterator that denotes no live node is used. -/
def delete_order (b : Book) (id : Nat) : Option (Bool × Book) :=
  match lookup b.orders id with
  | none => some (false, b)
  | some ptr =>
    match lookup (b.side ptr.level_it.in_bids) ptr.level_it.key with
    | none => none
    | some level =>
      match find_node level ptr.order_it with
      | none => none
      | some n =>
        let is_bid := n.order.is_bid
        let level := erase_node level ptr.order_it
        if level.isEmpty then
          if is_bid = ptr.level_it.in_bids then
            some (true,
              { b.set_side is_bid (erase_key (b.side is_bid) ptr.level_it.key) with
                orders := erase_key b.orders id })
          else none
        else
          some (true,
            { b.set_side ptr.level_it.in_bids
                (update (b.side ptr.level_it.in_bids) ptr.level_it.key (fun _ => level)) with
              orders := erase_key b.orders id })

/-- The member `Book::modify_order`: the returned flag and the new state. -/
def modify_order (b : Book) (id new_price new_qty : Nat) : Option (Bool × Book) :=
  match lookup b.orders id with
  | none => some (false, b)
  | some ptr =>
    if new_qty = 0 then some (false, b)
    else
      match b.deref ptr with
      | none => none
      | some o =>
        let old_price := o.price
        let b1 :=
          b.set_side ptr.level_it.in_bids
            (update (b.side ptr.level_it.in_bids) ptr.level_it.key
              (fun level => write_qty level ptr.order_it new_qty))
        if new_price ≠ old_price then
          let is_bid := o.is_bid
          match delete_order b1 id with
          | none => none
          | some (_, b2) => some (true, (add_order b2 id new_price new_qty is_bid).2)
        else some (true, b1)

/-- The member `Book::get_bbo`. -/
def get_bbo (b : Book) : Nat × Nat :=
  let best_bid : Nat :=
    match b.bids.getLast? with
    | none => 0
    | some (p, _) => p
  let best_ask : Nat :=
    match b.asks.head? with
    | none => 0
    | some (p, _) => p
  (best_bid, best_ask)

end Book

/-! ## Call sequences -/

/-- One call on the public interface of `Book`. -/
inductive Op where
  | add (id price qty : Nat) (is_bid : Bool)
  | delete (id : Nat)
  | modify (id new_price new_qty : Nat)
deriving DecidableEq, Repr

/-- Executes one call: the returned flag and the new state. -/
def step (b : Book) : Op → Option (Bool × Book)
  | .add id price qty is_bid => some (b.add_order id price qty is_bid)
  | .delete id => b.delete_order id
  | .modify id new_price new_qty => b.modify_order id new_price new_qty

/-- Executes a sequence of calls, first call first: the returned flags and the final
state. -/
def run (b : Book) : List Op → Option (List Bool × Book)
  | [] => some ([], b)
  | op :: ops =>
    match step b op with
    | none => none
    | some (r, b1) =>
      match run b1 ops with
      | none => none
      | some (rs, b2) => some (r :: rs, b2)

/-- Every order resting in the book: the bid levels, then the ask levels. -/
def Book.resting (b : Book) : List Order :=
  (b.bids ++ b.asks).flatMap (fun e => e.2.map Node.order)

/-! ## Correspondence with the first draft -/

/-- An order of the first draft as an order of the second draft. -/
def of_order (o : order_book.Order) : Order := ⟨o.id, o.price, o.qty, o.is_bid⟩

/-- A list node of the first draft as a list node of the second draft. -/
def of_node (n : order_book.Node) : Node := ⟨n.ref, of_order n.order⟩

/-- A price map of the first draft as a price map of the second draft. -/
def of_map (m : order_book.PriceMap) : PriceMap := m.map (fun e => (e.1, e.2.map of_node))

/-- A locator of the first draft as a locator of the second draft: the stored side names
the map of the level iterator. -/
def of_ptr (p : order_book.OrderPtr) : OrderPtr := ⟨⟨p.is_bid, p.level_it⟩, p.order_it⟩

/-- A book of the first draft as a book of the second draft. -/
def of_book (b : order_book.OrderBook) : Book :=
  ⟨of_map b.bids, of_map b.asks, b.orders.map (fun e => (e.1, of_ptr e.2)), b.next_ref⟩

/-- The calls of the first draft that have the effect of a call of the second draft: a
`modify_order` with quantity 0 has no effect in the second draft. -/
def to_first : List Op → List order_book.Op
  | [] => []
  | .add id price qty is_bid :: ops => .add id is_bid price qty :: to_first ops
  | .delete id :: ops => .delete id :: to_first ops
  | .modify id new_price new_qty :: ops =>
    if new_qty = 0 then to_first ops else .modify id new_price new_qty :: to_first ops

/-- The scenario at the start of `main`: one bid, a repeated id, two asks. -/
def main_ops : List Op := [.add 0 10 10 true, .add 0 10 10 true, .add 1 15 10 false,
  .add 2 16 10 false]

/-- The book `main_ops` builds. -/
def main_book : Book :=
  ⟨[(10, [⟨0, ⟨0, 10, 10, true⟩⟩])],
    [(15, [⟨1, ⟨1, 15, 10, false⟩⟩]), (16, [⟨2, ⟨2, 16, 10, false⟩⟩])],
    [(2, ⟨⟨false, 16⟩, 2⟩), (1, ⟨⟨false, 15⟩, 1⟩), (0, ⟨⟨true, 10⟩, 0⟩)], 3⟩

/-- The call of the first draft that a call of the second draft corresponds to: the same
member with the same arguments. -/
def to_first_op : Op → order_book.Op
  | .add id price qty is_bid => .add id is_bid price qty
  | .delete id => .delete id
  | .modify id new_price new_qty => .modify id new_price new_qty

/-- The levels of one side as the program can observe them: the price of each level, in
map order, with the (id, qty) pairs of its orders, front first. -/
def Book.ladder (b : Book) (is_bid : Bool) : List (Nat × List (Nat × Nat)) :=
  (b.side is_bid).map (fun e => (e.1, e.2.map (fun n => (n.order.id, n.order.qty))))

end order_book_2

/-! # Circular buffer (`circular_buffer.cpp`) -/

namespace circular_buffer

/-- The class `CircularBuffer<T>`: members `read_pos`, `write_pos`, `buffer` (the array
`new T[capacity + 1]`) and `capacity` (the array length). Values of `size_t` are natural
numbers below `2^64`. -/
structure CircularBuffer (T : Type) where
  read_pos : Nat
  write_pos : Nat
  buffer : List T
  capacity : Nat
deriving DecidableEq, Repr

namespace CircularBuffer

variable {T : Type}

/-- The constructor `CircularBuffer(size_t capacity)`: `capacity + 1` is computed in
`size_t`. The slots of the new array hold no meaningful value; `default` stands for it. -/
def new [Inhabited T] (capacity : Nat) : CircularBuffer T :=
  ⟨0, 0, List.replicate ((capacity + 1) % 2 ^ 64) default, (capacity + 1) % 2 ^ 64⟩

/-- The member `increment`: `(pos + 1) % capacity` in `size_t`; `none` is the division by
zero. -/
def increment (cb : CircularBuffer T) (pos : Nat) : Option Nat :=
  if cb.capacity = 0 then none else some ((pos + 1) % 2 ^ 64 % cb.capacity)

/-- The member `push`: the returned flag and the new state; `none` is undefined behaviour
(division by zero, store outside the array). -/
def push (cb : CircularBuffer T) (value : T) : Option (Bool × CircularBuffer T) :=
  match cb.increment cb.write_pos with
  | none => none
  | some next =>
    if next = cb.read_pos then some (false, cb)
    else if cb.write_pos < cb.buffer.length then
      some (true, { cb with buffer := cb.buffer.set cb.write_pos value, write_pos := next })
    else none

/-- The member `pop`: the returned optional and the new state; `none` is undefined
behaviour (division by zero, load outside the array). -/
def pop (cb : CircularBuffer T) : Option (Option T × CircularBuffer T) :=
  if cb.read_pos = cb.write_pos then some (none, cb)
  else
    match cb.buffer.get? cb.read_pos with
    | none => none
    | some ret =>
      match cb.increment cb.read_pos with
      | none => none
      | some next => some (some ret, { cb with read_pos := next })

/-- The loop of `operator<<`: the slots from `curr` up to `write_pos`, for at most `fuel`
steps. -/
def walk [Inhabited T] (cb : CircularBuffer T) : Nat → Nat → List T
  | 0, _ => []
  | fuel + 1, curr =>
    if curr = cb.write_pos then []
    else cb.buffer.getD curr default :: walk cb fuel ((curr + 1) % cb.capacity)

/-- The stored elements, oldest first: what `operator<<` writes, the loop never taking
more steps than the array has slots. -/
def contents [Inhabited T] (cb : CircularBuffer T) : List T :=
  cb.walk cb.capacity cb.read_pos

/-- The member `size`, computed in `size_t`: `write_pos - read_pos` when
`read_pos <= write_pos` (no wrap can occur there), and otherwise
`capacity - read_pos + write_pos`, each operation modulo `2^64`. -/
def size (cb : CircularBuffer T) : Nat :=
  if cb.read_pos ≤ cb.write_pos then cb.write_pos - cb.read_pos
  else ((cb.capacity + 2 ^ 64 - cb.read_pos) % 2 ^ 64 + cb.write_pos) % 2 ^ 64

end CircularBuffer

/-- One call on a buffer. -/
inductive Op (T : Type) where
  | push (value : T)
  | pop
deriving DecidableEq, Repr

/-- What a call returns. -/
inductive Res (T : Type) where
  | pushed (ok : Bool)
  | popped (value : Option T)
deriving DecidableEq, Repr

/-- Executes one call: the returned value and the new state. -/
def step {T : Type} (cb : CircularBuffer T) : Op T → Option (Res T × CircularBuffer T)
  | .push v =>
    match cb.push v with
    | none => none
    | some (ok, cb1) => some (.pushed ok, cb1)
  | .pop =>
    match cb.pop with
    | none => none
    | some (v, cb1) => some (.popped v, cb1)

/-- Executes a sequence of calls, first call first: the returned values and the final
state. -/
def run {T : Type} (cb : CircularBuffer T) : List (Op T) → Option (List (Res T) × CircularBuffer T)
  | [] => some ([], cb)
  | op :: ops =>
    match step cb op with
    | none => none
    | some (r, cb1) =>
      match run cb1 ops with
      | none => none
      | some (rs, cb2) => some (r :: rs, cb2)

/-- The bounded FIFO queue the buffer is compared with, one call: a queue of at most `n`
values, oldest first; a push on a full queue is refused, a pop on an empty queue returns
nothing, and otherwise a push appends and a pop removes and returns the oldest value. -/
def queue_step {T : Type} (n : Nat) (q : List T) : Op T → Res T × List T
  | .push v => if q.length = n then (.pushed false, q) else (.pushed true, q ++ [v])
  | .pop =>
    match q with
    | [] => (.popped none, [])
    | x :: t => (.popped (some x), t)

/-- The bounded FIFO queue, a sequence of calls. -/
def queue_run {T : Type} (n : Nat) (q : List T) : List (Op T) → List (Res T) × List T
  | [] => ([], q)
  | op :: ops =>
    ((queue_step n q op).1 :: (queue_run n (queue_step n q op).2 ops).1,
      (queue_run n (queue_step n q op).2 ops).2)

/-- The invariant of a buffer constructed with capacity `n`: the array has `n + 1` slots
and both positions are inside it. -/
structure WF {T : Type} (n : Nat) (cb : CircularBuffer T) : Prop where
  cap : cb.capacity = n + 1
  fits : n + 1 < 2 ^ 64
  len : cb.buffer.length = n + 1
  rd : cb.read_pos < n + 1
  wr : cb.write_pos < n + 1

/-- The position after `pos` in an array of `cap` slots. -/
def next_pos (cap pos : Nat) : Nat := if pos + 1 = cap then 0 else pos + 1

/-- The number of slots from `r` up to `w` in an array of `cap` slots. -/
def dist (cap r w : Nat) : Nat := if r ≤ w then w - r else cap - r + w

/-- The number of accepted pushes among the returned values of a call sequence. -/
def accepted_pushes {T : Type} : List (Res T) → Nat
  | [] => 0
  | .pushed true :: rs => accepted_pushes rs + 1
  | _ :: rs => accepted_pushes rs

/-- The number of pops that returned a value among the returned values of a call
sequence. -/
def successful_pops {T : Type} : List (Res T) → Nat
  | [] => 0
  | .popped (some _) :: rs => successful_pops rs + 1
  | _ :: rs => successful_pops rs

/-- The calls of `main`: five pushes into a buffer of capacity 5, a sixth push, four pops
and two more pushes, the second of which wraps the write position. -/
def main_ops : List (Op Int) :=
  [.push 1, .push 2, .push 3, .push 4, .push 5, .push 6, .pop, .pop, .pop, .pop,
   .push 6, .push 7]

/-- What the calls of `main` return. -/
def main_results : List (Res Int) :=
  [.pushed true, .pushed true, .pushed true, .pushed true, .pushed true, .pushed false,
   .popped (some 1), .popped (some 2), .popped (some 3), .popped (some 4), .pushed true,
   .pushed true]

/-- The buffer the calls of `main` build: the write position 1 has wrapped below the read
position 4; the stored elements are 5, 6, 7. -/
def main_buffer : CircularBuffer Int := ⟨4, 1, [7, 2, 3, 4, 5, 6], 6⟩

/-- The buffer the constructor builds for capacity `2^64 - 1`, the largest `size_t`: the
array size `capacity + 1` has wrapped to 0. -/
def max_capacity_buffer : CircularBuffer Int := CircularBuffer.new (2 ^ 64 - 1)

end circular_buffer

/-! # Doubly linked list (`dll.cpp`) -/

namespace dll

open order_book (lookup erase_key update)

/-- The struct `Node`; a pointer is the address of a live node or null (`none`). -/
structure Node where
  value : Int
  next : Option Nat
  prev : Option Nat
deriving DecidableEq, Repr

/-- The class `LinkedList`: members `head`, `tail`, `length`. The nodes live in `heap`,
a map from addresses to nodes; `next_addr` is the address the next `new Node` returns. -/
structure LinkedList where
  head : Option Nat
  tail : Option Nat
  length : Nat
  heap : List (Nat × Node)
  next_addr : Nat
deriving DecidableEq, Repr

/-- The statement `++length` on a `size_t`. -/
def size_inc (n : Nat) : Nat := (n + 1) % 2 ^ 64

/-- The statement `--length` on a `size_t`. -/
def size_dec (n : Nat) : Nat := (n + 2 ^ 64 - 1) % 2 ^ 64

namespace LinkedList

/-- The default constructor. -/
def empty : LinkedList := ⟨none, none, 0, [], 0⟩

/-- The member `push_front`; `none` is a dereference of a null or dangling pointer. -/
def push_front (l : LinkedList) (value : Int) : Option LinkedList :=
  let node := l.next_addr
  let heap := (node, (⟨value, none, none⟩ : Node)) :: l.heap
  let length := size_inc l.length
  if l.head = none ∧ l.tail = none then
    some ⟨some node, some node, length, heap, node + 1⟩
  else
    let heap := update heap node (fun n => { n with next := l.head })
    match l.head with
    | none => none
    | some h =>
      match lookup heap h with
      | none => none
      | some _ =>
        some ⟨some node, l.tail, length, update heap h (fun n => { n with prev := some node }),
          node + 1⟩

/-- The member `push_back`; `none` is a dereference of a null or dangling pointer. -/
def push_back (l : LinkedList) (value : Int) : Option LinkedList :=
  let node := l.next_addr
  let heap := (node, (⟨value, none, none⟩ : Node)) :: l.heap
  let length := size_inc l.length
  if l.head = none ∧ l.tail = none then
    some ⟨some node, some node, length, heap, node + 1⟩
  else
    match l.tail with
    | none => none
    | some t =>
      match lookup heap t with
      | none => none
      | some _ =>
        let heap := update heap t (fun n => { n with next := some node })
        some ⟨l.head, some node, length, update heap node (fun n => { n with prev := l.tail }),
          node + 1⟩

/-- The statement `delete p`: nothing for a null pointer, the release of a live node,
`none` for a dangling pointer. -/
def free (heap : List (Nat × Node)) : Option Nat → Option (List (Nat × Node))
  | none => some heap
  | some a =>
    match lookup heap a with
    | none => none
    | some _ => some (erase_key heap a)

/-- The member `pop_front`: the returned optional and the new state. -/
def pop_front (l : LinkedList) : Option (Option Int × LinkedList) :=
  if l.head = none ∧ l.tail = none then some (none, l)
  else
    let length := size_dec l.length
    match l.head with
    | none => none
    | some h =>
      match lookup l.heap h with
      | none => none
      | some n =>
        if l.head = l.tail then
          some (some n.value, ⟨none, none, length, erase_key l.heap h, l.next_addr⟩)
        else
          match n.next with
          | none => none
          | some h1 =>
            match lookup l.heap h1 with
            | none => none
            | some n1 =>
              match free l.heap n1.prev with
              | none => none
              | some heap =>
                match lookup heap h1 with
                | none => none
                | some _ =>
                  some (some n.value,
                    ⟨some h1, l.tail, length,
                      update heap h1 (fun m => { m with prev := none }), l.next_addr⟩)

/-- The member `pop_back`: the returned optional and the new state. -/
def pop_back (l : LinkedList) : Option (Option Int × LinkedList) :=
  if l.head = none ∧ l.tail = none then some (none, l)
  else
    let length := size_dec l.length
    if l.head = l.tail then
      match l.head with
      | none => none
      | some h =>
        match lookup l.heap h with
        | none => none
        | some n => some (some n.value, ⟨none, none, length, erase_key l.heap h, l.next_addr⟩)
    else
      match l.tail with
      | none => none
      | some t =>
        match lookup l.heap t with
        | none => none
        | some n =>
          match n.prev with
          | none => none
          | some t1 =>
            match lookup l.heap t1 with
            | none => none
            | some n1 =>
              match free l.heap n1.next with
              | none => none
              | some heap =>
                match lookup heap t1 with
                | none => none
                | some _ =>
                  some (some n.value,
                    ⟨l.head, some t1, length,
                      update heap t1 (fun m => { m with next := none }), l.next_addr⟩)

/-- The member `size`. -/
def size (l : LinkedList) : Nat := l.length

/-- The loop of `operator<<`: the values from `curr` along the `next` pointers, for at most
`fuel` nodes. -/
def to_list (heap : List (Nat × Node)) : Nat → Option Nat → List Int
  | 0, _ => []
  | _ + 1, none => []
  | fuel + 1, some a =>
    match lookup heap a with
    | none => []
    | some n => n.value :: to_list heap fuel n.next

/-- The sequence of values from head to tail: what `operator<<` writes, the loop never
visiting more nodes than were ever allocated. -/
def values (l : LinkedList) : List Int := to_list l.heap l.next_addr l.head

/-- The loop of the copy constructor and of copy assignment, `while (curr)`: for each node
of the source from `curr` on, `push_back(curr->value)` and then `++length` on the list
under construction. The source nodes are read in `src`; `none` when a pointer denotes no
live node or the loop needs more than `fuel` steps. -/
def copy_loop (src : List (Nat × Node)) : Nat → Option Nat → LinkedList → Option LinkedList
  | 0, none, l => some l
  | 0, some _, _ => none
  | _ + 1, none, l => some l
  | fuel + 1, some a, l =>
    match lookup src a with
    | none => none
    | some n =>
      match l.push_back n.value with
      | none => none
      | some l1 => copy_loop src fuel n.next { l1 with length := size_inc l1.length }

/-- The copy constructor `LinkedList(const LinkedList& other)`: the new list starts with
`head(nullptr), tail(nullptr), length(0)` and owns the nodes the loop allocates. The loop
never visits more nodes than the source ever allocated. -/
def copy (other : LinkedList) : Option LinkedList :=
  copy_loop other.heap other.next_addr other.head empty

/-- The loop of `clear`: `delete curr` for each node from `curr` along the `next`
pointers; `none` when a pointer denotes no live node or the loop needs more than `fuel`
steps. -/
def clear_loop : List (Nat × Node) → Nat → Option Nat → Option (List (Nat × Node))
  | heap, 0, none => some heap
  | _, 0, some _ => none
  | heap, _ + 1, none => some heap
  | heap, fuel + 1, some a =>
    match lookup heap a with
    | none => none
    | some n => clear_loop (erase_key heap a) fuel n.next

/-- The member `clear`. -/
def clear (l : LinkedList) : Option LinkedList :=
  match clear_loop l.heap l.next_addr l.head with
  | none => none
  | some heap => some ⟨none, none, 0, heap, l.next_addr⟩

/-- The copy assignment `*this = other` for two different objects (for `this == &other`
the operator returns at once and the list is unchanged): `clear()`, then the loop of the
copy constructor. -/
def assign (l other : LinkedList) : Option LinkedList :=
  match l.clear with
  | none => none
  | some l0 => copy_loop other.heap other.next_addr other.head l0

end LinkedList

/-- One call on a list. -/
inductive Op where
  | push_front (value : Int)
  | push_back (value : Int)
  | pop_front
  | pop_back
deriving DecidableEq, Repr

/-- What a call returns. -/
inductive Res where
  | pushed
  | popped (value : Option Int)
deriving DecidableEq, Repr

/-- Executes one call: the returned value and the new state. -/
def step (l : LinkedList) : Op → Option (Res × LinkedList)
  | .push_front v =>
    match l.push_front v with
    | none => none
    | some l1 => some (.pushed, l1)
  | .push_back v =>
    match l.push_back v with
    | none => none
    | some l1 => some (.pushed, l1)
  | .pop_front =>
    match l.pop_front with
    | none => none
    | some (v, l1) => some (.popped v, l1)
  | .pop_back =>
    match l.pop_back with
    | none => none
    | some (v, l1) => some (.popped v, l1)

/-- Executes a sequence of calls, first call first: the returned values and the final
state. -/
def run (l : LinkedList) : List Op → Option (List Res × LinkedList)
  | [] => some ([], l)
  | op :: ops =>
    match step l op with
    | none => none
    | some (r, l1) =>
      match run l1 ops with
      | none => none
      | some (rs, l2) => some (r :: rs, l2)

/-- The double-ended queue the list is compared with, one call, on the sequence of values
from head to tail: `push_front` prepends, `push_back` appends, `pop_front` removes and
returns the first value, `pop_back` removes and returns the last value, and a pop on the
empty sequence returns nothing and changes nothing. -/
def deque_step (q : List Int) : Op → Res × List Int
  | .push_front v => (.pushed, v :: q)
  | .push_back v => (.pushed, q ++ [v])
  | .pop_front =>
    match q with
    | [] => (.popped none, [])
    | x :: t => (.popped (some x), t)
  | .pop_back =>
    match q.getLast? with
    | none => (.popped none, q)
    | some x => (.popped (some x), q.dropLast)

/-- The double-ended queue, a sequence of calls. -/
def deque_run (q : List Int) : List Op → List Res × List Int
  | [] => ([], q)
  | op :: ops =>
    ((deque_step q op).1 :: (deque_run (deque_step q op).2 ops).1,
      (deque_run (deque_step q op).2 ops).2)

/-- The `next` pointer stored at address `a`, if the node is live. -/
def next_of (heap : List (Nat × Node)) (a : Nat) : Option Nat :=
  match lookup heap a with
  | none => none
  | some n => n.next

/-- The `prev` pointer stored at address `a`, if the node is live. -/
def prev_of (heap : List (Nat × Node)) (a : Nat) : Option Nat :=
  match lookup heap a with
  | none => none
  | some n => n.prev

/-- The value stored at address `a` (0 when the node is not live). -/
def value_of (heap : List (Nat × Node)) (a : Nat) : Int :=
  match lookup heap a with
  | none => 0
  | some n => n.value

/-- The representation invariant of a list whose nodes are, from head to tail, at the
addresses `addrs`: the addresses are distinct, live and already allocated, neighbours are
linked in both directions, the first node has no predecessor and the last no successor,
and `head` and `tail` are the first and the last address. -/
structure WF (l : LinkedList) (addrs : List Nat) : Prop where
  head_eq : l.head = addrs.head?
  tail_eq : l.tail = addrs.getLast?
  nodup : addrs.Nodup
  live : ∀ a ∈ addrs, lookup l.heap a ≠ none
  fresh : ∀ a, l.next_addr ≤ a → lookup l.heap a = none
  links : addrs.Chain' (fun a b => next_of l.heap a = some b ∧ prev_of l.heap b = some a)
  first : ∀ a, addrs.head? = some a → prev_of l.heap a = none
  last : ∀ a, addrs.getLast? = some a → next_of l.heap a = none

/-- The calls of `main`. -/
def main_ops : List Op := [.push_back 1, .push_back 2, .push_front 3, .pop_front, .pop_back]

end dll

/-! # Singly linked list (`sll.cpp`) -/

namespace sll

open order_book (lookup erase_key update)

/-- The struct `Node`; a pointer is the address of a live node or null (`none`). -/
structure Node where
  value : Int
  next : Option Nat
deriving DecidableEq, Repr

/-- The class `List`: members `head` (the address of the sentinel node the constructor
creates) and `num_elems` (an `int`). The nodes live in `heap`, a map from addresses to
nodes; `next_addr` is the address the next `new Node` returns. -/
structure SList where
  head : Nat
  num_elems : Int
  heap : List (Nat × Node)
  next_addr : Nat
deriving DecidableEq, Repr

/-- The statement `++num_elems` on an `int`; `none` is the signed overflow. -/
def int_inc (n : Int) : Option Int := if n = 2 ^ 31 - 1 then none else some (n + 1)

/-- The statement `--num_elems` on an `int`; `none` is the signed overflow. -/
def int_dec (n : Int) : Option Int := if n = -(2 ^ 31) then none else some (n - 1)

/-- The statement `delete p`: nothing for a null pointer, the release of a live node,
`none` for a dangling pointer. -/
def free (heap : List (Nat × Node)) : Option Nat → Option (List (Nat × Node))
  | none => some heap
  | some a =>
    match lookup heap a with
    | none => none
    | some _ => some (erase_key heap a)

/-- The loop of `push`, `while (curr->next) curr = curr->next`: the node it stops at;
`none` when a pointer denotes no live node or the loop needs more than `fuel` steps. -/
def last_node (heap : List (Nat × Node)) : Nat → Nat → Option Nat
  | 0, _ => none
  | fuel + 1, curr =>
    match lookup heap curr with
    | none => none
    | some n =>
      match n.next with
      | none => some curr
      | some c => last_node heap fuel c

/-- The loop of `pop`, `while (curr && curr->next)`, entered with `curr` not null: the
final `prev` and `curr`. -/
def seek_last (heap : List (Nat × Node)) : Nat → Nat → Nat → Option (Nat × Nat)
  | 0, _, _ => none
  | fuel + 1, prev, curr =>
    match lookup heap curr with
    | none => none
    | some n =>
      match n.next with
      | none => some (prev, curr)
      | some c => seek_last heap fuel curr c

/-- The loop of `delete_at`, `while (curr && idx)`: the final `prev`, `curr` and `idx`. -/
def seek_idx (heap : List (Nat × Node)) : Nat → Nat → Option Nat → Option (Nat × Option Nat × Nat)
  | 0, prev, curr => some (prev, curr, 0)
  | idx + 1, prev, none => some (prev, none, idx + 1)
  | idx + 1, _, some c =>
    match lookup heap c with
    | none => none
    | some n => seek_idx heap idx c n.next

/-- The loop of `display`: the values from `curr` along the `next` pointers, for at most
`fuel` nodes. -/
def to_list (heap : List (Nat × Node)) : Nat → Option Nat → List Int
  | 0, _ => []
  | _ + 1, none => []
  | fuel + 1, some a =>
    match lookup heap a with
    | none => []
    | some n => n.value :: to_list heap fuel n.next

namespace SList

/-- The constructor: `head` is a new node with value -1. -/
def new : SList := ⟨0, 0, [(0, ⟨-1, none⟩)], 1⟩

/-- The member `push`. -/
def push (l : SList) (value : Int) : Option SList :=
  match last_node l.heap l.next_addr l.head with
  | none => none
  | some curr =>
    let node := l.next_addr
    let heap := (node, (⟨value, none⟩ : Node)) :: l.heap
    let heap := update heap curr (fun n => { n with next := some node })
    match int_inc l.num_elems with
    | none => none
    | some k => some ⟨l.head, k, heap, node + 1⟩

/-- The member `pop`: the returned optional and the new state. -/
def pop (l : SList) : Option (Option Int × SList) :=
  match lookup l.heap l.head with
  | none => none
  | some hn =>
    match hn.next with
    | none => some (none, l)
    | some first =>
      match seek_last l.heap l.next_addr l.head first with
      | none => none
      | some (prev, curr) =>
        match lookup l.heap curr with
        | none => none
        | some cn =>
          match lookup l.heap prev with
          | none => none
          | some pn =>
            match free l.heap pn.next with
            | none => none
            | some heap =>
              match lookup heap prev with
              | none => none
              | some _ =>
                match int_dec l.num_elems with
                | none => none
                | some k =>
                  some (some cn.value,
                    ⟨l.head, k, update heap prev (fun n => { n with next := none }),
                      l.next_addr⟩)

/-- The member `delete_at`. -/
def delete_at (l : SList) (idx : Int) : Option SList :=
  if idx < 0 then some l
  else
    match lookup l.heap l.head with
    | none => none
    | some hn =>
      match seek_idx l.heap idx.toNat l.head hn.next with
      | none => none
      | some (_, none, _) => some l
      | some (prev, some curr, rem) =>
        if rem ≠ 0 then some l
        else
          match lookup l.heap prev with
          | none => none
          | some pn =>
            match lookup l.heap curr with
            | none => none
            | some cn =>
              match free (update l.heap prev (fun n => { n with next := cn.next })) pn.next with
              | none => none
              | some heap =>
                match int_dec l.num_elems with
                | none => none
                | some k => some ⟨l.head, k, heap, l.next_addr⟩

/-- The member `size`. -/
def size (l : SList) : Int := l.num_elems

/-- The elements in list order: what `display` writes, the loop never visiting more nodes
than were ever allocated. -/
def values (l : SList) : List Int :=
  match lookup l.heap l.head with
  | none => []
  | some hn => to_list l.heap l.next_addr hn.next

end SList

/-- One call on a list. -/
inductive Op where
  | push (value : Int)
  | pop
  | delete_at (idx : Int)
deriving DecidableEq, Repr

/-- What a call returns. -/
inductive Res where
  | done
  | popped (value : Option Int)
deriving DecidableEq, Repr

/-- Executes one call: the returned value and the new state. -/
def step (l : SList) : Op → Option (Res × SList)
  | .push v =>
    match l.push v with
    | none => none
    | some l1 => some (.done, l1)
  | .pop =>
    match l.pop with
    | none => none
    | some (v, l1) => some (.popped v, l1)
  | .delete_at idx =>
    match l.delete_at idx with
    | none => none
    | some l1 => some (.done, l1)

/-- Executes a sequence of calls, first call first: the returned values and the final
state. -/
def run (l : SList) : List Op → Option (List Res × SList)
  | [] => some ([], l)
  | op :: ops =>
    match step l op with
    | none => none
    | some (r, l1) =>
      match run l1 ops with
      | none => none
      | some (rs, l2) => some (r :: rs, l2)

/-- The `next` pointer stored at address `a`, if the node is live. -/
def next_of (heap : List (Nat × Node)) (a : Nat) : Option Nat :=
  match lookup heap a with
  | none => none
  | some n => n.next

/-- The value stored at address `a` (0 when the node is not live). -/
def value_of (heap : List (Nat × Node)) (a : Nat) : Int :=
  match lookup heap a with
  | none => 0
  | some n => n.value

/-- The representation invariant of a list whose elements are, in list order, at the
addresses `addrs`: the sentinel and the element nodes are distinct, live and already
allocated, each points to the next one, the last points to null, and `num_elems` counts
the elements. -/
structure WF (l : SList) (addrs : List Nat) : Prop where
  nodup : (l.head :: addrs).Nodup
  live : ∀ a ∈ l.head :: addrs, lookup l.heap a ≠ none
  fresh : ∀ a, l.next_addr ≤ a → lookup l.heap a = none
  links : (l.head :: addrs).Chain' (fun a b => next_of l.heap a = some b)
  last : ∀ a, (l.head :: addrs).getLast? = some a → next_of l.heap a = none
  count : l.num_elems = (addrs.length : Int)
  small : addrs.length < 2 ^ 31

/-- The first calls of `main`: three pushes. -/
def main_ops : List Op := [.push 1, .push 2, .push 3]

/-- The list the first calls of `main` build. -/
def main_list : SList :=
  ⟨0, 3, [(3, ⟨3, none⟩), (2, ⟨2, some 3⟩), (1, ⟨1, some 2⟩), (0, ⟨-1, some 1⟩)], 4⟩

end sll

/-! # Laws and claims of `order_book.cpp` -/

namespace order_book

/-! ## Laws of the container operations -/

theorem lookup_update {β : Type} (m : List (Nat × β)) (p q : Nat) (f : β → β) :
    lookup (update m p f) q = if q = p then (lookup m p).map f else lookup m q := by
  induction m with
  | nil => simp [update, lookup]
  | cons e t ih =>
    obtain ⟨k, v⟩ := e
    by_cases hk : k = p
    · subst hk
      by_cases hq : q = k
      · subst hq; simp [update, lookup]
      · have hq2 : ¬ k = q := fun h => hq h.symm
        simp [update, lookup, hq, hq2]
    · by_cases hq : q = p
      · subst hq; simp [update, lookup, hk, ih]
      · simp only [update, lookup, hk, if_false, ih, hq]

theorem lookup_erase_key {β : Type} (m : List (Nat × β)) (p q : Nat) :
    lookup (erase_key m p) q = if q = p then none else lookup m q := by
  induction m with
  | nil => simp [erase_key, lookup]
  | cons e t ih =>
    obtain ⟨k, v⟩ := e
    by_cases hk : k = p
    · subst hk
      by_cases hq : q = k
      · subst hq; simp [erase_key, ih]
      · have hq2 : ¬ k = q := fun h => hq h.symm
        simp [erase_key, lookup, ih, hq, hq2]
    · by_cases hq : q = p
      · subst hq; simp [erase_key, lookup, hk, ih]
      · simp only [erase_key, lookup, hk, if_false, ih, hq]

theorem keys_update {β : Type} (m : List (Nat × β)) (p : Nat) (f : β → β) :
    keys (update m p f) = keys m := by
  induction m with
  | nil => rfl
  | cons e t ih =>
    obtain ⟨k, v⟩ := e
    by_cases hk : k = p
    · simp [update, keys, hk]
    · simp only [keys] at ih
      simp [update, keys, hk, ih]

theorem keys_erase_key {β : Type} (m : List (Nat × β)) (p : Nat) :
    keys (erase_key m p) = (keys m).filter (fun k => decide (k ≠ p)) := by
  induction m with
  | nil => rfl
  | cons e t ih =>
    obtain ⟨k, v⟩ := e
    simp only [keys] at ih
    by_cases hk : k = p
    · simp [erase_key, keys, hk, ih]
    · simp [erase_key, keys, hk, ih]

theorem sorted_update {β : Type} {m : List (Nat × β)} (h : Sorted m) (p : Nat) (f : β → β) :
    Sorted (update m p f) := by
  unfold Sorted; rw [keys_update]; exact h

theorem sorted_erase_key {β : Type} {m : List (Nat × β)} (h : Sorted m) (p : Nat) :
    Sorted (erase_key m p) := by
  unfold Sorted; rw [keys_erase_key]; exact List.Pairwise.filter _ h

theorem mem_keys_of_lookup {β : Type} {m : List (Nat × β)} {p : Nat} {v : β}
    (h : lookup m p = some v) : p ∈ keys m := by
  induction m with
  | nil => simp [lookup] at h
  | cons e t ih =>
    obtain ⟨k, w⟩ := e
    by_cases hk : k = p
    · simp [keys, hk]
    · simp only [lookup, hk, if_false] at h
      have := ih h
      simp only [keys] at this
      simp [keys, this]

theorem lookup_eq_none_iff {β : Type} (m : List (Nat × β)) (p : Nat) :
    lookup m p = none ↔ p ∉ keys m := by
  induction m with
  | nil => simp [lookup, keys]
  | cons e t ih =>
    obtain ⟨k, w⟩ := e
    simp only [keys] at ih
    by_cases hk : k = p
    · simp [lookup, keys, hk]
    · have hk2 : ¬ p = k := fun h => hk h.symm
      simp [lookup, keys, hk, hk2, ih]

theorem mem_of_lookup {β : Type} {m : List (Nat × β)} {p : Nat} {v : β}
    (h : lookup m p = some v) : (p, v) ∈ m := by
  induction m with
  | nil => simp [lookup] at h
  | cons e t ih =>
    obtain ⟨k, w⟩ := e
    by_cases hk : k = p
    · simp only [lookup, hk, if_true, Option.some.injEq] at h
      simp [hk, h]
    · simp only [lookup, hk, if_false] at h
      exact List.mem_cons_of_mem _ (ih h)

theorem lookup_of_mem {β : Type} {m : List (Nat × β)} (hs : Sorted m) {p : Nat} {v : β}
    (h : (p, v) ∈ m) : lookup m p = some v := by
  induction m with
  | nil => simp at h
  | cons e t ih =>
    obtain ⟨k, w⟩ := e
    simp only [Sorted, keys, List.map_cons, List.pairwise_cons] at hs
    rcases List.mem_cons.1 h with h1 | h1
    · simp only [Prod.mk.injEq] at h1
      simp [lookup, h1.1, h1.2]
    · have hlt : k < p := hs.1 p (List.mem_map.2 ⟨(p, v), h1, rfl⟩)
      have hk : ¬ k = p := Nat.ne_of_lt hlt
      simp only [lookup, hk, if_false]
      exact ih hs.2 h1

theorem lookup_try_emplace_ne (m : PriceMap) {p q : Nat} (h : q ≠ p) :
    lookup (try_emplace m p) q = lookup m q := by
  induction m with
  | nil =>
    have h2 : ¬ p = q := fun e => h e.symm
    simp [try_emplace, lookup, h2]
  | cons e t ih =>
    obtain ⟨k, l⟩ := e
    have h2 : ¬ p = q := fun e => h e.symm
    by_cases h1 : p < k
    · simp [try_emplace, h1, lookup, h2]
    · by_cases h3 : p = k
      · simp [try_emplace, h1, h3]
      · simp only [try_emplace, h1, h3, if_false, lookup, ih]

theorem lookup_none_of_lt_head {β : Type} {k p : Nat} {v : β} {t : List (Nat × β)}
    (hs : Sorted ((k, v) :: t)) (h : p < k) : lookup ((k, v) :: t) p = none := by
  rw [lookup_eq_none_iff]
  intro hm
  simp only [Sorted, keys, List.map_cons, List.pairwise_cons] at hs
  simp only [keys, List.map_cons, List.mem_cons] at hm
  rcases hm with hm | hm
  · omega
  · have := hs.1 p hm
    omega

theorem sorted_tail {β : Type} {e : Nat × β} {t : List (Nat × β)} (hs : Sorted (e :: t)) :
    Sorted t := by
  simp only [Sorted, keys, List.map_cons, List.pairwise_cons] at hs
  exact hs.2

theorem lookup_try_emplace_self {m : PriceMap} (hs : Sorted m) (p : Nat) :
    lookup (try_emplace m p) p = some ((lookup m p).getD []) := by
  induction m with
  | nil => simp [try_emplace, lookup]
  | cons e t ih =>
    obtain ⟨k, l⟩ := e
    by_cases h1 : p < k
    · rw [lookup_none_of_lt_head hs h1]
      simp [try_emplace, h1, lookup]
    · by_cases h3 : p = k
      · subst h3
        simp [try_emplace, lookup]
      · have h4 : ¬ k = p := fun e => h3 e.symm
        simp only [try_emplace, h1, h3, if_false, lookup, h4]
        exact ih (sorted_tail hs)

theorem mem_keys_try_emplace (m : PriceMap) (p k : Nat) :
    k ∈ keys (try_emplace m p) ↔ k = p ∨ k ∈ keys m := by
  induction m with
  | nil => simp [try_emplace, keys]
  | cons e t ih =>
    obtain ⟨k1, l⟩ := e
    simp only [keys] at ih
    by_cases h1 : p < k1
    · simp [try_emplace, h1, keys]
    · by_cases h3 : p = k1
      · subst h3
        simp [try_emplace, keys]
      · simp only [try_emplace, h1, h3, if_false, keys, List.map_cons, List.mem_cons, ih]
        tauto

theorem sorted_try_emplace {m : PriceMap} (hs : Sorted m) (p : Nat) :
    Sorted (try_emplace m p) := by
  induction m with
  | nil => simp [try_emplace, Sorted, keys]
  | cons e t ih =>
    obtain ⟨k, l⟩ := e
    by_cases h1 : p < k
    · have hs2 := hs
      simp only [Sorted, keys, List.map_cons, List.pairwise_cons] at hs2
      simp only [try_emplace, h1, if_true, Sorted, keys, List.map_cons, List.pairwise_cons,
        List.mem_cons]
      refine ⟨?_, hs2.1, hs2.2⟩
      intro a ha
      rcases ha with ha | ha
      · omega
      · have := hs2.1 a ha
        omega
    · by_cases h3 : p = k
      · simpa [try_emplace, h1, h3] using hs
      · have hs2 := hs
        simp only [Sorted, keys, List.map_cons, List.pairwise_cons] at hs2
        have ih2 := ih (sorted_tail hs)
        simp only [try_emplace, h1, h3, if_false, Sorted, keys, List.map_cons,
          List.pairwise_cons]
        refine ⟨?_, ih2⟩
        intro a ha
        have ha2 : a ∈ keys (try_emplace t p) := ha
        rw [mem_keys_try_emplace] at ha2
        rcases ha2 with ha2 | ha2
        · omega
        · exact hs2.1 a ha2

theorem lookup_ext {β : Type} {m1 m2 : List (Nat × β)} (h1 : Sorted m1) (h2 : Sorted m2)
    (h : ∀ p, lookup m1 p = lookup m2 p) : m1 = m2 := by
  induction m1 generalizing m2 with
  | nil =>
    cases m2 with
    | nil => rfl
    | cons e t =>
      obtain ⟨k, v⟩ := e
      have := h k
      simp [lookup] at this
  | cons e1 t1 ih =>
    obtain ⟨k1, v1⟩ := e1
    cases m2 with
    | nil =>
      have := h k1
      simp [lookup] at this
    | cons e2 t2 =>
      obtain ⟨k2, v2⟩ := e2
      have hk : k1 = k2 := by
        rcases Nat.lt_trichotomy k1 k2 with hlt | heq | hgt
        · have a := h k1
          rw [lookup_none_of_lt_head h2 hlt] at a
          simp [lookup] at a
        · exact heq
        · have a := h k2
          rw [lookup_none_of_lt_head h1 hgt] at a
          simp [lookup] at a
      subst hk
      have hv : v1 = v2 := by
        have a := h k1
        simpa [lookup] using a
      subst hv
      have ht : t1 = t2 := by
        apply ih (sorted_tail h1) (sorted_tail h2)
        intro p
        by_cases hp : k1 = p
        · subst hp
          have a1 : lookup t1 k1 = none := by
            rw [lookup_eq_none_iff]
            intro hm
            simp only [Sorted, keys, List.map_cons, List.pairwise_cons] at h1
            exact Nat.lt_irrefl _ (h1.1 k1 hm)
          have a2 : lookup t2 k1 = none := by
            rw [lookup_eq_none_iff]
            intro hm
            simp only [Sorted, keys, List.map_cons, List.pairwise_cons] at h2
            exact Nat.lt_irrefl _ (h2.1 k1 hm)
          rw [a1, a2]
        · have a := h p
          simpa [lookup, hp] using a
      rw [ht]

/-! ## Laws of the level operations -/

theorem find_node_of_mem {l : Level} (hnd : (l.map Node.ref).Nodup) {n : Node} (hn : n ∈ l) :
    find_node l n.ref = some n := by
  induction l with
  | nil => simp at hn
  | cons a t ih =>
    simp only [List.map_cons, List.nodup_cons] at hnd
    rcases List.mem_cons.1 hn with h1 | h1
    · subst h1
      simp [find_node]
    · have hne : ¬ a.ref = n.ref := by
        intro e
        exact hnd.1 (e ▸ List.mem_map_of_mem Node.ref h1)
      have := ih hnd.2 h1
      simp only [find_node] at this
      simp [find_node, List.find?_cons, hne, this]

theorem mem_of_find_node {l : Level} {r : Nat} {n : Node} (h : find_node l r = some n) :
    n ∈ l ∧ n.ref = r := by
  simp only [find_node] at h
  have h1 := List.mem_of_find?_eq_some h
  have h2 := List.find?_some h
  exact ⟨h1, by simpa using h2⟩

theorem erase_node_eq_filter {l : Level} (hnd : (l.map Node.ref).Nodup) (r : Nat) :
    erase_node l r = l.filter (fun n => decide (n.ref ≠ r)) := by
  induction l with
  | nil => rfl
  | cons a t ih =>
    simp only [List.map_cons, List.nodup_cons] at hnd
    have iht := ih hnd.2
    simp only [erase_node] at iht
    by_cases h : a.ref = r
    · have ht : ∀ n ∈ t, n.ref ≠ r := by
        intro n hn e
        exact hnd.1 (h ▸ e ▸ List.mem_map_of_mem Node.ref hn)
      simp only [erase_node, List.eraseP_cons, h, beq_self_eq_true, cond_true]
      symm
      rw [List.filter_cons]
      simpa [h] using ht
    · simp [erase_node, List.eraseP_cons, h, iht]

/-! ## Laws of the book operations -/

namespace OrderBook

theorem side_set_side (b : OrderBook) (s s1 : Bool) (m : PriceMap) :
    (b.set_side s m).side s1 = if s1 = s then m else b.side s1 := by
  cases s <;> cases s1 <;> simp [side, set_side]

theorem orders_set_side (b : OrderBook) (s : Bool) (m : PriceMap) :
    (b.set_side s m).orders = b.orders := by
  cases s <;> simp [set_side]

theorem next_ref_set_side (b : OrderBook) (s : Bool) (m : PriceMap) :
    (b.set_side s m).next_ref = b.next_ref := by
  cases s <;> simp [set_side]

theorem add_order_known {b : OrderBook} {id : Nat} {ptr : OrderPtr}
    (h : lookup b.orders id = some ptr) (s : Bool) (p q : Nat) :
    b.add_order id s p q = b := by
  simp [add_order, h]

theorem add_order_new {b : OrderBook} {id : Nat} (h : lookup b.orders id = none)
    (s : Bool) (p q : Nat) :
    b.add_order id s p q =
      { b.set_side s (update (try_emplace (b.side s) p) p
          (fun level => level ++ [⟨b.next_ref, ⟨id, s, p, q⟩⟩])) with
        orders := (id, ⟨p, b.next_ref, s⟩) :: b.orders
        next_ref := b.next_ref + 1 } := by
  simp [add_order, h, index_assign]

theorem side_with_orders (b : OrderBook) (o : List (Nat × OrderPtr)) (n : Nat) (s : Bool) :
    ({ b with orders := o, next_ref := n } : OrderBook).side s = b.side s := by
  cases s <;> simp [side]

theorem add_order_side {b : OrderBook} {id : Nat} (h : lookup b.orders id = none)
    (s : Bool) (p q : Nat) (s1 : Bool) :
    (b.add_order id s p q).side s1 =
      if s1 = s then update (try_emplace (b.side s) p) p
          (fun level => level ++ [⟨b.next_ref, ⟨id, s, p, q⟩⟩])
      else b.side s1 := by
  rw [add_order_new h, side_with_orders, side_set_side]

theorem add_order_lookup {b : OrderBook} {id : Nat} (h : lookup b.orders id = none)
    (hs : Sorted (b.side s)) (p q : Nat) (s1 : Bool) (p1 : Nat) :
    lookup ((b.add_order id s p q).side s1) p1 =
      if s1 = s ∧ p1 = p then
        some ((lookup (b.side s) p).getD [] ++ [⟨b.next_ref, ⟨id, s, p, q⟩⟩])
      else lookup (b.side s1) p1 := by
  rw [add_order_side h]
  by_cases h1 : s1 = s
  · subst h1
    by_cases h2 : p1 = p
    · subst h2
      simp [lookup_update, lookup_try_emplace_self hs]
    · simp [lookup_update, h2, lookup_try_emplace_ne _ h2]
  · simp [h1]

theorem add_order_orders {b : OrderBook} {id : Nat} (h : lookup b.orders id = none)
    (s : Bool) (p q : Nat) (id1 : Nat) :
    lookup (b.add_order id s p q).orders id1 =
      if id1 = id then some ⟨p, b.next_ref, s⟩ else lookup b.orders id1 := by
  rw [add_order_new h]
  by_cases h1 : id1 = id
  · simp [lookup, h1]
  · have h2 : ¬ id = id1 := fun e => h1 e.symm
    simp [lookup, h1, h2]

theorem add_order_next_ref {b : OrderBook} {id : Nat} (h : lookup b.orders id = none)
    (s : Bool) (p q : Nat) :
    (b.add_order id s p q).next_ref = b.next_ref + 1 := by
  rw [add_order_new h]

theorem add_order_sorted {b : OrderBook} (hs : ∀ s, Sorted (b.side s))
    (id : Nat) (s : Bool) (p q : Nat) (s1 : Bool) :
    Sorted ((b.add_order id s p q).side s1) := by
  cases h : lookup b.orders id with
  | some ptr => rw [add_order_known h]; exact hs s1
  | none =>
    rw [add_order_side h]
    by_cases h1 : s1 = s
    · simp only [h1, if_true]
      exact sorted_update (sorted_try_emplace (hs s) p) _ _
    · simp only [h1, if_false]
      exact hs s1

theorem mem_getD_lookup {m : PriceMap} {p : Nat} {n : Node}
    (h : n ∈ (lookup m p).getD []) : ∃ l, lookup m p = some l ∧ n ∈ l := by
  cases hl : lookup m p with
  | none => simp [hl] at h
  | some l => exact ⟨l, rfl, by simpa [hl] using h⟩

theorem inv_add_order {b : OrderBook} (h : Inv b) (id : Nat) (s : Bool) (p q : Nat) :
    Inv (b.add_order id s p q) := by
  cases hid : lookup b.orders id with
  | some ptr => rw [add_order_known hid]; exact h
  | none =>
    have hne : ∀ s1 p1 l n, lookup (b.side s1) p1 = some l → n ∈ l → n.order.id ≠ id := by
      intro s1 p1 l n hl hn e
      have := (h.node s1 p1 l n hl hn).2.2
      rw [e, hid] at this
      exact Option.noConfusion this
    refine ⟨add_order_sorted h.sorted id s p q, ?_, ?_, ?_, ?_, ?_⟩
    · intro s1 p1 l hl
      rw [add_order_lookup hid (h.sorted s)] at hl
      by_cases hc : s1 = s ∧ p1 = p
      · simp only [hc, and_self, if_true, Option.some.injEq] at hl
        rw [← hl]; simp
      · simp only [hc, if_false] at hl
        exact h.nonempty s1 p1 l hl
    · intro s1 p1 l hl
      rw [add_order_lookup hid (h.sorted s)] at hl
      by_cases hc : s1 = s ∧ p1 = p
      · simp only [hc, and_self, if_true, Option.some.injEq] at hl
        rw [← hl, List.map_append, List.nodup_append]
        refine ⟨?_, by simp, ?_⟩
        · cases hold : lookup (b.side s) p with
          | none => simp
          | some l0 => simpa using h.refs s p l0 hold
        · intro r hr hr2
          simp only [List.map_cons, List.map_nil, List.mem_singleton] at hr2
          obtain ⟨n, hn, rfl⟩ := List.mem_map.1 hr
          obtain ⟨l0, hl0, hn0⟩ := mem_getD_lookup hn
          have := h.fresh s p l0 n hl0 hn0
          omega
      · simp only [hc, if_false] at hl
        exact h.refs s1 p1 l hl
    · intro s1 p1 l n hl hn
      rw [add_order_lookup hid (h.sorted s)] at hl
      rw [add_order_orders hid]
      by_cases hc : s1 = s ∧ p1 = p
      · simp only [hc, and_self, if_true, Option.some.injEq] at hl
        rw [← hl] at hn
        rcases List.mem_append.1 hn with hn | hn
        · obtain ⟨l0, hl0, hn0⟩ := mem_getD_lookup hn
          have h1 := h.node s p l0 n hl0 hn0
          rw [if_neg (hne s p l0 n hl0 hn0), hc.1, hc.2]
          exact h1
        · simp only [List.mem_singleton] at hn
          subst hn
          simp [hc.1, hc.2]
      · simp only [hc, if_false] at hl
        rw [if_neg (hne s1 p1 l n hl hn)]
        exact h.node s1 p1 l n hl hn
    · intro id1 ptr1 hp
      rw [add_order_orders hid] at hp
      by_cases hc : id1 = id
      · simp only [hc, if_true, Option.some.injEq] at hp
        subst hp
        refine ⟨(lookup (b.side s) p).getD [] ++ [⟨b.next_ref, ⟨id, s, p, q⟩⟩],
          ⟨b.next_ref, ⟨id, s, p, q⟩⟩, ?_, ?_, rfl, hc.symm⟩
        · rw [add_order_lookup hid (h.sorted s)]; simp
        · simp
      · simp only [hc, if_false] at hp
        obtain ⟨l, n, hl, hn, hr, hi⟩ := h.ptr id1 ptr1 hp
        by_cases hc2 : ptr1.is_bid = s ∧ ptr1.level_it = p
        · refine ⟨(lookup (b.side s) p).getD [] ++ [⟨b.next_ref, ⟨id, s, p, q⟩⟩],
            n, ?_, ?_, hr, hi⟩
          · rw [add_order_lookup hid (h.sorted s), if_pos hc2]
          · rw [hc2.1, hc2.2] at hl
            simp [hl, hn]
        · refine ⟨l, n, ?_, hn, hr, hi⟩
          rw [add_order_lookup hid (h.sorted s), if_neg hc2]
          exact hl
    · intro s1 p1 l n hl hn
      rw [add_order_lookup hid (h.sorted s)] at hl
      rw [add_order_next_ref hid]
      by_cases hc : s1 = s ∧ p1 = p
      · simp only [hc, and_self, if_true, Option.some.injEq] at hl
        rw [← hl] at hn
        rcases List.mem_append.1 hn with hn | hn
        · obtain ⟨l0, hl0, hn0⟩ := mem_getD_lookup hn
          have := h.fresh s p l0 n hl0 hn0
          omega
        · simp only [List.mem_singleton] at hn
          subst hn
          simp
      · simp only [hc, if_false] at hl
        have := h.fresh s1 p1 l n hl hn
        omega

theorem ref_iff_id {b : OrderBook} (h : Inv b) {id : Nat} {ptr : OrderPtr}
    (hp : lookup b.orders id = some ptr) {l : Level}
    (hl : lookup (b.side ptr.is_bid) ptr.level_it = some l) {m : Node} (hm : m ∈ l) :
    m.ref = ptr.order_it ↔ m.order.id = id := by
  obtain ⟨l0, n, hl0, hn, hr, hi⟩ := h.ptr id ptr hp
  rw [hl] at hl0
  simp only [Option.some.injEq] at hl0
  subst hl0
  constructor
  · intro e
    have : m = n :=
      List.inj_on_of_nodup_map (h.refs _ _ _ hl) hm hn (e.trans hr.symm)
    rw [this]; exact hi
  · intro e
    have := (h.node _ _ _ _ hl hm).2.2
    rw [e, hp] at this
    simp only [Option.some.injEq] at this
    rw [this]

theorem id_location {b : OrderBook} (h : Inv b) {id : Nat} {ptr : OrderPtr}
    (hp : lookup b.orders id = some ptr) {s1 : Bool} {p1 : Nat} {l1 : Level}
    (hl : lookup (b.side s1) p1 = some l1) {m : Node} (hm : m ∈ l1) (hi : m.order.id = id) :
    s1 = ptr.is_bid ∧ p1 = ptr.level_it := by
  have := (h.node _ _ _ _ hl hm).2.2
  rw [hi, hp] at this
  simp only [Option.some.injEq] at this
  rw [this]
  exact ⟨rfl, rfl⟩

theorem erase_node_eq_drop_id {b : OrderBook} (h : Inv b) {id : Nat} {ptr : OrderPtr}
    (hp : lookup b.orders id = some ptr) {l : Level}
    (hl : lookup (b.side ptr.is_bid) ptr.level_it = some l) :
    erase_node l ptr.order_it = drop_id id l := by
  rw [erase_node_eq_filter (h.refs _ _ _ hl), drop_id]
  apply List.filter_congr
  intro m hm
  have := ref_iff_id h hp hl hm
  simp only [ne_eq, decide_not, this]

theorem drop_id_elsewhere {b : OrderBook} (h : Inv b) {id : Nat} {ptr : OrderPtr}
    (hp : lookup b.orders id = some ptr) {s1 : Bool} {p1 : Nat} {l1 : Level}
    (hl : lookup (b.side s1) p1 = some l1)
    (hne : ¬ (s1 = ptr.is_bid ∧ p1 = ptr.level_it)) :
    drop_id id l1 = l1 := by
  rw [drop_id, List.filter_eq_self]
  intro m hm
  have : m.order.id ≠ id := fun e => hne (id_location h hp hl hm e)
  simpa using this

theorem delete_order_unknown {b : OrderBook} {id : Nat} (h : lookup b.orders id = none) :
    b.delete_order id = some b := by
  simp [delete_order, h]

theorem side_with_orders1 (b : OrderBook) (o : List (Nat × OrderPtr)) (s : Bool) :
    ({ b with orders := o } : OrderBook).side s = b.side s := by
  cases s <;> simp [side]

theorem delete_order_spec {b : OrderBook} (h : Inv b) {id : Nat} {ptr : OrderPtr}
    (hp : lookup b.orders id = some ptr) :
    ∃ b1, b.delete_order id = some b1 ∧
      (∀ s1 p1, lookup (b1.side s1) p1 =
        match lookup (b.side s1) p1 with
        | none => none
        | some l1 => if drop_id id l1 = [] then none else some (drop_id id l1)) ∧
      b1.orders = erase_key b.orders id ∧
      b1.next_ref = b.next_ref ∧
      (∀ s1, Sorted (b1.side s1)) := by
  obtain ⟨l, n, hl, hn, hr, hi⟩ := h.ptr id ptr hp
  have hf : find_node l ptr.order_it = some n := by
    rw [← hr]; exact find_node_of_mem (h.refs _ _ _ hl) hn
  have he := erase_node_eq_drop_id h hp hl
  refine ⟨_, by simp only [delete_order, hp, hl, hf]; rfl, ?_, ?_, ?_, ?_⟩
  · intro s1 p1
    rw [side_with_orders1, side_set_side, he]
    by_cases hc : s1 = ptr.is_bid
    · subst hc
      simp only [if_true]
      by_cases hc2 : p1 = ptr.level_it
      · subst hc2
        rw [hl]
        by_cases hemp : drop_id id l = []
        · simp [hemp, lookup_erase_key]
        · simp [hemp, lookup_update, hl]
      · have hsame : lookup (if (drop_id id l).isEmpty = true
            then erase_key (b.side ptr.is_bid) ptr.level_it
            else update (b.side ptr.is_bid) ptr.level_it (fun _ => drop_id id l)) p1 =
            lookup (b.side ptr.is_bid) p1 := by
          split
          · simp [lookup_erase_key, hc2]
          · simp [lookup_update, hc2]
        rw [hsame]
        cases hl1 : lookup (b.side ptr.is_bid) p1 with
        | none => rfl
        | some l1 =>
          have hd := drop_id_elsewhere h hp hl1 (fun c => hc2 c.2)
          have hne := h.nonempty _ _ _ hl1
          simp [hd, hne]
    · simp only [hc, if_false]
      cases hl1 : lookup (b.side s1) p1 with
      | none => rfl
      | some l1 =>
        have hd := drop_id_elsewhere h hp hl1 (fun c => hc c.1)
        have hne := h.nonempty _ _ _ hl1
        simp [hd, hne]
  · rfl
  · show (b.set_side _ _).next_ref = _
    rw [next_ref_set_side]
  · intro s1
    rw [side_with_orders1, side_set_side]
    by_cases hc : s1 = ptr.is_bid
    · simp only [hc, if_true]
      split
      · exact sorted_erase_key (h.sorted _) _
      · exact sorted_update (h.sorted _) _ _
    · simp only [hc, if_false]
      exact h.sorted s1

theorem mem_drop_id {id : Nat} {l : Level} {n : Node} :
    n ∈ drop_id id l ↔ n ∈ l ∧ n.order.id ≠ id := by
  simp [drop_id]

theorem lookup_pruned {m : PriceMap} {p : Nat} {id : Nat} {l2 : Level}
    (h : (match lookup m p with
        | none => none
        | some l1 => if drop_id id l1 = [] then none else some (drop_id id l1)) = some l2) :
    ∃ l1, lookup m p = some l1 ∧ l2 = drop_id id l1 ∧ l2 ≠ [] := by
  cases hl : lookup m p with
  | none => simp [hl] at h
  | some l1 =>
    simp only [hl] at h
    by_cases he : drop_id id l1 = []
    · simp [he] at h
    · simp only [he, if_false, Option.some.injEq] at h
      exact ⟨l1, rfl, h.symm, h ▸ he⟩

theorem inv_of_delete_spec {b b1 : OrderBook} (h : Inv b) {id : Nat}
    (hside : ∀ s1 p1, lookup (b1.side s1) p1 =
        match lookup (b.side s1) p1 with
        | none => none
        | some l1 => if drop_id id l1 = [] then none else some (drop_id id l1))
    (hord : b1.orders = erase_key b.orders id)
    (hnext : b1.next_ref = b.next_ref)
    (hsorted : ∀ s1, Sorted (b1.side s1)) : Inv b1 := by
  refine ⟨hsorted, ?_, ?_, ?_, ?_, ?_⟩
  · intro s1 p1 l2 hl2
    rw [hside] at hl2
    obtain ⟨l1, _, _, hne⟩ := lookup_pruned hl2
    exact hne
  · intro s1 p1 l2 hl2
    rw [hside] at hl2
    obtain ⟨l1, hl1, he, _⟩ := lookup_pruned hl2
    subst he
    exact List.Nodup.sublist ((List.filter_sublist l1).map Node.ref) (h.refs _ _ _ hl1)
  · intro s1 p1 l2 n hl2 hn
    rw [hside] at hl2
    obtain ⟨l1, hl1, he, _⟩ := lookup_pruned hl2
    subst he
    obtain ⟨hn1, hni⟩ := mem_drop_id.1 hn
    have := h.node _ _ _ _ hl1 hn1
    rw [hord, lookup_erase_key, if_neg hni]
    exact this
  · intro id1 ptr1 hp1
    rw [hord, lookup_erase_key] at hp1
    by_cases hc : id1 = id
    · simp [hc] at hp1
    · simp only [hc, if_false] at hp1
      obtain ⟨l1, n, hl1, hn, hr, hi⟩ := h.ptr id1 ptr1 hp1
      have hn2 : n ∈ drop_id id l1 := mem_drop_id.2 ⟨hn, by rw [hi]; exact hc⟩
      refine ⟨drop_id id l1, n, ?_, hn2, hr, hi⟩
      rw [hside, hl1]
      have : drop_id id l1 ≠ [] := List.ne_nil_of_mem hn2
      simp [this]
  · intro s1 p1 l2 n hl2 hn
    rw [hside] at hl2
    obtain ⟨l1, hl1, he, _⟩ := lookup_pruned hl2
    subst he
    rw [hnext]
    exact h.fresh _ _ _ _ hl1 (mem_drop_id.1 hn).1

theorem delete_order_total {b : OrderBook} (h : Inv b) (id : Nat) :
    ∃ b1, b.delete_order id = some b1 ∧ Inv b1 := by
  cases hp : lookup b.orders id with
  | none => exact ⟨b, delete_order_unknown hp, h⟩
  | some ptr =>
    obtain ⟨b1, hd, hside, hord, hnext, hsorted⟩ := delete_order_spec h hp
    exact ⟨b1, hd, inv_of_delete_spec h hside hord hnext hsorted⟩

theorem deref_known {b : OrderBook} (h : Inv b) {id : Nat} {ptr : OrderPtr}
    (hp : lookup b.orders id = some ptr) :
    ∃ l n, lookup (b.side ptr.is_bid) ptr.level_it = some l ∧ n ∈ l ∧
      n.ref = ptr.order_it ∧ n.order.id = id ∧ n.order.price = ptr.level_it ∧
      n.order.is_bid = ptr.is_bid ∧ b.deref ptr = some n.order := by
  obtain ⟨l, n, hl, hn, hr, hi⟩ := h.ptr id ptr hp
  have hf : find_node l ptr.order_it = some n := by
    rw [← hr]; exact find_node_of_mem (h.refs _ _ _ hl) hn
  have hnode := h.node _ _ _ _ hl hn
  exact ⟨l, n, hl, hn, hr, hi, hnode.1, hnode.2.1, by simp [deref, hl, hf]⟩

theorem set_qty_other {id q : Nat} {n : Node} (h : n.order.id ≠ id) : set_qty id q n = n := by
  simp [set_qty, h]

theorem set_qty_same {id q : Nat} {n : Node} (h : n.order.qty = q) : set_qty id q n = n := by
  obtain ⟨r, ⟨i, s, p, q0⟩⟩ := n
  simp only at h
  subst h
  simp [set_qty]

theorem set_qty_ref (id q : Nat) (n : Node) : (set_qty id q n).ref = n.ref := by
  unfold set_qty; split <;> rfl

theorem set_qty_id (id q : Nat) (n : Node) : (set_qty id q n).order.id = n.order.id := by
  unfold set_qty; split <;> rfl

theorem set_qty_price (id q : Nat) (n : Node) :
    (set_qty id q n).order.price = n.order.price := by
  unfold set_qty; split <;> rfl

theorem set_qty_is_bid (id q : Nat) (n : Node) :
    (set_qty id q n).order.is_bid = n.order.is_bid := by
  unfold set_qty; split <;> rfl

theorem write_qty_eq_set_qty {b : OrderBook} (h : Inv b) {id : Nat} {ptr : OrderPtr}
    (hp : lookup b.orders id = some ptr) {l : Level}
    (hl : lookup (b.side ptr.is_bid) ptr.level_it = some l) (q : Nat) :
    write_qty l ptr.order_it q = l.map (set_qty id q) := by
  unfold write_qty
  apply List.map_congr_left
  intro m hm
  have := ref_iff_id h hp hl hm
  by_cases hc : m.ref = ptr.order_it
  · simp [set_qty, hc, this.1 hc]
  · have hc2 : ¬ m.order.id = id := fun e => hc (this.2 e)
    simp [set_qty, hc, hc2]

theorem map_set_qty_elsewhere {b : OrderBook} (h : Inv b) {id : Nat} {ptr : OrderPtr}
    (hp : lookup b.orders id = some ptr) {s1 : Bool} {p1 : Nat} {l1 : Level}
    (hl : lookup (b.side s1) p1 = some l1)
    (hne : ¬ (s1 = ptr.is_bid ∧ p1 = ptr.level_it)) (q : Nat) :
    l1.map (set_qty id q) = l1 := by
  conv_rhs => rw [← List.map_id l1]
  apply List.map_congr_left
  intro m hm
  have : m.order.id ≠ id := fun e => hne (id_location h hp hl hm e)
  simp [set_qty_other this]

theorem map_set_qty_unchanged {b : OrderBook} (h : Inv b) {id : Nat} {ptr : OrderPtr}
    (hp : lookup b.orders id = some ptr) {n : Node} {l : Level}
    (hl : lookup (b.side ptr.is_bid) ptr.level_it = some l) (hn : n ∈ l)
    (hr : n.ref = ptr.order_it) {s1 : Bool} {p1 : Nat} {l1 : Level}
    (hl1 : lookup (b.side s1) p1 = some l1) :
    l1.map (set_qty id n.order.qty) = l1 := by
  by_cases hc : s1 = ptr.is_bid ∧ p1 = ptr.level_it
  · rw [hc.1, hc.2, hl] at hl1
    simp only [Option.some.injEq] at hl1
    subst hl1
    conv_rhs => rw [← List.map_id l]
    apply List.map_congr_left
    intro m hm
    by_cases hi : m.order.id = id
    · have hmr := (ref_iff_id h hp hl hm).2 hi
      have : m = n := List.inj_on_of_nodup_map (h.refs _ _ _ hl) hm hn (hmr.trans hr.symm)
      subst this
      simp [set_qty_same]
    · simp [set_qty_other hi]
  · exact map_set_qty_elsewhere h hp hl1 hc _

theorem modify_order_unknown {b : OrderBook} {id : Nat} (h : lookup b.orders id = none)
    (np nq : Nat) : b.modify_order id np nq = some b := by
  simp [modify_order, h]

theorem modify_order_zero {b : OrderBook} (h : Inv b) {id : Nat} {ptr : OrderPtr}
    (hp : lookup b.orders id = some ptr) (np : Nat) :
    b.modify_order id np 0 = b.delete_order id := by
  obtain ⟨l, n, hl, hn, hr, hi, hpr, hs, hd⟩ := deref_known h hp
  simp [modify_order, hp, hd, hi]

theorem modify_order_reduce {b : OrderBook} (h : Inv b) {id : Nat} {ptr : OrderPtr}
    (hp : lookup b.orders id = some ptr) (np : Nat) {nq : Nat} (hq : nq ≠ 0) :
    ∃ b1,
      (∀ s1 p1, lookup (b1.side s1) p1 =
        (lookup (b.side s1) p1).map (List.map (set_qty id nq))) ∧
      b1.orders = b.orders ∧ b1.next_ref = b.next_ref ∧ (∀ s1, Sorted (b1.side s1)) ∧
      b.modify_order id np nq =
        if ptr.level_it ≠ np then
          match b1.delete_order id with
          | none => none
          | some b2 => some (b2.add_order id ptr.is_bid np nq)
        else some b1 := by
  obtain ⟨l, n, hl, hn, hr, hi, hpr, hs, hd⟩ := deref_known h hp
  by_cases hw : n.order.qty = nq
  · refine ⟨b, ?_, rfl, rfl, h.sorted, ?_⟩
    · intro s1 p1
      cases hl1 : lookup (b.side s1) p1 with
      | none => rfl
      | some l1 =>
        rw [← hw, Option.map_some', map_set_qty_unchanged h hp hl hn hr hl1]
    · simp [modify_order, hp, hd, hq, hw, hi, hpr, hs]
  · refine ⟨b.set_side ptr.is_bid (update (b.side ptr.is_bid) ptr.level_it
        (fun level => write_qty level ptr.order_it nq)), ?_, ?_, ?_, ?_, ?_⟩
    · intro s1 p1
      rw [side_set_side]
      by_cases hc : s1 = ptr.is_bid
      · subst hc
        simp only [if_true, lookup_update]
        by_cases hc2 : p1 = ptr.level_it
        · subst hc2
          simp [hl, write_qty_eq_set_qty h hp hl]
        · simp only [hc2, if_false]
          cases hl1 : lookup (b.side ptr.is_bid) p1 with
          | none => rfl
          | some l1 =>
            rw [Option.map_some', map_set_qty_elsewhere h hp hl1 (fun c => hc2 c.2)]
      · simp only [hc, if_false]
        cases hl1 : lookup (b.side s1) p1 with
        | none => rfl
        | some l1 =>
          rw [Option.map_some', map_set_qty_elsewhere h hp hl1 (fun c => hc c.1)]
    · rw [orders_set_side]
    · rw [next_ref_set_side]
    · intro s1
      rw [side_set_side]
      by_cases hc : s1 = ptr.is_bid
      · simp only [hc, if_true]
        exact sorted_update (h.sorted _) _ _
      · simp only [hc, if_false]
        exact h.sorted s1
    · simp [modify_order, hp, hd, hq, hw, hi, hpr, hs]

theorem lookup_mapped {m : PriceMap} {p : Nat} {f : Node → Node} {l2 : Level}
    (h : (lookup m p).map (List.map f) = some l2) :
    ∃ l1, lookup m p = some l1 ∧ l2 = l1.map f := by
  cases hl : lookup m p with
  | none => simp [hl] at h
  | some l1 =>
    simp only [hl, Option.map_some', Option.some.injEq] at h
    exact ⟨l1, rfl, h.symm⟩

theorem inv_of_write_spec {b b1 : OrderBook} (h : Inv b) {id q : Nat}
    (hside : ∀ s1 p1, lookup (b1.side s1) p1 =
        (lookup (b.side s1) p1).map (List.map (set_qty id q)))
    (hord : b1.orders = b.orders)
    (hnext : b1.next_ref = b.next_ref)
    (hsorted : ∀ s1, Sorted (b1.side s1)) : Inv b1 := by
  have hrefs : ∀ l : Level, (l.map (set_qty id q)).map Node.ref = l.map Node.ref := by
    intro l
    rw [List.map_map]
    apply List.map_congr_left
    intro n _
    exact set_qty_ref id q n
  refine ⟨hsorted, ?_, ?_, ?_, ?_, ?_⟩
  · intro s1 p1 l2 hl2
    rw [hside] at hl2
    obtain ⟨l1, hl1, he⟩ := lookup_mapped hl2
    subst he
    have := h.nonempty _ _ _ hl1
    simpa using this
  · intro s1 p1 l2 hl2
    rw [hside] at hl2
    obtain ⟨l1, hl1, he⟩ := lookup_mapped hl2
    subst he
    rw [hrefs]
    exact h.refs _ _ _ hl1
  · intro s1 p1 l2 n hl2 hn
    rw [hside] at hl2
    obtain ⟨l1, hl1, he⟩ := lookup_mapped hl2
    subst he
    obtain ⟨n0, hn0, rfl⟩ := List.mem_map.1 hn
    rw [set_qty_price, set_qty_is_bid, set_qty_id, set_qty_ref, hord]
    exact h.node _ _ _ _ hl1 hn0
  · intro id1 ptr1 hp1
    rw [hord] at hp1
    obtain ⟨l1, n, hl1, hn, hr, hi⟩ := h.ptr id1 ptr1 hp1
    refine ⟨l1.map (set_qty id q), set_qty id q n, ?_, List.mem_map_of_mem _ hn, ?_, ?_⟩
    · rw [hside, hl1]; rfl
    · rw [set_qty_ref]; exact hr
    · rw [set_qty_id]; exact hi
  · intro s1 p1 l2 n hl2 hn
    rw [hside] at hl2
    obtain ⟨l1, hl1, he⟩ := lookup_mapped hl2
    subst he
    obtain ⟨n0, hn0, rfl⟩ := List.mem_map.1 hn
    rw [set_qty_ref, hnext]
    exact h.fresh _ _ _ _ hl1 hn0

theorem modify_order_total {b : OrderBook} (h : Inv b) (id np nq : Nat) :
    ∃ b1, b.modify_order id np nq = some b1 ∧ Inv b1 := by
  cases hp : lookup b.orders id with
  | none => exact ⟨b, modify_order_unknown hp np nq, h⟩
  | some ptr =>
    by_cases hq : nq = 0
    · subst hq
      rw [modify_order_zero h hp]
      exact delete_order_total h id
    · obtain ⟨b1, hside, hord, hnext, hsorted, hm⟩ := modify_order_reduce h hp np hq
      have hinv1 := inv_of_write_spec h hside hord hnext hsorted
      rw [hm]
      by_cases hc : ptr.level_it = np
      · exact ⟨b1, by simp [hc], hinv1⟩
      · obtain ⟨b2, hd, hinv2⟩ := delete_order_total hinv1 id
        exact ⟨b2.add_order id ptr.is_bid np nq,
          by simp only [ne_eq, hc, not_false_eq_true, if_true, hd],
          inv_add_order hinv2 _ _ _ _⟩

theorem inv_empty : Inv empty := by
  refine ⟨?_, ?_, ?_, ?_, ?_, ?_⟩
  · intro s; cases s <;> simp [side, empty, Sorted, keys]
  · intro s p l hl; cases s <;> simp [side, empty, lookup] at hl
  · intro s p l hl; cases s <;> simp [side, empty, lookup] at hl
  · intro s p l n hl; cases s <;> simp [side, empty, lookup] at hl
  · intro id ptr hp; simp [empty, lookup] at hp
  · intro s p l n hl; cases s <;> simp [side, empty, lookup] at hl

end OrderBook

theorem step_total {b : OrderBook} (h : Inv b) (op : Op) :
    ∃ b1, step b op = some b1 ∧ Inv b1 := by
  cases op with
  | add id s p q => exact ⟨_, rfl, OrderBook.inv_add_order h id s p q⟩
  | delete id => exact OrderBook.delete_order_total h id
  | modify id np nq => exact OrderBook.modify_order_total h id np nq

theorem run_total {b : OrderBook} (h : Inv b) (ops : List Op) :
    ∃ b1, run b ops = some b1 ∧ Inv b1 := by
  induction ops generalizing b with
  | nil => exact ⟨b, rfl, h⟩
  | cons op ops ih =>
    obtain ⟨b1, hs, hi⟩ := step_total h op
    obtain ⟨b2, hr, hi2⟩ := ih hi
    exact ⟨b2, by simp only [run, hs, hr], hi2⟩

theorem inv_of_run {ops : List Op} {b : OrderBook}
    (h : run OrderBook.empty ops = some b) : Inv b := by
  obtain ⟨b1, hr, hi⟩ := run_total OrderBook.inv_empty ops
  rw [h] at hr
  simp only [Option.some.injEq] at hr
  rw [hr]; exact hi

/-! ## Resting orders -/

theorem mem_resting {b : OrderBook} {o : Order} :
    o ∈ b.resting ↔ ∃ s p l n, (p, l) ∈ b.side s ∧ n ∈ l ∧ n.order = o := by
  simp only [OrderBook.resting, List.mem_flatMap, List.mem_append, List.mem_map]
  constructor
  · rintro ⟨⟨p, l⟩, hm, n, hn, rfl⟩
    rcases hm with hm | hm
    · exact ⟨true, p, l, n, hm, hn, rfl⟩
    · exact ⟨false, p, l, n, hm, hn, rfl⟩
  · rintro ⟨s, p, l, n, hm, hn, rfl⟩
    cases s
    · exact ⟨(p, l), Or.inr hm, n, hn, rfl⟩
    · exact ⟨(p, l), Or.inl hm, n, hn, rfl⟩

theorem resting_fields {b : OrderBook} (h : Inv b) {o : Order} (ho : o ∈ b.resting) :
    ∃ l n, lookup (b.side o.is_bid) o.price = some l ∧ n ∈ l ∧ n.order = o ∧
      lookup b.orders o.id = some ⟨o.price, n.ref, o.is_bid⟩ := by
  obtain ⟨s, p, l, n, hm, hn, rfl⟩ := mem_resting.1 ho
  have hl := lookup_of_mem (h.sorted s) hm
  obtain ⟨h1, h2, h3⟩ := h.node s p l n hl hn
  refine ⟨l, n, ?_, hn, rfl, ?_⟩
  · rw [h1, h2]; exact hl
  · rw [h1, h2]; exact h3

theorem resting_of_lookup {b : OrderBook} {s : Bool} {p : Nat} {l : Level} {n : Node}
    (hl : lookup (b.side s) p = some l) (hn : n ∈ l) : n.order ∈ b.resting :=
  mem_resting.2 ⟨s, p, l, n, mem_of_lookup hl, hn, rfl⟩

theorem mem_level_orders {b : OrderBook} {s : Bool} {p : Nat} {o : Order} :
    o ∈ b.level_orders s p ↔ ∃ l n, lookup (b.side s) p = some l ∧ n ∈ l ∧ n.order = o := by
  unfold OrderBook.level_orders
  cases hl : lookup (b.side s) p with
  | none => simp
  | some l => simp

theorem inv_levels_nonempty {b : OrderBook} (h : Inv b) {s : Bool} {p : Nat} {l : Level}
    (hm : (p, l) ∈ b.side s) : l ≠ [] :=
  h.nonempty s p l (lookup_of_mem (h.sorted s) hm)

theorem inv_keys_iff_resting {b : OrderBook} (h : Inv b) (s : Bool) (p : Nat) :
    p ∈ keys (b.side s) ↔ ∃ o ∈ b.resting, o.is_bid = s ∧ o.price = p := by
  constructor
  · intro hk
    obtain ⟨⟨p1, l⟩, hm, he⟩ := List.mem_map.1 hk
    simp only at he
    subst he
    have hl := lookup_of_mem (h.sorted s) hm
    obtain ⟨n, t, hnt⟩ := List.exists_cons_of_ne_nil (h.nonempty s p1 l hl)
    have hn : n ∈ l := by rw [hnt]; exact List.mem_cons_self _ _
    obtain ⟨h1, h2, _⟩ := h.node s p1 l n hl hn
    exact ⟨n.order, resting_of_lookup hl hn, h2, h1⟩
  · rintro ⟨o, ho, rfl, rfl⟩
    obtain ⟨l, n, hl, _⟩ := resting_fields h ho
    exact mem_keys_of_lookup hl

theorem level_ids_nodup {b : OrderBook} (h : Inv b) {s : Bool} {p : Nat} {l : Level}
    (hl : lookup (b.side s) p = some l) : (l.map (fun n => n.order.id)).Nodup := by
  apply List.Nodup.map_on
  · intro x hx y hy e
    have hx1 := (h.node s p l x hl hx).2.2
    have hy1 := (h.node s p l y hl hy).2.2
    rw [e, hy1] at hx1
    simp only [Option.some.injEq, OrderPtr.mk.injEq, true_and, and_true] at hx1
    exact List.inj_on_of_nodup_map (h.refs s p l hl) hx hy hx1.symm
  · exact List.Nodup.of_map _ (h.refs s p l hl)

theorem levels_disjoint {b : OrderBook} (h : Inv b) {s1 s2 : Bool} {p1 p2 : Nat}
    {l1 l2 : Level} (h1 : lookup (b.side s1) p1 = some l1)
    (h2 : lookup (b.side s2) p2 = some l2) (hne : ¬ (s1 = s2 ∧ p1 = p2)) :
    List.Disjoint (l1.map (fun n => n.order.id)) (l2.map (fun n => n.order.id)) := by
  intro i hi1 hi2
  obtain ⟨n1, hn1, rfl⟩ := List.mem_map.1 hi1
  obtain ⟨n2, hn2, e⟩ := List.mem_map.1 hi2
  have a1 := (h.node s1 p1 l1 n1 h1 hn1).2.2
  have a2 := (h.node s2 p2 l2 n2 h2 hn2).2.2
  have e2 : n2.order.id = n1.order.id := e
  rw [e2, a1] at a2
  simp only [Option.some.injEq, OrderPtr.mk.injEq] at a2
  exact hne ⟨a2.2.2, a2.1⟩

theorem inv_ids_nodup {b : OrderBook} (h : Inv b) : (b.resting.map Order.id).Nodup := by
  have hre : b.resting.map Order.id =
      (b.bids ++ b.asks).flatMap (fun e => e.2.map (fun n => n.order.id)) := by
    simp only [OrderBook.resting, List.map_flatMap, List.map_map]
    rfl
  have hside : ∀ s, List.Pairwise
      (fun e1 e2 : Nat × Level => List.Disjoint (e1.2.map (fun n => n.order.id))
        (e2.2.map (fun n => n.order.id))) (b.side s) := by
    intro s
    have hs := h.sorted s
    simp only [Sorted, keys, List.pairwise_map] at hs
    refine List.Pairwise.imp_of_mem ?_ hs
    intro e1 e2 he1 he2 hlt
    have a1 := lookup_of_mem (h.sorted s) (show (e1.1, e1.2) ∈ b.side s from he1)
    have a2 := lookup_of_mem (h.sorted s) (show (e2.1, e2.2) ∈ b.side s from he2)
    exact levels_disjoint h a1 a2 (fun c => Nat.ne_of_lt hlt c.2)
  rw [hre, List.nodup_flatMap]
  constructor
  · intro e he
    rcases List.mem_append.1 he with he | he
    · exact level_ids_nodup h
        (lookup_of_mem (h.sorted true) (show (e.1, e.2) ∈ b.side true from he))
    · exact level_ids_nodup h
        (lookup_of_mem (h.sorted false) (show (e.1, e.2) ∈ b.side false from he))
  · rw [List.pairwise_append]
    refine ⟨hside true, hside false, ?_⟩
    intro e1 he1 e2 he2
    have a1 := lookup_of_mem (h.sorted true) (show (e1.1, e1.2) ∈ b.side true from he1)
    have a2 := lookup_of_mem (h.sorted false) (show (e2.1, e2.2) ∈ b.side false from he2)
    exact levels_disjoint h a1 a2 (fun c => Bool.noConfusion c.1)

theorem level_orders_of_delete_spec {b b1 : OrderBook} {id : Nat}
    (hside : ∀ s1 p1, lookup (b1.side s1) p1 =
        match lookup (b.side s1) p1 with
        | none => none
        | some l1 => if drop_id id l1 = [] then none else some (drop_id id l1))
    (s : Bool) (p : Nat) :
    b1.level_orders s p = (b.level_orders s p).filter (fun o => decide (o.id ≠ id)) := by
  unfold OrderBook.level_orders
  rw [hside]
  cases hl : lookup (b.side s) p with
  | none => rfl
  | some l =>
    have hmap : (drop_id id l).map Node.order =
        (l.map Node.order).filter (fun o => decide (o.id ≠ id)) := by
      rw [drop_id, List.filter_map]; rfl
    by_cases he : drop_id id l = []
    · simp only [he, if_true]
      rw [← hmap, he]; rfl
    · simp only [he, if_false]
      exact hmap

theorem resting_id_known {b : OrderBook} (h : Inv b) {o : Order} (ho : o ∈ b.resting) :
    lookup b.orders o.id ≠ none := by
  obtain ⟨l, n, _, _, _, hp⟩ := resting_fields h ho
  rw [hp]; exact Option.noConfusion

theorem run_sample : run OrderBook.empty sample_ops = some sample_book := by decide

/-! ## Best bid and offer -/

theorem side_true (b : OrderBook) : b.side true = b.bids := by simp [OrderBook.side]

theorem side_false (b : OrderBook) : b.side false = b.asks := by simp [OrderBook.side]

theorem sorted_getLast {β : Type} {m : List (Nat × β)} (hs : Sorted m) {p : Nat} {v : β}
    (h : m.getLast? = some (p, v)) : lookup m p = some v ∧ ∀ k ∈ keys m, k ≤ p := by
  obtain ⟨ys, rfl⟩ := List.getLast?_eq_some_iff.1 h
  refine ⟨lookup_of_mem hs (by simp), ?_⟩
  intro k hk
  simp only [Sorted, keys, List.map_append, List.map_cons, List.map_nil,
    List.pairwise_append] at hs
  simp only [keys, List.map_append, List.map_cons, List.map_nil, List.mem_append,
    List.mem_singleton] at hk
  rcases hk with hk | hk
  · exact Nat.le_of_lt (hs.2.2 k hk p (by simp))
  · omega

theorem sorted_head {β : Type} {m : List (Nat × β)} (hs : Sorted m) {p : Nat} {v : β}
    (h : m.head? = some (p, v)) : lookup m p = some v ∧ ∀ k ∈ keys m, p ≤ k := by
  cases m with
  | nil => simp at h
  | cons e t =>
    simp only [List.head?_cons, Option.some.injEq] at h
    subst h
    refine ⟨by simp [lookup], ?_⟩
    intro k hk
    simp only [Sorted, keys, List.map_cons, List.pairwise_cons] at hs
    simp only [keys, List.map_cons, List.mem_cons] at hk
    rcases hk with hk | hk
    · omega
    · exact Nat.le_of_lt (hs.1 k hk)

theorem to_int_of_lt {p : Nat} (h : p < 2 ^ 31) : OrderBook.to_int p = (p : Int) := by
  have h1 : p % 2 ^ 32 = p := Nat.mod_eq_of_lt (by omega)
  unfold OrderBook.to_int
  rw [h1, if_pos h]

theorem below_add_order {B : Nat} {b : OrderBook} (h : Inv b) (hb : PricesBelow B b)
    (id : Nat) (s : Bool) {p : Nat} (hp : p < B) (q : Nat) :
    PricesBelow B (b.add_order id s p q) := by
  cases hid : lookup b.orders id with
  | some ptr => rw [OrderBook.add_order_known hid]; exact hb
  | none =>
    intro s1 p1 l hl
    rw [OrderBook.add_order_lookup hid (h.sorted s)] at hl
    by_cases hc : s1 = s ∧ p1 = p
    · rw [hc.2]; exact hp
    · simp only [hc, if_false] at hl
      exact hb s1 p1 l hl

theorem below_of_delete_spec {B : Nat} {b b1 : OrderBook} (hb : PricesBelow B b) {id : Nat}
    (hside : ∀ s1 p1, lookup (b1.side s1) p1 =
        match lookup (b.side s1) p1 with
        | none => none
        | some l1 => if drop_id id l1 = [] then none else some (drop_id id l1)) :
    PricesBelow B b1 := by
  intro s p l hl
  rw [hside] at hl
  obtain ⟨l1, hl1, _, _⟩ := OrderBook.lookup_pruned hl
  exact hb s p l1 hl1

theorem below_delete_order {B : Nat} {b b1 : OrderBook} (h : Inv b) (hb : PricesBelow B b)
    {id : Nat} (hd : b.delete_order id = some b1) : PricesBelow B b1 := by
  cases hp : lookup b.orders id with
  | none =>
    rw [OrderBook.delete_order_unknown hp] at hd
    simp only [Option.some.injEq] at hd
    rw [← hd]; exact hb
  | some ptr =>
    obtain ⟨b2, hd2, hside, _⟩ := OrderBook.delete_order_spec h hp
    rw [hd] at hd2
    simp only [Option.some.injEq] at hd2
    rw [hd2]
    exact below_of_delete_spec hb hside

theorem below_modify_order {B : Nat} {b b1 : OrderBook} (h : Inv b) (hb : PricesBelow B b)
    {id np nq : Nat} (hnp : np < B) (hm : b.modify_order id np nq = some b1) :
    PricesBelow B b1 := by
  cases hp : lookup b.orders id with
  | none =>
    rw [OrderBook.modify_order_unknown hp] at hm
    simp only [Option.some.injEq] at hm
    rw [← hm]; exact hb
  | some ptr =>
    by_cases hq : nq = 0
    · subst hq
      rw [OrderBook.modify_order_zero h hp] at hm
      exact below_delete_order h hb hm
    · obtain ⟨b2, hside, hord, hnext, hsorted, hred⟩ :=
        OrderBook.modify_order_reduce h hp np hq
      have hinv2 := OrderBook.inv_of_write_spec h hside hord hnext hsorted
      have hb2 : PricesBelow B b2 := by
        intro s p l hl
        rw [hside] at hl
        obtain ⟨l1, hl1, _⟩ := OrderBook.lookup_mapped hl
        exact hb s p l1 hl1
      rw [hred] at hm
      by_cases hc : ptr.level_it = np
      · simp only [ne_eq, hc, not_true_eq_false, if_false, Option.some.injEq] at hm
        rw [← hm]; exact hb2
      · simp only [ne_eq, hc, not_false_eq_true, if_true] at hm
        obtain ⟨b3, hd3, hinv3⟩ := OrderBook.delete_order_total hinv2 id
        rw [hd3] at hm
        simp only [Option.some.injEq] at hm
        rw [← hm]
        exact below_add_order hinv3 (below_delete_order hinv2 hb2 hd3) _ _ hnp _

theorem run_below {B : Nat} {b : OrderBook} (h : Inv b) (hb : PricesBelow B b)
    (ops : List Op) (hops : ∀ op ∈ ops, ∀ p ∈ op.prices, p < B) :
    ∃ b1, run b ops = some b1 ∧ Inv b1 ∧ PricesBelow B b1 := by
  induction ops generalizing b with
  | nil => exact ⟨b, rfl, h, hb⟩
  | cons op ops ih =>
    obtain ⟨b1, hs, hi⟩ := step_total h op
    have hb1 : PricesBelow B b1 := by
      have hop := hops op (List.mem_cons_self _ _)
      cases op with
      | add id s p q =>
        simp only [step, Option.some.injEq] at hs
        rw [← hs]
        exact below_add_order h hb id s (hop p (by simp [Op.prices])) q
      | delete id => exact below_delete_order h hb hs
      | modify id np nq =>
        exact below_modify_order h hb (hop np (by simp [Op.prices])) hs
    obtain ⟨b2, hr, hi2, hb2⟩ := ih hi hb1 (fun o ho => hops o (List.mem_cons_of_mem _ ho))
    exact ⟨b2, by simp only [run, hs, hr], hi2, hb2⟩

theorem below_empty (B : Nat) : PricesBelow B OrderBook.empty := by
  intro s p l hl
  cases s <;> simp [OrderBook.side, OrderBook.empty, lookup] at hl

/-! ## Exact states -/

theorem book_ext {b b1 : OrderBook} (hs : ∀ s, b.side s = b1.side s)
    (ho : b.orders = b1.orders) (hn : b.next_ref = b1.next_ref) : b = b1 := by
  have h1 := hs true
  have h2 := hs false
  rw [side_true, side_true] at h1
  rw [side_false, side_false] at h2
  cases b; cases b1
  simp only [OrderBook.mk.injEq]
  exact ⟨h1, h2, ho, hn⟩

theorem lookup_map_values (m : PriceMap) (f : Level → Level) (p : Nat) :
    lookup (m.map (fun e => (e.1, f e.2))) p = (lookup m p).map f := by
  induction m with
  | nil => rfl
  | cons e t ih =>
    obtain ⟨k, l⟩ := e
    by_cases hk : k = p
    · simp [lookup, hk]
    · simp [lookup, hk, ih]

theorem keys_map_values (m : PriceMap) (f : Level → Level) :
    keys (m.map (fun e => (e.1, f e.2))) = keys m := by
  simp only [keys, List.map_map]
  rfl

theorem side_eq_map_of_write_spec {b b1 : OrderBook} (h : Inv b) {id q : Nat}
    (hside : ∀ s1 p1, lookup (b1.side s1) p1 =
        (lookup (b.side s1) p1).map (List.map (set_qty id q)))
    (hsorted : ∀ s1, Sorted (b1.side s1)) (s : Bool) :
    b1.side s = (b.side s).map (fun e => (e.1, e.2.map (set_qty id q))) := by
  apply lookup_ext (hsorted s)
  · unfold Sorted
    rw [keys_map_values]
    exact h.sorted s
  · intro p
    rw [hside, lookup_map_values]

theorem drop_id_map_set_qty (id q : Nat) (l : Level) :
    drop_id id (l.map (set_qty id q)) = drop_id id l := by
  induction l with
  | nil => rfl
  | cons n t ih =>
    simp only [drop_id] at ih
    by_cases hi : n.order.id = id
    · have h2 : (set_qty id q n).order.id = id := by rw [OrderBook.set_qty_id]; exact hi
      simpa [drop_id, List.filter_cons, hi, h2] using ih
    · simpa [drop_id, List.filter_cons, hi, OrderBook.set_qty_other hi] using ih

theorem level_orders_eq (b : OrderBook) (s : Bool) (p : Nat) :
    b.level_orders s p = ((lookup (b.side s) p).getD []).map Node.order := by
  unfold OrderBook.level_orders
  cases lookup (b.side s) p <;> rfl

theorem level_orders_add_order {b : OrderBook} {id : Nat} (hid : lookup b.orders id = none)
    {s : Bool} (hs : Sorted (b.side s)) (p q : Nat) (s1 : Bool) (p1 : Nat) :
    (b.add_order id s p q).level_orders s1 p1 =
      b.level_orders s1 p1 ++ (if s1 = s ∧ p1 = p then [⟨id, s, p, q⟩] else []) := by
  rw [level_orders_eq, level_orders_eq, OrderBook.add_order_lookup hid hs]
  by_cases hc : s1 = s ∧ p1 = p
  · simp [hc]
  · simp [hc]

theorem set_qty_order (id q : Nat) (n : Node) :
    (set_qty id q n).order = if n.order.id = id then { n.order with qty := q } else n.order := by
  unfold set_qty; split <;> rfl

theorem level_orders_of_write_spec {b b1 : OrderBook} {id q : Nat}
    (hside : ∀ s1 p1, lookup (b1.side s1) p1 =
        (lookup (b.side s1) p1).map (List.map (set_qty id q)))
    (s : Bool) (p : Nat) :
    b1.level_orders s p =
      (b.level_orders s p).map (fun x => if x.id = id then { x with qty := q } else x) := by
  unfold OrderBook.level_orders
  rw [hside]
  cases hl : lookup (b.side s) p with
  | none => rfl
  | some l =>
    simp only [Option.map_some', List.map_map]
    apply List.map_congr_left
    intro n _
    exact set_qty_order id q n

theorem run_main : (run OrderBook.empty main_ops).map OrderBook.get_bbo = some (10, 15) := by
  decide

/-! ## Rendering -/

theorem intercalate_go_render (acc : String) (o : Order) (l : List Order) :
    String.intercalate.go acc " -> " ((o :: l).map render_order) =
      acc ++ " -> " ++ render_orders (o :: l) := by
  induction l generalizing acc o with
  | nil => simp [String.intercalate.go, render_orders]
  | cons o1 t ih =>
    have := ih (acc ++ " -> " ++ render_order o) o1
    simp only [List.map_cons, String.intercalate.go] at this ⊢
    rw [this]
    simp only [render_orders, String.append_assoc]

theorem render_orders_eq_intercalate (l : List Order) :
    render_orders l = " -> ".intercalate (l.map render_order) := by
  cases l with
  | nil => rfl
  | cons o t =>
    cases t with
    | nil => simp [String.intercalate, String.intercalate.go, render_orders]
    | cons o1 t1 =>
      have := intercalate_go_render (render_order o) o1 t1
      simp only [List.map_cons, String.intercalate, render_orders] at this ⊢
      rw [this]

theorem run_adds {b : OrderBook} (h : Inv b) (s : Bool) (p : Nat) (calls : List (Nat × Nat))
    (hnd : (calls.map Prod.fst).Nodup) (hfresh : ∀ c ∈ calls, lookup b.orders c.1 = none) :
    ∃ b1, run b (calls.map (fun c => Op.add c.1 s p c.2)) = some b1 ∧ Inv b1 ∧
      ∀ s1 p1, b1.level_orders s1 p1 =
        b.level_orders s1 p1 ++
          (if s1 = s ∧ p1 = p then calls.map (fun c => ⟨c.1, s, p, c.2⟩) else []) := by
  induction calls generalizing b with
  | nil => exact ⟨b, rfl, h, by intro s1 p1; simp⟩
  | cons c cs ih =>
    simp only [List.map_cons, List.nodup_cons] at hnd
    have hc := hfresh c (List.mem_cons_self _ _)
    have h1 := OrderBook.inv_add_order h c.1 s p c.2
    have hfresh1 : ∀ c1 ∈ cs, lookup (b.add_order c.1 s p c.2).orders c1.1 = none := by
      intro c1 hc1
      rw [OrderBook.add_order_orders hc]
      have : c1.1 ≠ c.1 := by
        intro e
        exact hnd.1 (e ▸ List.mem_map_of_mem Prod.fst hc1)
      rw [if_neg this]
      exact hfresh c1 (List.mem_cons_of_mem _ hc1)
    obtain ⟨b1, hr, hi, hlev⟩ := ih h1 hnd.2 hfresh1
    refine ⟨b1, by simp only [List.map_cons, run, step, hr], hi, ?_⟩
    intro s1 p1
    rw [hlev, level_orders_add_order hc (h.sorted s)]
    by_cases hcase : s1 = s ∧ p1 = p
    · simp [hcase]
    · simp [hcase]

/-! ## Claims -/

/-- C2. In every state reached from the empty book by a sequence of `add_order`,
`delete_order` and `modify_order` calls (the sequence always runs to completion), every
price key present in `bids` or `asks` maps to a non-empty level, and the prices present on
a side are exactly the prices at which an order of that side rests: the level at that price
holds an order, and a resting order carries that side and that price. -/
theorem C2_present_levels_nonempty (ops : List Op) :
    ∃ b, run OrderBook.empty ops = some b ∧
      (∀ s p l, (p, l) ∈ b.side s → l ≠ []) ∧
      (∀ s p, p ∈ keys (b.side s) ↔ b.level_orders s p ≠ []) ∧
      (∀ s p, p ∈ keys (b.side s) ↔ ∃ o ∈ b.resting, o.is_bid = s ∧ o.price = p) := by
  obtain ⟨b, hr, h⟩ := run_total OrderBook.inv_empty ops
  refine ⟨b, hr, fun s p l hm => inv_levels_nonempty h hm, ?_, inv_keys_iff_resting h⟩
  intro s p
  unfold OrderBook.level_orders
  cases hl : lookup (b.side s) p with
  | none =>
    have := (lookup_eq_none_iff _ _).1 hl
    simp [this]
  | some l =>
    have := h.nonempty s p l hl
    simp [mem_keys_of_lookup hl, this]

/-- C3. In every state reached from the empty book the order index and the two sides
correspond exactly: every id in the order index names a side and a level that exists and
holds, at the node the locator denotes, an order with that id whose stored price is the
level price and whose stored side is the locator side; every resting order has its id in
the order index; and no id rests more than once across both sides. -/
theorem C3_index_matches_sides (ops : List Op) :
    ∃ b, run OrderBook.empty ops = some b ∧
      (∀ id ptr, lookup b.orders id = some ptr →
        ∃ l n, (ptr.level_it, l) ∈ b.side ptr.is_bid ∧
          find_node l ptr.order_it = some n ∧ n.order.id = id ∧
          n.order.price = ptr.level_it ∧ n.order.is_bid = ptr.is_bid) ∧
      (∀ o ∈ b.resting, ∃ ptr, lookup b.orders o.id = some ptr ∧
        ptr.level_it = o.price ∧ ptr.is_bid = o.is_bid) ∧
      (b.resting.map Order.id).Nodup := by
  obtain ⟨b, hr, h⟩ := run_total OrderBook.inv_empty ops
  refine ⟨b, hr, ?_, ?_, inv_ids_nodup h⟩
  · intro id ptr hp
    obtain ⟨l, n, hl, hn, hrf, hi⟩ := h.ptr id ptr hp
    obtain ⟨h1, h2, _⟩ := h.node _ _ _ _ hl hn
    refine ⟨l, n, mem_of_lookup hl, ?_, hi, h1, h2⟩
    rw [← hrf]
    exact find_node_of_mem (h.refs _ _ _ hl) hn
  · intro o ho
    obtain ⟨l, n, _, _, _, hp⟩ := resting_fields h ho
    exact ⟨_, hp, rfl, rfl⟩

/-- C10. For every book state (reachable or not) and every id that is not in the order
index, `delete_order(id)` and `modify_order(id, p, q)`, for every `p` and `q` including
`q = 0`, return normally and leave the book exactly unchanged. -/
theorem C10_unknown_id_noop (b : OrderBook) (id p q : Nat)
    (h : lookup b.orders id = none) :
    b.delete_order id = some b ∧ b.modify_order id p q = some b :=
  ⟨OrderBook.delete_order_unknown h, OrderBook.modify_order_unknown h p q⟩

/-- C10 at the sample book: id 9 is unknown; deleting it or modifying it to quantity 0
changes nothing. -/
theorem C10_unknown_id_noop_witness :
    lookup sample_book.orders 9 = none ∧
      (sample_book.delete_order 9 = some sample_book ∧
        sample_book.modify_order 9 10 0 = some sample_book) :=
  ⟨by decide, C10_unknown_id_noop sample_book 9 10 0 (by decide)⟩

/-- C9. `add_order(id, side, price, qty)` with an id already in the order index leaves the
whole book unchanged, for every side, price and quantity; consequently two `add_order`
calls with the same id give the state of the first call alone. -/
theorem C9_duplicate_add_noop (b : OrderBook) (id : Nat) (s : Bool) (p q : Nat)
    (s1 : Bool) (p1 q1 : Nat) :
    (lookup b.orders id ≠ none → b.add_order id s p q = b) ∧
      (b.add_order id s p q).add_order id s1 p1 q1 = b.add_order id s p q := by
  constructor
  · intro h
    cases hp : lookup b.orders id with
    | none => exact absurd hp h
    | some ptr => exact OrderBook.add_order_known hp s p q
  · cases hp : lookup b.orders id with
    | some ptr =>
      rw [OrderBook.add_order_known hp, OrderBook.add_order_known hp]
    | none =>
      have h2 : lookup (b.add_order id s p q).orders id = some ⟨p, b.next_ref, s⟩ := by
        rw [OrderBook.add_order_orders hp]; simp
      exact OrderBook.add_order_known h2 s1 p1 q1

/-- C9 on the example of the specification: after `add_order(1, Bid, 10, 5)` the call
`add_order(1, Bid, 99, 999)` changes nothing. -/
theorem C9_duplicate_add_noop_witness :
    lookup (OrderBook.empty.add_order 1 true 10 5).orders 1 ≠ none ∧
      ((lookup (OrderBook.empty.add_order 1 true 10 5).orders 1 ≠ none →
          (OrderBook.empty.add_order 1 true 10 5).add_order 1 true 99 999 =
            OrderBook.empty.add_order 1 true 10 5) ∧
        ((OrderBook.empty.add_order 1 true 10 5).add_order 1 true 99 999).add_order 1 false 3 4 =
          (OrderBook.empty.add_order 1 true 10 5).add_order 1 true 99 999) :=
  ⟨by decide, C9_duplicate_add_noop (OrderBook.empty.add_order 1 true 10 5) 1 true 99 999
    false 3 4⟩

/-- C6. In every state reached from the empty book, `modify_order(id, new_price, 0)` on a
known id returns, for every `new_price`, exactly the state `delete_order(id)` returns. -/
theorem C6_modify_zero_is_delete (ops : List Op) (b : OrderBook) (id np : Nat)
    (ptr : OrderPtr) (hr : run OrderBook.empty ops = some b)
    (hp : lookup b.orders id = some ptr) :
    ∃ b1, b.delete_order id = some b1 ∧ b.modify_order id np 0 = some b1 := by
  have h := inv_of_run hr
  obtain ⟨b1, hd, _⟩ := OrderBook.delete_order_total h id
  exact ⟨b1, hd, by rw [OrderBook.modify_order_zero h hp, hd]⟩

/-- C6 at the sample book: modifying order 1 to quantity 0 at another price (33) gives the
state of deleting order 1. -/
theorem C6_modify_zero_is_delete_witness :
    run OrderBook.empty sample_ops = some sample_book ∧
      lookup sample_book.orders 1 = some ⟨10, 0, true⟩ ∧
      ∃ b1, sample_book.delete_order 1 = some b1 ∧ sample_book.modify_order 1 33 0 = some b1 :=
  ⟨by decide, by decide,
    C6_modify_zero_is_delete sample_ops sample_book 1 33 ⟨10, 0, true⟩ (by decide) (by decide)⟩

/-- C8. In every state reached from the empty book, `delete_order(id)` on a known id
returns a state in which id is absent from the order index and from every level of both
sides, no level is empty, every level holds its former orders other than id, unchanged and
in their former relative order, and the index entries of the other ids are unchanged. -/
theorem C8_delete_removes_all_traces (ops : List Op) (b : OrderBook) (id : Nat)
    (ptr : OrderPtr) (hr : run OrderBook.empty ops = some b)
    (hp : lookup b.orders id = some ptr) :
    ∃ b1, b.delete_order id = some b1 ∧
      lookup b1.orders id = none ∧
      (∀ o ∈ b1.resting, o.id ≠ id) ∧
      (∀ s p l, (p, l) ∈ b1.side s → l ≠ []) ∧
      (∀ s p, b1.level_orders s p =
        (b.level_orders s p).filter (fun o => decide (o.id ≠ id))) ∧
      (∀ id1, id1 ≠ id → lookup b1.orders id1 = lookup b.orders id1) := by
  have h := inv_of_run hr
  obtain ⟨b1, hd, hside, hord, hnext, hsorted⟩ := OrderBook.delete_order_spec h hp
  have h1 := OrderBook.inv_of_delete_spec h hside hord hnext hsorted
  have hnone : lookup b1.orders id = none := by
    rw [hord, lookup_erase_key]; simp
  refine ⟨b1, hd, hnone, ?_, fun s p l hm => inv_levels_nonempty h1 hm,
    level_orders_of_delete_spec hside, ?_⟩
  · intro o ho e
    have := resting_id_known h1 ho
    rw [e] at this
    exact this hnone
  · intro id1 hne
    rw [hord, lookup_erase_key, if_neg hne]

/-- C8 at the sample book: order 1 is deleted from the level it shares with order 2. -/
theorem C8_delete_removes_all_traces_witness :
    run OrderBook.empty sample_ops = some sample_book ∧
      lookup sample_book.orders 1 = some ⟨10, 0, true⟩ ∧
      ∃ b1, sample_book.delete_order 1 = some b1 ∧
        lookup b1.orders 1 = none ∧
        (∀ o ∈ b1.resting, o.id ≠ 1) ∧
        (∀ s p l, (p, l) ∈ b1.side s → l ≠ []) ∧
        (∀ s p, b1.level_orders s p =
          (sample_book.level_orders s p).filter (fun o => decide (o.id ≠ 1))) ∧
        (∀ id1, id1 ≠ 1 → lookup b1.orders id1 = lookup sample_book.orders id1) :=
  ⟨by decide, by decide,
    C8_delete_removes_all_traces sample_ops sample_book 1 ⟨10, 0, true⟩ (by decide)
      (by decide)⟩

/-- C1. In every state reached from the empty book by calls whose prices are all below
2^31 (the sequence always runs to completion), whenever a bid order rests,
`get_bbo().first` is the price of a resting bid order and no resting bid order has a higher
price; whenever an ask order rests, `get_bbo().second` is the price of a resting ask order
and no resting ask order has a lower price. -/
theorem C1_bbo_is_best_price (ops : List Op)
    (hops : ∀ op ∈ ops, ∀ p ∈ op.prices, p < 2 ^ 31) :
    ∃ b, run OrderBook.empty ops = some b ∧
      ((∃ o ∈ b.resting, o.is_bid = true) →
        ∃ o ∈ b.resting, o.is_bid = true ∧ b.get_bbo.1 = (o.price : Int) ∧
          ∀ o1 ∈ b.resting, o1.is_bid = true → o1.price ≤ o.price) ∧
      ((∃ o ∈ b.resting, o.is_bid = false) →
        ∃ o ∈ b.resting, o.is_bid = false ∧ b.get_bbo.2 = (o.price : Int) ∧
          ∀ o1 ∈ b.resting, o1.is_bid = false → o.price ≤ o1.price) := by
  obtain ⟨b, hr, h, hb⟩ := run_below OrderBook.inv_empty (below_empty _) ops hops
  refine ⟨b, hr, ?_, ?_⟩
  · rintro ⟨o0, ho0, hs0⟩
    obtain ⟨l0, n0, hl0, _⟩ := resting_fields h ho0
    rw [hs0, side_true] at hl0
    cases hlast : b.bids.getLast? with
    | none =>
      rw [List.getLast?_eq_none_iff] at hlast
      rw [hlast] at hl0
      simp [lookup] at hl0
    | some e =>
      obtain ⟨p, l⟩ := e
      have hsorted := h.sorted true
      rw [side_true] at hsorted
      obtain ⟨hl, hmax⟩ := sorted_getLast hsorted hlast
      have hl2 : lookup (b.side true) p = some l := by rw [side_true]; exact hl
      obtain ⟨n, t, hnt⟩ := List.exists_cons_of_ne_nil (h.nonempty true p l hl2)
      have hn : n ∈ l := by rw [hnt]; exact List.mem_cons_self _ _
      obtain ⟨h1, h2, _⟩ := h.node true p l n hl2 hn
      refine ⟨n.order, resting_of_lookup hl2 hn, h2, ?_, ?_⟩
      · simp only [OrderBook.get_bbo, hlast, h1]
        exact to_int_of_lt (hb true p l hl2)
      · intro o1 ho1 hs1
        obtain ⟨l1, n1, hl1, _⟩ := resting_fields h ho1
        rw [hs1, side_true] at hl1
        rw [h1]
        exact hmax _ (mem_keys_of_lookup hl1)
  · rintro ⟨o0, ho0, hs0⟩
    obtain ⟨l0, n0, hl0, _⟩ := resting_fields h ho0
    rw [hs0, side_false] at hl0
    cases hhead : b.asks.head? with
    | none =>
      rw [List.head?_eq_none_iff] at hhead
      rw [hhead] at hl0
      simp [lookup] at hl0
    | some e =>
      obtain ⟨p, l⟩ := e
      have hsorted := h.sorted false
      rw [side_false] at hsorted
      obtain ⟨hl, hmin⟩ := sorted_head hsorted hhead
      have hl2 : lookup (b.side false) p = some l := by rw [side_false]; exact hl
      obtain ⟨n, t, hnt⟩ := List.exists_cons_of_ne_nil (h.nonempty false p l hl2)
      have hn : n ∈ l := by rw [hnt]; exact List.mem_cons_self _ _
      obtain ⟨h1, h2, _⟩ := h.node false p l n hl2 hn
      refine ⟨n.order, resting_of_lookup hl2 hn, h2, ?_, ?_⟩
      · simp only [OrderBook.get_bbo, hhead, h1]
        exact to_int_of_lt (hb false p l hl2)
      · intro o1 ho1 hs1
        obtain ⟨l1, n1, hl1, _⟩ := resting_fields h ho1
        rw [hs1, side_false] at hl1
        rw [h1]
        exact hmin _ (mem_keys_of_lookup hl1)

/-- C1 on the second scenario of `main`: all prices are below 2^31 and the book reports
the best bid 10 and the best ask 15. -/
theorem C1_bbo_is_best_price_witness :
    (∀ op ∈ main_ops, ∀ p ∈ op.prices, p < 2 ^ 31) ∧
      (run OrderBook.empty main_ops).map OrderBook.get_bbo = some (10, 15) ∧
      ∃ b, run OrderBook.empty main_ops = some b ∧
        ((∃ o ∈ b.resting, o.is_bid = true) →
          ∃ o ∈ b.resting, o.is_bid = true ∧ b.get_bbo.1 = (o.price : Int) ∧
            ∀ o1 ∈ b.resting, o1.is_bid = true → o1.price ≤ o.price) ∧
        ((∃ o ∈ b.resting, o.is_bid = false) →
          ∃ o ∈ b.resting, o.is_bid = false ∧ b.get_bbo.2 = (o.price : Int) ∧
            ∀ o1 ∈ b.resting, o1.is_bid = false → o.price ≤ o1.price) :=
  ⟨by decide, by decide, C1_bbo_is_best_price main_ops (by decide)⟩

/-- C4. In every state reached from the empty book, `modify_order(id, new_price, new_qty)`
with id known, `new_qty != 0` and `new_price` equal to the price stored in the order
returns the state in which every node of order id has quantity `new_qty` and nothing else
differs: the price keys, the nodes of every level and their sequence, the order index and
every other order are the former ones, and the locator of id now resolves to the order
with quantity `new_qty`. The new quantity may be larger or smaller than the old one. -/
theorem C4_same_price_modify_in_place (ops : List Op) (b : OrderBook) (id nq : Nat)
    (ptr : OrderPtr) (o : Order) (hr : run OrderBook.empty ops = some b)
    (hp : lookup b.orders id = some ptr) (ho : b.deref ptr = some o) (hq : nq ≠ 0) :
    ∃ b1, b.modify_order id o.price nq = some b1 ∧
      b1.orders = b.orders ∧ b1.next_ref = b.next_ref ∧
      (∀ s, b1.side s = (b.side s).map (fun e => (e.1, e.2.map (set_qty id nq)))) ∧
      (∀ s p, b1.level_orders s p =
        (b.level_orders s p).map
          (fun x => if x.id = id then { x with qty := nq } else x)) ∧
      b1.deref ptr = some { o with qty := nq } := by
  have h := inv_of_run hr
  obtain ⟨l, n, hl, hn, hrf, hi, hpr, hsd, hd⟩ := OrderBook.deref_known h hp
  rw [ho] at hd
  simp only [Option.some.injEq] at hd
  subst hd
  obtain ⟨b1, hside, hord, hnext, hsorted, hred⟩ :=
    OrderBook.modify_order_reduce h hp n.order.price hq
  have h1 := OrderBook.inv_of_write_spec h hside hord hnext hsorted
  refine ⟨b1, ?_, hord, hnext, side_eq_map_of_write_spec h hside hsorted,
    level_orders_of_write_spec hside, ?_⟩
  · rw [hred]; simp [hpr]
  · have hl1 : lookup (b1.side ptr.is_bid) ptr.level_it = some (l.map (set_qty id nq)) := by
      rw [hside, hl]; rfl
    have hn1 : set_qty id nq n ∈ l.map (set_qty id nq) := List.mem_map_of_mem _ hn
    have hf := find_node_of_mem (h1.refs _ _ _ hl1) hn1
    rw [OrderBook.set_qty_ref, hrf] at hf
    simp only [OrderBook.deref, hl1, hf, set_qty_order, hi, if_true]

/-- C4 on the example of the claim: orders 1 and 2 were added in this order at price 10;
raising the quantity of order 1 from 5 to 50 at price 10 keeps the level as 1, 2. -/
theorem C4_same_price_modify_in_place_witness :
    run OrderBook.empty sample_ops = some sample_book ∧
      lookup sample_book.orders 1 = some ⟨10, 0, true⟩ ∧
      sample_book.deref ⟨10, 0, true⟩ = some ⟨1, true, 10, 5⟩ ∧
      (sample_book.modify_order 1 10 50).map (fun b1 => b1.level_orders true 10) =
        some [⟨1, true, 10, 50⟩, ⟨2, true, 10, 7⟩] ∧
      ∃ b1, sample_book.modify_order 1 10 50 = some b1 ∧
        b1.orders = sample_book.orders ∧ b1.next_ref = sample_book.next_ref ∧
        (∀ s, b1.side s =
          (sample_book.side s).map (fun e => (e.1, e.2.map (set_qty 1 50)))) ∧
        (∀ s p, b1.level_orders s p =
          (sample_book.level_orders s p).map
            (fun x => if x.id = 1 then { x with qty := 50 } else x)) ∧
        b1.deref ⟨10, 0, true⟩ = some ⟨1, true, 10, 50⟩ :=
  ⟨by decide, by decide, by decide, by decide,
    C4_same_price_modify_in_place sample_ops sample_book 1 50 ⟨10, 0, true⟩ ⟨1, true, 10, 5⟩
      (by decide) (by decide) (by decide) (by decide)⟩

/-- C5. In every state reached from the empty book, `modify_order(id, new_price, new_qty)`
with id known, `new_qty != 0` and `new_price` different from the price stored in the order
returns exactly the state of `delete_order(id)` followed by
`add_order(id, s, new_price, new_qty)`, where `s` is the side stored in the order: every
level holds its former orders other than id in their former order, the order with the new
price and quantity and with side `s` is the last element of the level at
`(s, new_price)`, and no level is empty (a level that lost its last order is removed). -/
theorem C5_price_change_is_delete_then_add (ops : List Op) (b : OrderBook)
    (id np nq : Nat) (ptr : OrderPtr) (o : Order)
    (hr : run OrderBook.empty ops = some b) (hp : lookup b.orders id = some ptr)
    (ho : b.deref ptr = some o) (hne : np ≠ o.price) (hq : nq ≠ 0) :
    ∃ b2 b3, b.delete_order id = some b2 ∧ b.modify_order id np nq = some b3 ∧
      b3 = b2.add_order id o.is_bid np nq ∧
      (∀ s p, b3.level_orders s p =
        (b.level_orders s p).filter (fun x => decide (x.id ≠ id)) ++
          (if s = o.is_bid ∧ p = np then [⟨id, o.is_bid, np, nq⟩] else [])) ∧
      (∀ s p l, (p, l) ∈ b3.side s → l ≠ []) := by
  have h := inv_of_run hr
  obtain ⟨l, n, hl, hn, hrf, hi, hpr, hsd, hd⟩ := OrderBook.deref_known h hp
  rw [ho] at hd
  simp only [Option.some.injEq] at hd
  subst hd
  have hlv : ¬ ptr.level_it = np := fun e => hne (by rw [hpr, e])
  obtain ⟨b1, hside, hord, hnext, hsorted, hred⟩ := OrderBook.modify_order_reduce h hp np hq
  have h1 := OrderBook.inv_of_write_spec h hside hord hnext hsorted
  have hp1 : lookup b1.orders id = some ptr := by rw [hord]; exact hp
  obtain ⟨b2, hd2, hside2, hord2, hnext2, hsorted2⟩ := OrderBook.delete_order_spec h hp
  obtain ⟨b4, hd4, hside4, hord4, hnext4, hsorted4⟩ := OrderBook.delete_order_spec h1 hp1
  have he : b4 = b2 := by
    apply book_ext
    · intro s
      apply lookup_ext (hsorted4 s) (hsorted2 s)
      intro p
      rw [hside4, hside2, hside]
      cases lookup (b.side s) p with
      | none => rfl
      | some l0 => simp only [Option.map_some', drop_id_map_set_qty]
    · rw [hord4, hord2, hord]
    · rw [hnext4, hnext2, hnext]
  subst he
  have h2 := OrderBook.inv_of_delete_spec h hside2 hord2 hnext2 hsorted2
  have hnone : lookup b4.orders id = none := by
    rw [hord2, lookup_erase_key]; simp
  refine ⟨b4, b4.add_order id n.order.is_bid np nq, hd2, ?_, rfl, ?_, ?_⟩
  · rw [hred, hsd]
    simp only [ne_eq, hlv, not_false_eq_true, if_true, hd4]
  · intro s p
    rw [level_orders_add_order hnone (h2.sorted _), level_orders_of_delete_spec hside2]
  · intro s p l0 hm
    exact inv_levels_nonempty (OrderBook.inv_add_order h2 _ _ _ _) hm

/-- C5 at the sample book: order 1 moves from the bid level 10 to the bid level 12; the
level 10 keeps order 2 and the level 12 ends with order 1. -/
theorem C5_price_change_is_delete_then_add_witness :
    run OrderBook.empty sample_ops = some sample_book ∧
      lookup sample_book.orders 1 = some ⟨10, 0, true⟩ ∧
      sample_book.deref ⟨10, 0, true⟩ = some ⟨1, true, 10, 5⟩ ∧
      (sample_book.modify_order 1 12 50).map
          (fun b3 => (b3.level_orders true 10, b3.level_orders true 12)) =
        some ([⟨2, true, 10, 7⟩], [⟨1, true, 12, 50⟩]) ∧
      ∃ b2 b3, sample_book.delete_order 1 = some b2 ∧
        sample_book.modify_order 1 12 50 = some b3 ∧
        b3 = b2.add_order 1 true 12 50 ∧
        (∀ s p, b3.level_orders s p =
          (sample_book.level_orders s p).filter (fun x => decide (x.id ≠ 1)) ++
            (if s = true ∧ p = 12 then [⟨1, true, 12, 50⟩] else [])) ∧
        (∀ s p l, (p, l) ∈ b3.side s → l ≠ []) :=
  ⟨by decide, by decide, by decide, by decide,
    C5_price_change_is_delete_then_add sample_ops sample_book 1 12 50 ⟨10, 0, true⟩
      ⟨1, true, 10, 5⟩ (by decide) (by decide) (by decide) (by decide) (by decide)⟩

/-- C7, as stated, fails when an id of the calls is already in the book: after
`add_order(1, Bid, 10, 5)` no bid level exists at price 20, yet the single call
`add_order(1, Bid, 20, 7)` is dropped by the duplicate-id guard, leaves the book unchanged
and the level at price 20 does not hold the order of the call. -/
theorem C7_fifo_counterexample :
    run OrderBook.empty [.add 1 true 10 5] = some (OrderBook.empty.add_order 1 true 10 5) ∧
      lookup ((OrderBook.empty.add_order 1 true 10 5).side true) 20 = none ∧
      ([((1 : Nat), (7 : Nat))].map Prod.fst).Nodup ∧
      run (OrderBook.empty.add_order 1 true 10 5)
          ([((1 : Nat), (7 : Nat))].map (fun c => Op.add c.1 true 20 c.2)) =
        some (OrderBook.empty.add_order 1 true 10 5) ∧
      (OrderBook.empty.add_order 1 true 10 5).level_orders true 20 ≠
        [((1 : Nat), (7 : Nat))].map (fun c => (⟨c.1, true, 20, c.2⟩ : Order)) := by
  decide

/-- C7, amended. In every state reached from the empty book that has no level at
`(side, price)`, a list of `add_order` calls at that `(side, price)` with pairwise distinct
ids, none of them already in the order index, and with no other call in between, runs to
completion and leaves a level at that price holding exactly the orders of the calls, as
`(id, qty)` pairs in the order of the calls; the line `operator<<` writes for that level
lists them in that order, separated by arrows. -/
theorem C7_fifo_insertion_order (ops : List Op) (b : OrderBook) (s : Bool) (p : Nat)
    (calls : List (Nat × Nat)) (hr : run OrderBook.empty ops = some b)
    (hl : lookup (b.side s) p = none) (hnd : (calls.map Prod.fst).Nodup)
    (hfresh : ∀ c ∈ calls, lookup b.orders c.1 = none) :
    ∃ b1, run b (calls.map (fun c => Op.add c.1 s p c.2)) = some b1 ∧
      b1.level_orders s p = calls.map (fun c => ⟨c.1, s, p, c.2⟩) ∧
      (calls ≠ [] → ∃ l, (p, l) ∈ b1.side s ∧
        l.map (fun n => (n.order.id, n.order.qty)) = calls ∧
        ∀ label, render_level label (p, l) ∈ render_side label (b1.side s) ∧
          render_level label (p, l) =
            label ++ toString p ++ " | " ++
              " -> ".intercalate (calls.map (fun c =>
                "\x7b id: " ++ toString c.1 ++ " , qty: " ++ toString c.2 ++ " \x7d")) ++
              "\n") := by
  have h := inv_of_run hr
  obtain ⟨b1, hrun, h1, hlev⟩ := run_adds h s p calls hnd hfresh
  have hlo : b1.level_orders s p = calls.map (fun c => ⟨c.1, s, p, c.2⟩) := by
    rw [hlev, level_orders_eq, hl]; simp
  refine ⟨b1, hrun, hlo, ?_⟩
  intro hne
  cases hl1 : lookup (b1.side s) p with
  | none =>
    rw [level_orders_eq, hl1] at hlo
    cases calls with
    | nil => exact absurd rfl hne
    | cons c cs => simp at hlo
  | some l =>
    have hlo2 : l.map Node.order = calls.map (fun c => ⟨c.1, s, p, c.2⟩) := by
      rw [level_orders_eq, hl1] at hlo; exact hlo
    refine ⟨l, mem_of_lookup hl1, ?_, ?_⟩
    · have := congrArg (List.map (fun o : Order => (o.id, o.qty))) hlo2
      simpa [List.map_map, Function.comp_def] using this
    · intro label
      refine ⟨?_, ?_⟩
      · unfold render_side
        exact List.mem_map_of_mem _ (List.mem_reverse.2 (mem_of_lookup hl1))
      · unfold render_level
        simp only [hlo2, render_orders_eq_intercalate, List.map_map]
        rfl

/-- C7 at the sample book, which has no bid level at price 5: adding orders 5 and 6 there
(as `main` does) gives the level 5, 6 and the line `main` prints for it. -/
theorem C7_fifo_insertion_order_witness :
    run OrderBook.empty sample_ops = some sample_book ∧
      lookup (sample_book.side true) 5 = none ∧
      ([((5 : Nat), (1 : Nat)), (6, 10)].map Prod.fst).Nodup ∧
      (∀ c ∈ [((5 : Nat), (1 : Nat)), (6, 10)], lookup sample_book.orders c.1 = none) ∧
      ∃ b1, run sample_book
          ([((5 : Nat), (1 : Nat)), (6, 10)].map (fun c => Op.add c.1 true 5 c.2)) =
          some b1 ∧
        b1.level_orders true 5 =
          [((5 : Nat), (1 : Nat)), (6, 10)].map (fun c => ⟨c.1, true, 5, c.2⟩) ∧
        ([((5 : Nat), (1 : Nat)), (6, 10)] ≠ [] → ∃ l, (5, l) ∈ b1.side true ∧
          l.map (fun n => (n.order.id, n.order.qty)) = [((5 : Nat), (1 : Nat)), (6, 10)] ∧
          ∀ label, render_level label (5, l) ∈ render_side label (b1.side true) ∧
            render_level label (5, l) =
              label ++ toString 5 ++ " | " ++
                " -> ".intercalate ([((5 : Nat), (1 : Nat)), (6, 10)].map (fun c =>
                  "\x7b id: " ++ toString c.1 ++ " , qty: " ++ toString c.2 ++ " \x7d")) ++
                "\n") :=
  ⟨by decide, by decide, by decide, by decide,
    C7_fifo_insertion_order sample_ops sample_book true 5 [(5, 1), (6, 10)]
      (by decide) (by decide) (by decide) (by decide)⟩


/-- C11, as stated, fails for the ask side: on the second scenario of `main` the ask level
at price 20 is written before the ask level at price 15, so ask levels are not emitted in
ascending price order. -/
theorem C11_render_counterexample :
    (run OrderBook.empty main_ops).map (fun b => render_side "ask: $" b.asks) =
        some ["ask: $20 | \x7b id: 8 , qty: 10 \x7d\n", "ask: $15 | \x7b id: 7 , qty: 5 \x7d\n"] ∧
      (run OrderBook.empty main_ops).map (fun b => render_side "ask: $" b.asks) ≠
        some ["ask: $15 | \x7b id: 7 , qty: 5 \x7d\n", "ask: $20 | \x7b id: 8 , qty: 10 \x7d\n"] ∧
      (run OrderBook.empty main_ops).map (fun b => render_side "bid: $" b.bids) =
        some ["bid: $10 | \x7b id: 3 , qty: 10 \x7d\n", "bid: $9 | \x7b id: 4 , qty: 8 \x7d\n",
          "bid: $5 | \x7b id: 5 , qty: 1 \x7d -> \x7b id: 6 , qty: 10 \x7d\n"] := by
  decide

/-- C11, amended. For every state reached from the empty book, `operator<<` writes the ask
levels and then the bid levels, each side in descending price order: the bid side best
level first (its first line is the level `get_bbo` reads), the ask side best level last
(its last line is the level `get_bbo` reads, e.g. 20 before 15); every line holds the price
and the `(id, qty)` pairs of the level front first, that is in FIFO order. -/
theorem C11_render_descending (ops : List Op) :
    ∃ b, run OrderBook.empty ops = some b ∧
      b.render =
        "====================\n" ++ String.join (b.asks.reverse.map (render_level "ask: $")) ++
          "\n" ++ String.join (b.bids.reverse.map (render_level "bid: $")) ++
          "====================" ∧
      (keys b.asks.reverse).Pairwise (· > ·) ∧
      (keys b.bids.reverse).Pairwise (· > ·) ∧
      b.bids.reverse.head? = b.bids.getLast? ∧
      b.asks.reverse.getLast? = b.asks.head? ∧
      (∀ label e, render_level label e =
        label ++ toString e.1 ++ " | " ++
          " -> ".intercalate (e.2.map (fun n =>
            "\x7b id: " ++ toString n.order.id ++ " , qty: " ++ toString n.order.qty ++ " \x7d")) ++
          "\n") := by
  obtain ⟨b, hr, h⟩ := run_total OrderBook.inv_empty ops
  have hrev : ∀ m : PriceMap, Sorted m → (keys m.reverse).Pairwise (· > ·) := by
    intro m hm
    unfold Sorted at hm
    simp only [keys, List.map_reverse, List.pairwise_reverse] at hm ⊢
    exact hm
  have ha := h.sorted false
  have hb := h.sorted true
  rw [side_false] at ha
  rw [side_true] at hb
  refine ⟨b, hr, rfl, hrev _ ha, hrev _ hb, List.head?_reverse _, List.getLast?_reverse _, ?_⟩
  intro label e
  unfold render_level
  simp only [render_orders_eq_intercalate, List.map_map]
  rfl

/-- C12 fails on the code: the price 4294967295 is a valid `uint32_t`, the bid rests, and
`get_bbo().first` is -1, the value reported for an empty bid side. -/
theorem C12_sentinel_collision :
    (run OrderBook.empty [.add 1 true 4294967295 1]).map
        (fun b => (b.resting, b.get_bbo.1)) =
      some ([⟨1, true, 4294967295, 1⟩], -1) ∧
    OrderBook.empty.get_bbo.1 = -1 := by
  decide

/-- C13 fails on the code: `add_order(1, Bid, 10, 0)` on the empty book leaves an order
with quantity 0 resting in the bid level at price 10. -/
theorem C13_zero_quantity_rests :
    (run OrderBook.empty [.add 1 true 10 0]).map (fun b => b.resting) =
      some [⟨1, true, 10, 0⟩] := by
  decide


theorem delete_keeps_other_side {b b1 : OrderBook} (h : Inv b) {id : Nat} {ptr : OrderPtr}
    (hp : lookup b.orders id = some ptr) (hsorted : ∀ s1, Sorted (b1.side s1))
    (hside : ∀ s1 p1, lookup (b1.side s1) p1 =
        match lookup (b.side s1) p1 with
        | none => none
        | some l1 => if drop_id id l1 = [] then none else some (drop_id id l1))
    {s1 : Bool} (hne : s1 ≠ ptr.is_bid) : b1.side s1 = b.side s1 := by
  apply lookup_ext (hsorted s1) (h.sorted s1)
  intro p
  rw [hside]
  cases hl : lookup (b.side s1) p with
  | none => rfl
  | some l =>
    have hd := OrderBook.drop_id_elsewhere h hp hl (fun c => hne c.1)
    have hn := h.nonempty _ _ _ hl
    simp [hd, hn]

theorem resting_of_delete_spec {b b1 : OrderBook} {id : Nat}
    (hsorted : ∀ s1, Sorted (b1.side s1))
    (hside : ∀ s1 p1, lookup (b1.side s1) p1 =
        match lookup (b.side s1) p1 with
        | none => none
        | some l1 => if drop_id id l1 = [] then none else some (drop_id id l1))
    {o : Order} (ho : o ∈ b1.resting) : o ∈ b.resting ∧ o.id ≠ id := by
  obtain ⟨s, p, l, n, hm, hn, rfl⟩ := mem_resting.1 ho
  have hl := lookup_of_mem (hsorted s) hm
  rw [hside] at hl
  obtain ⟨l1, hl1, he, _⟩ := OrderBook.lookup_pruned hl
  subst he
  obtain ⟨hn1, hni⟩ := OrderBook.mem_drop_id.1 hn
  exact ⟨resting_of_lookup hl1 hn1, hni⟩

theorem run_deletes {b : OrderBook} (h : Inv b) (s : Bool) (ids : List Nat)
    (honly : ∀ o ∈ b.resting, o.id ∈ ids → o.is_bid = s) :
    ∃ b1, run b (ids.map Op.delete) = some b1 ∧ Inv b1 ∧
      (∀ o ∈ b1.resting, o ∈ b.resting ∧ o.id ∉ ids) ∧
      (∀ s1, s1 ≠ s → b1.side s1 = b.side s1) := by
  induction ids generalizing b with
  | nil => exact ⟨b, rfl, h, fun o ho => ⟨ho, by simp⟩, fun _ _ => rfl⟩
  | cons id ids ih =>
    cases hp : lookup b.orders id with
    | none =>
      have honly1 : ∀ o ∈ b.resting, o.id ∈ ids → o.is_bid = s :=
        fun o ho hi => honly o ho (List.mem_cons_of_mem _ hi)
      obtain ⟨b1, hr, hi, hrest, hother⟩ := ih h honly1
      refine ⟨b1, ?_, hi, ?_, hother⟩
      · simp only [List.map_cons, run, step, OrderBook.delete_order_unknown hp, hr]
      · intro o ho
        obtain ⟨h1, h2⟩ := hrest o ho
        refine ⟨h1, ?_⟩
        intro hmem
        rcases List.mem_cons.1 hmem with e | e
        · have := resting_id_known h h1
          rw [e, hp] at this
          exact this rfl
        · exact h2 e
    | some ptr =>
      obtain ⟨b2, hd, hside, hord, hnext, hsorted⟩ := OrderBook.delete_order_spec h hp
      have h2 := OrderBook.inv_of_delete_spec h hside hord hnext hsorted
      have hps : ptr.is_bid = s := by
        obtain ⟨l, n, hl, hn, _, hi⟩ := h.ptr id ptr hp
        have hb := (h.node _ _ _ _ hl hn).2.1
        rw [← hb]
        exact honly n.order (resting_of_lookup hl hn) (by rw [hi]; exact List.mem_cons_self _ _)
      have honly2 : ∀ o ∈ b2.resting, o.id ∈ ids → o.is_bid = s := by
        intro o ho hi
        exact honly o (resting_of_delete_spec hsorted hside ho).1 (List.mem_cons_of_mem _ hi)
      obtain ⟨b1, hr, hi, hrest, hother⟩ := ih h2 honly2
      refine ⟨b1, ?_, hi, ?_, ?_⟩
      · simp only [List.map_cons, run, step, hd, hr]
      · intro o ho
        obtain ⟨h3, h4⟩ := hrest o ho
        obtain ⟨h5, h6⟩ := resting_of_delete_spec hsorted hside h3
        refine ⟨h5, ?_⟩
        intro hmem
        rcases List.mem_cons.1 hmem with e | e
        · exact h6 e
        · exact h4 e
      · intro s1 hne
        rw [hother s1 hne]
        exact delete_keeps_other_side h hp hsorted hside (by rw [hps]; exact hne)

theorem side_empty_of_no_resting {b : OrderBook} (h : Inv b) {s : Bool}
    (hno : ∀ o ∈ b.resting, o.is_bid ≠ s) : b.side s = [] := by
  cases hm : b.side s with
  | nil => rfl
  | cons e t =>
    exfalso
    have hk : e.1 ∈ keys (b.side s) := by rw [hm]; simp [keys]
    obtain ⟨o, ho, hs, _⟩ := (inv_keys_iff_resting h s e.1).1 hk
    exact hno o ho hs

/-- C14. For every state reached from the empty book and every list of ids that holds the
id of every order resting on one side and of no order resting on the other side, calling
`delete_order` on each id of the list runs to completion, empties that side, leaves the
other side as it was, and `get_bbo` then reports -1 for that side and the former value for
the other side. -/
theorem C14_delete_side_then_bbo (ops : List Op) (b : OrderBook) (s : Bool)
    (ids : List Nat) (hr : run OrderBook.empty ops = some b)
    (hall : ∀ o ∈ b.resting, o.is_bid = s → o.id ∈ ids)
    (honly : ∀ o ∈ b.resting, o.id ∈ ids → o.is_bid = s) :
    ∃ b1, run b (ids.map Op.delete) = some b1 ∧
      b1.side s = [] ∧ b1.side (!s) = b.side (!s) ∧
      (s = true → b1.get_bbo.1 = -1 ∧ b1.get_bbo.2 = b.get_bbo.2) ∧
      (s = false → b1.get_bbo.2 = -1 ∧ b1.get_bbo.1 = b.get_bbo.1) := by
  have h := inv_of_run hr
  obtain ⟨b1, hrun, h1, hrest, hother⟩ := run_deletes h s ids honly
  have hempty : b1.side s = [] := by
    apply side_empty_of_no_resting h1
    intro o ho hs
    obtain ⟨h2, h3⟩ := hrest o ho
    exact h3 (hall o h2 hs)
  have hoth : b1.side (!s) = b.side (!s) := hother (!s) (by cases s <;> simp)
  refine ⟨b1, hrun, hempty, hoth, ?_, ?_⟩
  · intro hs
    subst hs
    rw [side_true] at hempty
    simp only [Bool.not_true, side_false] at hoth
    refine ⟨?_, ?_⟩
    · simp only [OrderBook.get_bbo, hempty, List.getLast?_nil]
      decide
    · simp only [OrderBook.get_bbo, hoth]
  · intro hs
    subst hs
    rw [side_false] at hempty
    simp only [Bool.not_false, side_true] at hoth
    refine ⟨?_, ?_⟩
    · simp only [OrderBook.get_bbo, hempty, List.head?_nil]
      decide
    · simp only [OrderBook.get_bbo, hoth]

/-- C14 on the first scenario of `main`: the book reports (12, 20); deleting order 1, the
only bid, gives (-1, 20); deleting order 2 as well gives (-1, -1). -/
theorem C14_delete_side_then_bbo_witness :
    run OrderBook.empty main_ops_first = some main_book_first ∧
      (∀ o ∈ main_book_first.resting, o.is_bid = true → o.id ∈ [1]) ∧
      (∀ o ∈ main_book_first.resting, o.id ∈ [1] → o.is_bid = true) ∧
      main_book_first.get_bbo = (12, 20) ∧
      (run main_book_first [.delete 1]).map OrderBook.get_bbo = some (-1, 20) ∧
      (run main_book_first [.delete 1, .delete 2]).map OrderBook.get_bbo = some (-1, -1) ∧
      ∃ b1, run main_book_first ([1].map Op.delete) = some b1 ∧
        b1.side true = [] ∧ b1.side (!true) = main_book_first.side (!true) ∧
        (true = true → b1.get_bbo.1 = -1 ∧ b1.get_bbo.2 = main_book_first.get_bbo.2) ∧
        (true = false → b1.get_bbo.2 = -1 ∧ b1.get_bbo.1 = main_book_first.get_bbo.1) :=
  ⟨by decide, by decide, by decide, by decide, by decide, by decide,
    C14_delete_side_then_bbo main_ops_first main_book_first true [1] (by decide) (by decide)
      (by decide)⟩

/-- C21. In every state reached from the empty book, `add_order(id, side, price, qty)` with
an id that is not in the order index: the level at (side, price) afterwards is the former
level, empty if there was none, followed by one new node that holds the new order; every
other level of that side and the whole opposite side are unchanged; the price keys of each
side are the former keys, plus `price` on the side of the order; and the order index is the
former index plus one entry for id, whose locator denotes the new order. -/
theorem C21_add_order_appends_and_frames (ops : List Op) (b : OrderBook) (id : Nat)
    (s : Bool) (p q : Nat) (hr : run OrderBook.empty ops = some b)
    (hid : lookup b.orders id = none) :
    lookup ((b.add_order id s p q).side s) p =
        some ((lookup (b.side s) p).getD [] ++ [⟨b.next_ref, ⟨id, s, p, q⟩⟩]) ∧
      (b.add_order id s p q).level_orders s p = b.level_orders s p ++ [⟨id, s, p, q⟩] ∧
      (∀ p1, p1 ≠ p → lookup ((b.add_order id s p q).side s) p1 = lookup (b.side s) p1) ∧
      (b.add_order id s p q).side (!s) = b.side (!s) ∧
      (∀ s1 k, k ∈ keys ((b.add_order id s p q).side s1) ↔
        k ∈ keys (b.side s1) ∨ (s1 = s ∧ k = p)) ∧
      (∀ id1, lookup (b.add_order id s p q).orders id1 =
        if id1 = id then some ⟨p, b.next_ref, s⟩ else lookup b.orders id1) ∧
      (b.add_order id s p q).deref ⟨p, b.next_ref, s⟩ = some ⟨id, s, p, q⟩ := by
  have h := inv_of_run hr
  have h1 := OrderBook.inv_add_order h id s p q
  have hl : lookup ((b.add_order id s p q).side s) p =
      some ((lookup (b.side s) p).getD [] ++ [⟨b.next_ref, ⟨id, s, p, q⟩⟩]) := by
    rw [OrderBook.add_order_lookup hid (h.sorted s)]
    simp
  refine ⟨hl, ?_, ?_, ?_, ?_, OrderBook.add_order_orders hid s p q, ?_⟩
  · rw [level_orders_add_order hid (h.sorted s)]
    simp
  · intro p1 hp
    rw [OrderBook.add_order_lookup hid (h.sorted s)]
    simp [hp]
  · rw [OrderBook.add_order_side hid]
    cases s <;> simp
  · intro s1 k
    rw [OrderBook.add_order_side hid]
    by_cases hs : s1 = s
    · subst hs
      simp only [if_true, keys_update, mem_keys_try_emplace, true_and]
      exact Or.comm
    · simp [hs]
  · have hm : (⟨b.next_ref, ⟨id, s, p, q⟩⟩ : Node) ∈
        (lookup (b.side s) p).getD [] ++ [⟨b.next_ref, ⟨id, s, p, q⟩⟩] := by simp
    have := find_node_of_mem (h1.refs s p _ hl) hm
    simp only [OrderBook.deref, hl, this]

/-- C21 at the sample book: order 4 joins the bid level at price 10 behind orders 1 and 2. -/
theorem C21_add_order_appends_and_frames_witness :
    run OrderBook.empty sample_ops = some sample_book ∧
      lookup sample_book.orders 4 = none ∧
      (lookup ((sample_book.add_order 4 true 10 9).side true) 10 =
          some ((lookup (sample_book.side true) 10).getD [] ++
            [⟨sample_book.next_ref, ⟨4, true, 10, 9⟩⟩]) ∧
        (sample_book.add_order 4 true 10 9).level_orders true 10 =
          sample_book.level_orders true 10 ++ [⟨4, true, 10, 9⟩] ∧
        (∀ p1, p1 ≠ 10 → lookup ((sample_book.add_order 4 true 10 9).side true) p1 =
          lookup (sample_book.side true) p1) ∧
        (sample_book.add_order 4 true 10 9).side (!true) = sample_book.side (!true) ∧
        (∀ s1 k, k ∈ keys ((sample_book.add_order 4 true 10 9).side s1) ↔
          k ∈ keys (sample_book.side s1) ∨ (s1 = true ∧ k = 10)) ∧
        (∀ id1, lookup (sample_book.add_order 4 true 10 9).orders id1 =
          if id1 = 4 then some ⟨10, sample_book.next_ref, true⟩
          else lookup sample_book.orders id1) ∧
        (sample_book.add_order 4 true 10 9).deref ⟨10, sample_book.next_ref, true⟩ =
          some ⟨4, true, 10, 9⟩) :=
  ⟨by decide, by decide,
    C21_add_order_appends_and_frames sample_ops sample_book 4 true 10 9 (by decide)
      (by decide)⟩

end order_book

/-! # Laws and claims of `order_book_2.cpp` -/

namespace order_book_2

open order_book (lookup erase_key update Inv)

theorem run_main_book : run Book.empty main_ops = some ([true, false, true, true], main_book) := by
  decide

theorem lookup_map_snd {β γ : Type} (f : β → γ) (m : List (Nat × β)) (k : Nat) :
    lookup (m.map (fun e => (e.1, f e.2))) k = (lookup m k).map f := by
  induction m with
  | nil => rfl
  | cons e t ih =>
    obtain ⟨k1, v⟩ := e
    by_cases hk : k1 = k
    · simp [lookup, hk]
    · simp [lookup, hk, ih]

theorem erase_key_map_snd {β γ : Type} (f : β → γ) (m : List (Nat × β)) (k : Nat) :
    erase_key (m.map (fun e => (e.1, f e.2))) k = (erase_key m k).map (fun e => (e.1, f e.2)) := by
  induction m with
  | nil => rfl
  | cons e t ih =>
    obtain ⟨k1, v⟩ := e
    by_cases hk : k1 = k
    · simp [erase_key, hk, ih]
    · simp [erase_key, hk, ih]

theorem update_map_snd {β γ : Type} (f : β → γ) (g : β → β) (g1 : γ → γ)
    (hfg : ∀ v, g1 (f v) = f (g v)) (m : List (Nat × β)) (k : Nat) :
    update (m.map (fun e => (e.1, f e.2))) k g1 = (update m k g).map (fun e => (e.1, f e.2)) := by
  induction m with
  | nil => rfl
  | cons e t ih =>
    obtain ⟨k1, v⟩ := e
    by_cases hk : k1 = k
    · simp [update, hk, hfg]
    · simp [update, hk, ih]

theorem try_emplace_of_map (m : order_book.PriceMap) (p : Nat) :
    try_emplace (of_map m) p = of_map (order_book.try_emplace m p) := by
  induction m with
  | nil => rfl
  | cons e t ih =>
    obtain ⟨k, l⟩ := e
    simp only [of_map] at ih
    by_cases h1 : p < k
    · simp [of_map, try_emplace, order_book.try_emplace, h1]
    · by_cases h2 : p = k
      · simp [of_map, try_emplace, order_book.try_emplace, h2]
      · simp [of_map, try_emplace, order_book.try_emplace, h1, h2, ih]

theorem find_node_map (l : order_book.Level) (r : Nat) :
    find_node (l.map of_node) r = (order_book.find_node l r).map of_node := by
  induction l with
  | nil => rfl
  | cons n t ih =>
    simp only [find_node, order_book.find_node] at ih
    by_cases h : n.ref = r
    · simp [find_node, order_book.find_node, of_node, h]
    · simpa [find_node, order_book.find_node, of_node, h, List.find?_cons] using ih

theorem erase_node_map (l : order_book.Level) (r : Nat) :
    erase_node (l.map of_node) r = (order_book.erase_node l r).map of_node := by
  induction l with
  | nil => rfl
  | cons n t ih =>
    simp only [erase_node, order_book.erase_node] at ih
    by_cases h : n.ref = r
    · simp [erase_node, order_book.erase_node, of_node, h, List.eraseP_cons]
    · simpa [erase_node, order_book.erase_node, of_node, h, List.eraseP_cons] using ih

theorem write_qty_map (l : order_book.Level) (r q : Nat) :
    write_qty (l.map of_node) r q = (order_book.write_qty l r q).map of_node := by
  simp only [write_qty, order_book.write_qty, List.map_map]
  apply List.map_congr_left
  intro n _
  simp only [Function.comp]
  by_cases h : n.ref = r
  · simp [of_node, of_order, h]
  · simp [of_node, h]

theorem of_map_update (m : order_book.PriceMap) (k : Nat) (g : order_book.Level → order_book.Level)
    (g1 : Level → Level) (h : ∀ l, g1 (l.map of_node) = (g l).map of_node) :
    update (of_map m) k g1 = of_map (update m k g) :=
  update_map_snd (List.map of_node) g g1 h m k

theorem of_map_erase_key (m : order_book.PriceMap) (k : Nat) :
    erase_key (of_map m) k = of_map (erase_key m k) :=
  erase_key_map_snd (List.map of_node) m k

theorem lookup_of_map (m : order_book.PriceMap) (k : Nat) :
    lookup (of_map m) k = (lookup m k).map (List.map of_node) :=
  lookup_map_snd (List.map of_node) m k

theorem side_of_book (b : order_book.OrderBook) (s : Bool) :
    (of_book b).side s = of_map (b.side s) := by
  cases s <;> simp [Book.side, of_book, order_book.OrderBook.side]

theorem orders_of_book (b : order_book.OrderBook) (id : Nat) :
    lookup (of_book b).orders id = (lookup b.orders id).map of_ptr :=
  lookup_map_snd of_ptr b.orders id

theorem set_side_of_book (b : order_book.OrderBook) (s : Bool) (m : order_book.PriceMap)
    (o : List (Nat × order_book.OrderPtr)) (n : Nat) :
    ({ (of_book b).set_side s (of_map m) with
        orders := o.map (fun e => (e.1, of_ptr e.2)), next_ref := n } : Book) =
      of_book { b.set_side s m with orders := o, next_ref := n } := by
  cases s <;> simp [Book.set_side, of_book, order_book.OrderBook.set_side]

theorem sim_add_order (b : order_book.OrderBook) (id price qty : Nat) (is_bid : Bool) :
    (of_book b).add_order id price qty is_bid =
      ((lookup b.orders id).isNone, of_book (b.add_order id is_bid price qty)) := by
  cases hid : lookup b.orders id with
  | some ptr =>
    simp [Book.add_order, orders_of_book, hid, order_book.OrderBook.add_order_known hid]
  | none =>
    have hu : update (try_emplace (of_map (b.side is_bid)) price)
        price (fun level => level ++ [⟨b.next_ref, ⟨id, price, qty, is_bid⟩⟩]) =
        of_map (update (order_book.try_emplace (b.side is_bid) price) price
          (fun level => level ++ [⟨b.next_ref, ⟨id, is_bid, price, qty⟩⟩])) := by
      rw [try_emplace_of_map]
      apply of_map_update
      intro l
      simp [of_node, of_order]
    have hnr : (of_book b).next_ref = b.next_ref := rfl
    have hor : (of_book b).orders = b.orders.map (fun e => (e.1, of_ptr e.2)) := rfl
    rw [order_book.OrderBook.add_order_new hid]
    simp only [Book.add_order, orders_of_book, hid, Option.map_none', side_of_book, hnr, hu,
      index_emplace, Option.isNone_none]
    rw [← set_side_of_book]
    simp [hor, of_ptr]

theorem set_side_of_book_orders (b : order_book.OrderBook) (s : Bool) (m : order_book.PriceMap)
    (o : List (Nat × order_book.OrderPtr)) :
    (⟨((of_book b).set_side s (of_map m)).bids, ((of_book b).set_side s (of_map m)).asks,
        o.map (fun e => (e.1, of_ptr e.2)), ((of_book b).set_side s (of_map m)).next_ref⟩ : Book) =
      of_book ⟨(b.set_side s m).bids, (b.set_side s m).asks, o, (b.set_side s m).next_ref⟩ := by
  cases s <;> simp [Book.set_side, of_book, order_book.OrderBook.set_side]

theorem set_side_of_book_only (b : order_book.OrderBook) (s : Bool) (m : order_book.PriceMap) :
    (of_book b).set_side s (of_map m) = of_book (b.set_side s m) := by
  cases s <;> simp [Book.set_side, of_book, order_book.OrderBook.set_side]

theorem sim_delete_order {b : order_book.OrderBook} (h : Inv b) (id : Nat) :
    (of_book b).delete_order id =
      (b.delete_order id).map (fun b1 => ((lookup b.orders id).isSome, of_book b1)) := by
  cases hp : lookup b.orders id with
  | none =>
    simp [Book.delete_order, orders_of_book, hp, order_book.OrderBook.delete_order_unknown hp]
  | some ptr =>
    obtain ⟨l, n, hl, hn, hr, hi, hpr, hs, hd⟩ := order_book.OrderBook.deref_known h hp
    have hf : order_book.find_node l ptr.order_it = some n := by
      rw [← hr]; exact order_book.find_node_of_mem (h.refs _ _ _ hl) hn
    have hdel : b.delete_order id = some
        { b.set_side ptr.is_bid
            (if (order_book.erase_node l ptr.order_it).isEmpty
              then erase_key (b.side ptr.is_bid) ptr.level_it
              else update (b.side ptr.is_bid) ptr.level_it
                (fun _ => order_book.erase_node l ptr.order_it)) with
          orders := erase_key b.orders id } := by
      simp only [order_book.OrderBook.delete_order, hp, hl, hf]
    have hor : (of_book b).orders = b.orders.map (fun e => (e.1, of_ptr e.2)) := rfl
    have hemp : ∀ x : order_book.Level, (x.map of_node).isEmpty = x.isEmpty := by
      intro x; cases x <;> rfl
    rw [hdel]
    simp only [Book.delete_order, orders_of_book, hp, Option.map_some', of_ptr, side_of_book,
      lookup_of_map, hl, find_node_map, hf, erase_node_map, of_node, of_order, hs,
      hemp, Option.isSome_some, if_true]
    by_cases he : (order_book.erase_node l ptr.order_it).isEmpty
    · simp only [he, if_true, of_map_erase_key, hor, erase_key_map_snd]
      rw [set_side_of_book_orders]
    · have hu : update (of_map (b.side ptr.is_bid)) ptr.level_it
          (fun _ => List.map of_node (order_book.erase_node l ptr.order_it)) =
          of_map (update (b.side ptr.is_bid) ptr.level_it
            (fun _ => order_book.erase_node l ptr.order_it)) := by
        apply of_map_update
        intro l0
        rfl
      have hu2 : update (of_map (b.side ptr.is_bid)) ptr.level_it
          (fun _ => List.map (fun n => (⟨n.ref, ⟨n.order.id, n.order.price, n.order.qty,
            n.order.is_bid⟩⟩ : Node)) (order_book.erase_node l ptr.order_it)) =
          of_map (update (b.side ptr.is_bid) ptr.level_it
            (fun _ => order_book.erase_node l ptr.order_it)) := hu
      simp only [he, Bool.false_eq_true, if_false, hu, hu2, hor, erase_key_map_snd]
      rw [set_side_of_book_orders]

theorem written_book_eq {b b1 : order_book.OrderBook} (h : Inv b) {id : Nat}
    {ptr : order_book.OrderPtr} (hp : lookup b.orders id = some ptr) {nq : Nat}
    (hside : ∀ s1 p1, lookup (b1.side s1) p1 =
        (lookup (b.side s1) p1).map (List.map (order_book.set_qty id nq)))
    (hord : b1.orders = b.orders) (hnext : b1.next_ref = b.next_ref)
    (hsorted : ∀ s1, order_book.Sorted (b1.side s1)) :
    b.set_side ptr.is_bid (update (b.side ptr.is_bid) ptr.level_it
      (fun level => order_book.write_qty level ptr.order_it nq)) = b1 := by
  obtain ⟨l, n, hl, hn, hr, hi, hpr, hs, hd⟩ := order_book.OrderBook.deref_known h hp
  apply order_book.book_ext
  · intro s1
    have hsrt : order_book.Sorted ((b.set_side ptr.is_bid (update (b.side ptr.is_bid)
        ptr.level_it (fun level => order_book.write_qty level ptr.order_it nq))).side s1) := by
      rw [order_book.OrderBook.side_set_side]
      by_cases hc : s1 = ptr.is_bid
      · simp only [hc, if_true]
        exact order_book.sorted_update (h.sorted _) _ _
      · simp only [hc, if_false]
        exact h.sorted s1
    apply order_book.lookup_ext hsrt (hsorted s1)
    intro p1
    rw [hside, order_book.OrderBook.side_set_side]
    by_cases hc : s1 = ptr.is_bid
    · subst hc
      simp only [if_true, order_book.lookup_update]
      by_cases hc2 : p1 = ptr.level_it
      · subst hc2
        simp [hl, order_book.OrderBook.write_qty_eq_set_qty h hp hl]
      · simp only [hc2, if_false]
        cases hl1 : lookup (b.side ptr.is_bid) p1 with
        | none => rfl
        | some l1 =>
          rw [Option.map_some',
            order_book.OrderBook.map_set_qty_elsewhere h hp hl1 (fun c => hc2 c.2)]
    · simp only [hc, if_false]
      cases hl1 : lookup (b.side s1) p1 with
      | none => rfl
      | some l1 =>
        rw [Option.map_some',
          order_book.OrderBook.map_set_qty_elsewhere h hp hl1 (fun c => hc c.1)]
  · rw [order_book.OrderBook.orders_set_side, hord]
  · rw [order_book.OrderBook.next_ref_set_side, hnext]

theorem modify_order_zero_qty (b : Book) (id np : Nat) :
    b.modify_order id np 0 = some (false, b) := by
  unfold Book.modify_order
  cases lookup b.orders id <;> simp

theorem sim_modify_order {b : order_book.OrderBook} (h : Inv b) (id np : Nat) {nq : Nat}
    (hq : nq ≠ 0) :
    (of_book b).modify_order id np nq =
      (b.modify_order id np nq).map (fun b1 => ((lookup b.orders id).isSome, of_book b1)) := by
  cases hp : lookup b.orders id with
  | none =>
    simp [Book.modify_order, orders_of_book, hp,
      order_book.OrderBook.modify_order_unknown hp]
  | some ptr =>
    obtain ⟨l, n, hl, hn, hr, hi, hpr, hs, hd⟩ := order_book.OrderBook.deref_known h hp
    have hf : order_book.find_node l ptr.order_it = some n := by
      rw [← hr]; exact order_book.find_node_of_mem (h.refs _ _ _ hl) hn
    obtain ⟨b1, hside, hord, hnext, hsorted, hred⟩ :=
      order_book.OrderBook.modify_order_reduce h hp np hq
    have h1 := order_book.OrderBook.inv_of_write_spec h hside hord hnext hsorted
    have hw := written_book_eq h hp hside hord hnext hsorted
    have hderef : (of_book b).deref (of_ptr ptr) = some (of_order n.order) := by
      simp [Book.deref, of_ptr, side_of_book, lookup_of_map, hl, find_node_map, hf, of_node]
    have hu : update (of_map (b.side ptr.is_bid)) ptr.level_it
          (fun level => write_qty level ptr.order_it nq) =
        of_map (update (b.side ptr.is_bid) ptr.level_it
          (fun level => order_book.write_qty level ptr.order_it nq)) := by
      apply of_map_update
      intro l0
      exact write_qty_map l0 _ _
    have hB1 : (of_book b).set_side ptr.is_bid (update ((of_book b).side ptr.is_bid)
        ptr.level_it (fun level => write_qty level ptr.order_it nq)) = of_book b1 := by
      rw [side_of_book, hu, set_side_of_book_only, hw]
    have hp1 : lookup b1.orders id = some ptr := by rw [hord]; exact hp
    have hstep : (of_book b).modify_order id np nq =
        if np ≠ n.order.price then
          match (of_book b1).delete_order id with
          | none => none
          | some (_, b2) => some (true, (b2.add_order id np nq n.order.is_bid).2)
        else some (true, of_book b1) := by
      have hptr : (of_ptr ptr).level_it.in_bids = ptr.is_bid := rfl
      have hkey : (of_ptr ptr).level_it.key = ptr.level_it := rfl
      have hoit : (of_ptr ptr).order_it = ptr.order_it := rfl
      simp only [Book.modify_order, orders_of_book, hp, Option.map_some', hq, if_false, hderef,
        hptr, hkey, hoit, hB1, of_order]
    rw [hstep, hred, sim_delete_order h1, hpr, hs]
    by_cases hc : ptr.level_it = np
    · have hc2 : ¬ np ≠ ptr.level_it := fun e => e hc.symm
      simp [hc]
    · have hc2 : np ≠ ptr.level_it := fun e => hc e.symm
      simp only [ne_eq, hc, not_false_eq_true, if_true, hc2]
      cases hd2 : b1.delete_order id with
      | none => rfl
      | some b2 =>
        simp only [Option.map_some', sim_add_order, Option.isSome_some]

theorem sim_run {b : order_book.OrderBook} (h : Inv b) (ops : List Op) :
    ∃ rs b1, run (of_book b) ops = some (rs, of_book b1) ∧
      order_book.run b (to_first ops) = some b1 ∧ Inv b1 := by
  induction ops generalizing b with
  | nil => exact ⟨[], b, rfl, rfl, h⟩
  | cons op ops ih =>
    cases op with
    | add id price qty is_bid =>
      obtain ⟨rs, b1, hr, hf, hi⟩ :=
        ih (order_book.OrderBook.inv_add_order h id is_bid price qty)
      exact ⟨(lookup b.orders id).isNone :: rs, b1, by simp only [run, step, sim_add_order, hr],
        by simp only [to_first, order_book.run, order_book.step, hf], hi⟩
    | delete id =>
      obtain ⟨b2, hd, h2⟩ := order_book.OrderBook.delete_order_total h id
      obtain ⟨rs, b1, hr, hf, hi⟩ := ih h2
      exact ⟨(lookup b.orders id).isSome :: rs, b1,
        by simp only [run, step, sim_delete_order h, hd, Option.map_some', hr],
        by simp only [to_first, order_book.run, order_book.step, hd, hf], hi⟩
    | modify id np nq =>
      by_cases hq : nq = 0
      · subst hq
        obtain ⟨rs, b1, hr, hf, hi⟩ := ih h
        exact ⟨false :: rs, b1, by simp only [run, step, modify_order_zero_qty, hr],
          by simp only [to_first, if_true, hf], hi⟩
      · obtain ⟨b2, hd, h2⟩ := order_book.OrderBook.modify_order_total h id np nq
        obtain ⟨rs, b1, hr, hf, hi⟩ := ih h2
        exact ⟨(lookup b.orders id).isSome :: rs, b1,
          by simp only [run, step, sim_modify_order h id np hq, hd, Option.map_some', hr],
          by simp only [to_first, hq, if_false, order_book.run, order_book.step, hd, hf], hi⟩

theorem resting_of_book (b : order_book.OrderBook) :
    (of_book b).resting = b.resting.map of_order := by
  simp only [Book.resting, order_book.OrderBook.resting, of_book, of_map, List.map_flatMap,
    List.flatMap_map, ← List.map_append, List.map_map]
  rfl

theorem known_iff_resting {b : order_book.OrderBook} (h : Inv b) (id : Nat) :
    lookup (of_book b).orders id ≠ none ↔ ∃ o ∈ (of_book b).resting, o.id = id := by
  rw [orders_of_book, resting_of_book]
  constructor
  · intro hne
    cases hp : lookup b.orders id with
    | none => simp [hp] at hne
    | some ptr =>
      obtain ⟨l, n, hl, hn, _, hi⟩ := h.ptr id ptr hp
      exact ⟨of_order n.order,
        List.mem_map_of_mem _ (order_book.resting_of_lookup hl hn), hi⟩
  · rintro ⟨o, ho, rfl⟩
    obtain ⟨o1, ho1, rfl⟩ := List.mem_map.1 ho
    have := order_book.resting_id_known h ho1
    cases hp : lookup b.orders o1.id with
    | none => exact absurd hp this
    | some ptr => simp [of_order, hp]

/-- C16. In every state of `Book` reached from the empty book (the call sequence always
runs to completion), an id is in the order index exactly when an order with that id rests
in a level; `add_order` returns true exactly when the id is not in the book and false
exactly when it is; `delete_order` returns, and returns true exactly when the id is in the
book; and whenever either returns false the book state is unchanged. -/
theorem C16_book_result_flags (ops : List Op) :
    ∃ rs b, run Book.empty ops = some (rs, b) ∧
      (∀ id, lookup b.orders id ≠ none ↔ ∃ o ∈ b.resting, o.id = id) ∧
      (∀ id price qty is_bid,
        ((b.add_order id price qty is_bid).1 = true ↔ lookup b.orders id = none) ∧
        ((b.add_order id price qty is_bid).1 = false ↔ lookup b.orders id ≠ none) ∧
        ((b.add_order id price qty is_bid).1 = false →
          (b.add_order id price qty is_bid).2 = b)) ∧
      (∀ id, ∃ r b1, b.delete_order id = some (r, b1) ∧
        (r = true ↔ lookup b.orders id ≠ none) ∧ (r = false → b1 = b)) := by
  obtain ⟨rs, b0, hr, _, h⟩ := sim_run order_book.OrderBook.inv_empty ops
  refine ⟨rs, of_book b0, hr, known_iff_resting h, ?_, ?_⟩
  · intro id price qty is_bid
    rw [sim_add_order, orders_of_book]
    cases hp : lookup b0.orders id with
    | none => simp
    | some ptr => simp [order_book.OrderBook.add_order_known hp]
  · intro id
    obtain ⟨b2, hd, _⟩ := order_book.OrderBook.delete_order_total h id
    refine ⟨(lookup b0.orders id).isSome, of_book b2, ?_, ?_, ?_⟩
    · rw [sim_delete_order h, hd]; rfl
    · rw [orders_of_book]
      cases lookup b0.orders id <;> simp
    · intro hf
      cases hp : lookup b0.orders id with
      | none =>
        rw [order_book.OrderBook.delete_order_unknown hp] at hd
        simp only [Option.some.injEq] at hd
        rw [hd]
      | some ptr => simp [hp] at hf

/-- C15, as stated, fails: after `add_order(1, 10, 100, true)` the call
`modify_order(1, 12, 0)` returns false and leaves the order in the book, while
`delete_order(1)` returns true and removes it; the two resulting states differ. -/
theorem C15_modify_zero_counterexample :
    (Book.empty.add_order 1 10 100 true).2.modify_order 1 12 0 =
        some (false, (Book.empty.add_order 1 10 100 true).2) ∧
      lookup (Book.empty.add_order 1 10 100 true).2.orders 1 ≠ none ∧
      (Book.empty.add_order 1 10 100 true).2.resting = [⟨1, 10, 100, true⟩] ∧
      (Book.empty.add_order 1 10 100 true).2.delete_order 1 = some (true, ⟨[], [], [], 1⟩) ∧
      (Book.empty.add_order 1 10 100 true).2.modify_order 1 12 0 ≠
        (Book.empty.add_order 1 10 100 true).2.delete_order 1 := by
  decide

/-- C15, amended. In every state of `Book` reached from the empty book,
`modify_order(id, new_price, 0)` returns false and leaves the book exactly unchanged, for
a known and for an unknown id; on a known id `delete_order(id)` instead returns true and
gives a state without the id, so the two calls are not equivalent. -/
theorem C15_modify_zero_rejected (ops : List Op) (id np : Nat) :
    ∃ rs b, run Book.empty ops = some (rs, b) ∧
      b.modify_order id np 0 = some (false, b) ∧
      (lookup b.orders id ≠ none →
        ∃ b1, b.delete_order id = some (true, b1) ∧ lookup b1.orders id = none ∧ b1 ≠ b) := by
  obtain ⟨rs, b0, hr, _, h⟩ := sim_run order_book.OrderBook.inv_empty ops
  refine ⟨rs, of_book b0, hr, modify_order_zero_qty _ _ _, ?_⟩
  intro hk
  rw [orders_of_book] at hk
  cases hp : lookup b0.orders id with
  | none => simp [hp] at hk
  | some ptr =>
    obtain ⟨b2, hd, hside, hord, hnext, hsorted⟩ := order_book.OrderBook.delete_order_spec h hp
    have hnone : lookup (of_book b2).orders id = none := by
      rw [orders_of_book, hord, order_book.lookup_erase_key]; simp
    refine ⟨of_book b2, ?_, hnone, ?_⟩
    · rw [sim_delete_order h, hd, hp]; rfl
    · intro e
      rw [e, orders_of_book, hp] at hnone
      simp at hnone

/-- C15 amended, at the book the start of `main` builds: order 1 is known; modifying it to
quantity 0 is rejected and changes nothing, deleting it removes it. -/
theorem C15_modify_zero_rejected_witness :
    lookup main_book.orders 1 ≠ none ∧
      ∃ rs b, run Book.empty main_ops = some (rs, b) ∧
        b.modify_order 1 15 0 = some (false, b) ∧
        (lookup b.orders 1 ≠ none →
          ∃ b1, b.delete_order 1 = some (true, b1) ∧ lookup b1.orders 1 = none ∧ b1 ≠ b) :=
  ⟨by decide, C15_modify_zero_rejected main_ops 1 15⟩

theorem to_first_eq_map (ops : List Op) (hz : ∀ id np, Op.modify id np 0 ∉ ops) :
    to_first ops = ops.map to_first_op := by
  induction ops with
  | nil => rfl
  | cons op ops ih =>
    have ih1 := ih (fun id np hm => hz id np (List.mem_cons_of_mem _ hm))
    cases op with
    | add id price qty is_bid => simp only [to_first, List.map_cons, to_first_op, ih1]
    | delete id => simp only [to_first, List.map_cons, to_first_op, ih1]
    | modify id np nq =>
      have hq : nq ≠ 0 := by
        rintro rfl
        exact hz id np (List.mem_cons_self _ _)
      simp only [to_first, hq, if_false, List.map_cons, to_first_op, ih1]

theorem ladder_of_book (b : order_book.OrderBook) (s : Bool) :
    (of_book b).ladder s = b.ladder s := by
  simp only [Book.ladder, order_book.OrderBook.ladder, side_of_book, of_map, List.map_map]
  refine List.map_congr_left ?_
  intro e _
  simp only [Function.comp, List.map_map]
  rfl

theorem get_bbo_of_book {b : order_book.OrderBook} (h : Inv b)
    (hb : order_book.PricesBelow (2 ^ 31) b) :
    (b.side true ≠ [] → b.get_bbo.1 = ((of_book b).get_bbo.1 : Int)) ∧
      (b.side false ≠ [] → b.get_bbo.2 = ((of_book b).get_bbo.2 : Int)) := by
  constructor
  · intro hne
    rw [order_book.side_true] at hne
    cases hlast : b.bids.getLast? with
    | none => exact absurd (List.getLast?_eq_none_iff.1 hlast) hne
    | some e =>
      obtain ⟨p, l⟩ := e
      have hs := h.sorted true
      rw [order_book.side_true] at hs
      have hl := (order_book.sorted_getLast hs hlast).1
      have hp : p < 2 ^ 31 := hb true p l (by rw [order_book.side_true]; exact hl)
      have h2 : (of_map b.bids).getLast? = some (p, l.map of_node) := by
        simp only [of_map, List.getLast?_map, hlast, Option.map_some']
      simp only [order_book.OrderBook.get_bbo, Book.get_bbo, of_book, hlast, h2]
      exact order_book.to_int_of_lt hp
  · intro hne
    rw [order_book.side_false] at hne
    cases hhead : b.asks.head? with
    | none => exact absurd (List.head?_eq_none_iff.1 hhead) hne
    | some e =>
      obtain ⟨p, l⟩ := e
      have hs := h.sorted false
      rw [order_book.side_false] at hs
      have hl := (order_book.sorted_head hs hhead).1
      have hp : p < 2 ^ 31 := hb false p l (by rw [order_book.side_false]; exact hl)
      have h2 : (of_map b.asks).head? = some (p, l.map of_node) := by
        simp only [of_map, List.head?_map, hhead, Option.map_some']
      simp only [order_book.OrderBook.get_bbo, Book.get_bbo, of_book, hhead, h2]
      exact order_book.to_int_of_lt hp

theorem drafts_agree (ops : List Op) (hz : ∀ id np, Op.modify id np 0 ∉ ops) :
    ∃ b1 rs b2, order_book.run order_book.OrderBook.empty (ops.map to_first_op) = some b1 ∧
      run Book.empty ops = some (rs, b2) ∧
      (∀ s, b2.ladder s = b1.ladder s) ∧
      ((∀ op ∈ ops.map to_first_op, ∀ p ∈ op.prices, p < 2 ^ 31) →
        (b1.side true ≠ [] → b1.get_bbo.1 = (b2.get_bbo.1 : Int)) ∧
        (b1.side false ≠ [] → b1.get_bbo.2 = (b2.get_bbo.2 : Int))) := by
  obtain ⟨rs, b1, hr, hf, h⟩ := sim_run order_book.OrderBook.inv_empty ops
  rw [to_first_eq_map ops hz] at hf
  refine ⟨b1, rs, of_book b1, hf, hr, ladder_of_book b1, ?_⟩
  intro hp
  obtain ⟨b3, hr3, _, hb⟩ :=
    order_book.run_below order_book.OrderBook.inv_empty (order_book.below_empty _) _ hp
  rw [hf] at hr3
  simp only [Option.some.injEq] at hr3
  subst hr3
  exact get_bbo_of_book h hb

/-- C22 fails on the code: after `add_order` of one bid at price 2147483648, a value that
fits in 32 bits, both drafts hold the same bid level, the first draft reports the best bid
-2147483648 and the second draft reports 2147483648. -/
theorem C22_bbo_differs_from_second_draft :
    (order_book.run order_book.OrderBook.empty
        ([Op.add 1 2147483648 1 true].map to_first_op)).map
          (fun b => (b.ladder true, b.get_bbo.1)) =
        some ([(2147483648, [(1, 1)])], -2147483648) ∧
      (run Book.empty [Op.add 1 2147483648 1 true]).map
          (fun x => (x.2.ladder true, x.2.get_bbo.1)) =
        some ([(2147483648, [(1, 1)])], 2147483648) := by
  decide

end order_book_2

/-! # Laws and claims of `circular_buffer.cpp` -/

namespace circular_buffer

variable {T : Type}

theorem mod_next {cap pos : Nat} (h : pos < cap) : (pos + 1) % cap = next_pos cap pos := by
  unfold next_pos
  by_cases hc : pos + 1 = cap
  · rw [if_pos hc, hc, Nat.mod_self]
  · rw [if_neg hc]
    exact Nat.mod_eq_of_lt (by omega)

theorem next_pos_lt {cap pos : Nat} (h : pos < cap) : next_pos cap pos < cap := by
  unfold next_pos
  split <;> omega

theorem dist_lt {cap r w : Nat} (hr : r < cap) (hw : w < cap) : dist cap r w < cap := by
  unfold dist
  split <;> omega

theorem dist_next {cap r w : Nat} (hr : r < cap) (hw : w < cap) (hne : r ≠ w) :
    dist cap (next_pos cap r) w + 1 = dist cap r w := by
  unfold dist next_pos
  split <;> split <;> split <;> omega

theorem dist_eq_zero {cap r w : Nat} (hr : r < cap) :
    dist cap r w = 0 ↔ r = w := by
  unfold dist
  split <;> omega

theorem full_iff {cap r w : Nat} (hr : r < cap) (hw : w < cap) :
    next_pos cap w = r ↔ dist cap r w + 1 = cap := by
  unfold dist next_pos
  split <;> split <;> omega

theorem increment_wf {n : Nat} {cb : CircularBuffer T} (h : WF n cb) {pos : Nat}
    (hp : pos < n + 1) : cb.increment pos = some (next_pos (n + 1) pos) := by
  have h1 : (pos + 1) % 2 ^ 64 = pos + 1 := Nat.mod_eq_of_lt (by have := h.fits; omega)
  unfold CircularBuffer.increment
  rw [h.cap, h1, mod_next hp]
  simp

theorem walk_step [Inhabited T] (cb : CircularBuffer T) (fuel curr : Nat) :
    cb.walk (fuel + 1) curr =
      if curr = cb.write_pos then []
      else cb.buffer.getD curr default :: cb.walk fuel ((curr + 1) % cb.capacity) := rfl

theorem walk_congr [Inhabited T] {cb cb1 : CircularBuffer T} (hb : cb1.buffer = cb.buffer)
    (hw : cb1.write_pos = cb.write_pos) (hc : cb1.capacity = cb.capacity) (fuel curr : Nat) :
    cb1.walk fuel curr = cb.walk fuel curr := by
  induction fuel generalizing curr with
  | zero => rfl
  | succ f ih => rw [walk_step, walk_step, hb, hw, hc, ih]

theorem walk_fuel [Inhabited T] {n : Nat} {cb : CircularBuffer T} (h : WF n cb)
    (f1 f2 r : Nat) (hr : r < n + 1) (h1 : dist (n + 1) r cb.write_pos < f1)
    (h2 : dist (n + 1) r cb.write_pos < f2) : cb.walk f1 r = cb.walk f2 r := by
  induction f1 generalizing f2 r with
  | zero => omega
  | succ f ih =>
    cases f2 with
    | zero => omega
    | succ g =>
      rw [walk_step, walk_step]
      by_cases hc : r = cb.write_pos
      · rw [if_pos hc, if_pos hc]
      · rw [if_neg hc, if_neg hc, h.cap, mod_next hr]
        have hd := dist_next hr h.wr hc
        rw [ih g _ (next_pos_lt hr) (by omega) (by omega)]

theorem walk_length [Inhabited T] {n : Nat} {cb : CircularBuffer T} (h : WF n cb)
    (f r : Nat) (hr : r < n + 1) (h1 : dist (n + 1) r cb.write_pos < f) :
    (cb.walk f r).length = dist (n + 1) r cb.write_pos := by
  induction f generalizing r with
  | zero => omega
  | succ f ih =>
    rw [walk_step]
    by_cases hc : r = cb.write_pos
    · rw [if_pos hc]
      have := (dist_eq_zero hr).2 hc
      simp [this]
    · rw [if_neg hc, h.cap, mod_next hr]
      have hd := dist_next hr h.wr hc
      rw [List.length_cons, ih _ (next_pos_lt hr) (by omega)]
      exact hd

theorem contents_length [Inhabited T] {n : Nat} {cb : CircularBuffer T} (h : WF n cb) :
    cb.contents.length = dist (n + 1) cb.read_pos cb.write_pos := by
  unfold CircularBuffer.contents
  rw [h.cap]
  exact walk_length h _ _ h.rd (dist_lt h.rd h.wr)

theorem walk_push [Inhabited T] {n : Nat} {cb cb1 : CircularBuffer T} (h : WF n cb) (v : T)
    (hb : cb1.buffer = cb.buffer.set cb.write_pos v)
    (hw : cb1.write_pos = next_pos (n + 1) cb.write_pos)
    (hcap : cb1.capacity = cb.capacity)
    (f r : Nat) (hr : r < n + 1) (h1 : dist (n + 1) r cb.write_pos < f)
    (h2 : dist (n + 1) r cb.write_pos + 1 < n + 1) :
    cb1.walk f r = cb.walk f r ++ [v] := by
  induction f generalizing r with
  | zero => omega
  | succ f ih =>
    rw [walk_step, walk_step, hb, hw, hcap, h.cap, mod_next hr]
    have hnw : r ≠ next_pos (n + 1) cb.write_pos := by
      intro e
      have := (full_iff hr h.wr).1 e.symm
      omega
    rw [if_neg hnw]
    by_cases hc : r = cb.write_pos
    · have hget : (cb.buffer.set cb.write_pos v).getD cb.write_pos default = v := by
        have hlt : cb.write_pos < cb.buffer.length := by rw [h.len]; exact h.wr
        simp [List.getD_eq_getElem?_getD, hlt]
      have hstop : cb1.walk f (next_pos (n + 1) r) = [] := by
        rw [hc]
        cases f with
        | zero => rfl
        | succ g => rw [walk_step, hw]; simp
      rw [if_pos hc, hstop, hc, hget]
      rfl
    · have hget : (cb.buffer.set cb.write_pos v).getD r default = cb.buffer.getD r default := by
        have hne : cb.write_pos ≠ r := fun e => hc e.symm
        simp [List.getD_eq_getElem?_getD, List.getElem?_set_ne hne]
      have hd := dist_next hr h.wr hc
      rw [if_neg hc, hget, ih _ (next_pos_lt hr) (by omega) (by omega)]
      rfl

theorem wf_new [Inhabited T] {n : Nat} (hn : n + 1 < 2 ^ 64) :
    WF n (CircularBuffer.new n : CircularBuffer T) := by
  have h1 : (n + 1) % 2 ^ 64 = n + 1 := Nat.mod_eq_of_lt hn
  refine ⟨?_, hn, ?_, ?_, ?_⟩
  · exact h1
  · show (List.replicate ((n + 1) % 2 ^ 64) (default : T)).length = n + 1
    rw [List.length_replicate, h1]
  · exact Nat.succ_pos n
  · exact Nat.succ_pos n

theorem contents_new [Inhabited T] (n : Nat) :
    (CircularBuffer.new n : CircularBuffer T).contents = [] := by
  unfold CircularBuffer.contents
  cases h : (CircularBuffer.new n : CircularBuffer T).capacity with
  | zero => rfl
  | succ k => rw [walk_step]; simp [CircularBuffer.new]

theorem push_spec [Inhabited T] {n : Nat} {cb : CircularBuffer T} (h : WF n cb) (v : T) :
    ∃ r cb1, cb.push v = some (r, cb1) ∧ WF n cb1 ∧
      (r = false ↔ cb.contents.length = n) ∧ (r = false → cb1 = cb) ∧
      (r = true → cb1.contents = cb.contents ++ [v]) := by
  have hlen := contents_length h
  have hfull := full_iff h.rd h.wr
  have hlt : cb.write_pos < cb.buffer.length := by rw [h.len]; exact h.wr
  by_cases hc : next_pos (n + 1) cb.write_pos = cb.read_pos
  · refine ⟨false, cb, ?_, h, ?_, fun _ => rfl, ?_⟩
    · simp [CircularBuffer.push, increment_wf h h.wr, hc]
    · have := hfull.1 hc
      constructor
      · intro _; omega
      · intro _; rfl
    · intro e; exact absurd e (by simp)
  · have hd : dist (n + 1) cb.read_pos cb.write_pos + 1 < n + 1 := by
      have h1 := dist_lt h.rd h.wr
      have h2 : ¬ dist (n + 1) cb.read_pos cb.write_pos + 1 = n + 1 := fun e => hc (hfull.2 e)
      omega
    refine ⟨true, ⟨cb.read_pos, next_pos (n + 1) cb.write_pos,
      cb.buffer.set cb.write_pos v, cb.capacity⟩, ?_, ?_, ?_, ?_, ?_⟩
    · simp [CircularBuffer.push, increment_wf h h.wr, hc, hlt]
    · exact ⟨h.cap, h.fits, by simp [h.len], h.rd, next_pos_lt h.wr⟩
    · constructor
      · intro e; exact absurd e (by simp)
      · intro e; omega
    · intro e; exact absurd e (by simp)
    · intro _
      have hdl : dist (n + 1) cb.read_pos cb.write_pos < cb.capacity := by
        rw [h.cap]; exact dist_lt h.rd h.wr
      exact @walk_push T _ n cb ⟨cb.read_pos, next_pos (n + 1) cb.write_pos,
        cb.buffer.set cb.write_pos v, cb.capacity⟩ h v rfl rfl rfl cb.capacity cb.read_pos h.rd
        hdl hd

theorem pop_spec [Inhabited T] {n : Nat} {cb : CircularBuffer T} (h : WF n cb) :
    ∃ o cb1, cb.pop = some (o, cb1) ∧ WF n cb1 ∧
      (o = none ↔ cb.contents = []) ∧ (o = none → cb1 = cb) ∧
      (∀ x, o = some x → cb.contents = x :: cb1.contents) := by
  by_cases hc : cb.read_pos = cb.write_pos
  · have hempty : cb.contents = [] := by
      unfold CircularBuffer.contents
      rw [h.cap, walk_step, if_pos hc]
    refine ⟨none, cb, by simp [CircularBuffer.pop, hc], h, by simp [hempty], fun _ => rfl, ?_⟩
    intro x e
    exact absurd e (by simp)
  · have hlt : cb.read_pos < cb.buffer.length := by rw [h.len]; exact h.rd
    have hget : cb.buffer.get? cb.read_pos = some (cb.buffer.getD cb.read_pos default) := by
      rw [List.get?_eq_getElem?, List.getD_eq_getElem?_getD, List.getElem?_eq_getElem hlt]
      rfl
    have hcont : cb.contents = cb.buffer.getD cb.read_pos default ::
        cb.walk n (next_pos (n + 1) cb.read_pos) := by
      unfold CircularBuffer.contents
      rw [h.cap, walk_step, if_neg hc, h.cap, mod_next h.rd]
    refine ⟨some (cb.buffer.getD cb.read_pos default),
      ⟨next_pos (n + 1) cb.read_pos, cb.write_pos, cb.buffer, cb.capacity⟩, ?_, ?_, ?_, ?_, ?_⟩
    · simp only [CircularBuffer.pop, hc, if_false, hget, increment_wf h h.rd]
    · exact ⟨h.cap, h.fits, h.len, next_pos_lt h.rd, h.wr⟩
    · simp [hcont]
    · intro e; exact absurd e (by simp)
    · intro x e
      simp only [Option.some.injEq] at e
      rw [hcont, e]
      congr 1
      have hd := dist_next h.rd h.wr hc
      have hl := dist_lt h.rd h.wr
      have hwf : cb.walk n (next_pos (n + 1) cb.read_pos) =
          cb.walk cb.capacity (next_pos (n + 1) cb.read_pos) :=
        walk_fuel h n cb.capacity (next_pos (n + 1) cb.read_pos) (next_pos_lt h.rd)
          (by omega) (by rw [h.cap]; omega)
      rw [hwf]
      exact (@walk_congr T _ cb ⟨next_pos (n + 1) cb.read_pos, cb.write_pos, cb.buffer,
        cb.capacity⟩ rfl rfl rfl cb.capacity (next_pos (n + 1) cb.read_pos)).symm

theorem step_refines [Inhabited T] {n : Nat} {cb : CircularBuffer T} (h : WF n cb)
    (op : Op T) :
    ∃ r cb1, step cb op = some (r, cb1) ∧ WF n cb1 ∧
      queue_step n cb.contents op = (r, cb1.contents) := by
  cases op with
  | push v =>
    obtain ⟨r, cb1, hp, hw, hiff, hf, ht⟩ := push_spec h v
    refine ⟨.pushed r, cb1, by simp only [step, hp], hw, ?_⟩
    cases r with
    | false =>
      rw [hf rfl]
      simp [queue_step, hiff.1 rfl]
    | true =>
      have hne : ¬ cb.contents.length = n := fun e => by
        have := hiff.2 e
        exact absurd this (by simp)
      simp [queue_step, hne, ht rfl]
  | pop =>
    obtain ⟨o, cb1, hp, hw, hiff, hf, hs⟩ := pop_spec h
    refine ⟨.popped o, cb1, by simp only [step, hp], hw, ?_⟩
    cases o with
    | none =>
      rw [hf rfl, hiff.1 rfl]
      rfl
    | some x =>
      rw [hs x rfl]
      rfl

theorem run_refines [Inhabited T] {n : Nat} {cb : CircularBuffer T} (h : WF n cb)
    (ops : List (Op T)) :
    ∃ rs cb1, run cb ops = some (rs, cb1) ∧ WF n cb1 ∧
      queue_run n cb.contents ops = (rs, cb1.contents) := by
  induction ops generalizing cb with
  | nil => exact ⟨[], cb, rfl, h, rfl⟩
  | cons op ops ih =>
    obtain ⟨r, cb1, hs, hw, hq⟩ := step_refines h op
    obtain ⟨rs, cb2, hr, hw2, hq2⟩ := ih hw
    refine ⟨r :: rs, cb2, by simp only [run, hs, hr], hw2, ?_⟩
    simp only [queue_run, hq, hq2]

theorem queue_run_append (n : Nat) (q : List T) (a b : List (Op T)) :
    queue_run n q (a ++ b) =
      ((queue_run n q a).1 ++ (queue_run n (queue_run n q a).2 b).1,
        (queue_run n (queue_run n q a).2 b).2) := by
  induction a generalizing q with
  | nil => rfl
  | cons op a ih =>
    rw [List.cons_append]
    simp only [queue_run]
    rw [ih]
    rfl

theorem queue_run_pushes (n : Nat) (vs q : List T) (h : q.length + vs.length ≤ n) :
    queue_run n q (vs.map Op.push) = (vs.map (fun _ => Res.pushed true), q ++ vs) := by
  induction vs generalizing q with
  | nil => simp [queue_run]
  | cons v vs ih =>
    simp only [List.length_cons] at h
    have hne : ¬ q.length = n := by omega
    have hstep : queue_step n q (Op.push v) = (Res.pushed true, q ++ [v]) := by
      simp [queue_step, hne]
    simp only [List.map_cons, queue_run, hstep]
    rw [ih (q ++ [v]) (by simp; omega)]
    simp

/-- For every capacity `n` whose array size `n + 1` fits `size_t` and every sequence
of `push` and `pop` calls on a freshly constructed buffer, the calls run to completion and
return exactly what a FIFO queue bounded by `n` returns, and the stored elements are the
elements of that queue, oldest first; in the reached state `pop` returns `nullopt` and
changes nothing exactly when the buffer is empty, and otherwise returns and removes the
oldest stored value. Wrapped positions are included: the sequence is arbitrary. -/
theorem buffer_is_bounded_fifo [Inhabited T] (n : Nat) (hn : n + 1 < 2 ^ 64)
    (ops : List (Op T)) :
    ∃ rs cb, run (CircularBuffer.new n) ops = some (rs, cb) ∧
      queue_run n [] ops = (rs, cb.contents) ∧
      ∃ o cb1, cb.pop = some (o, cb1) ∧
        (o = none ↔ cb.contents = []) ∧ (o = none → cb1 = cb) ∧
        (∀ x, o = some x → cb.contents = x :: cb1.contents) := by
  obtain ⟨rs, cb, hr, hw, hq⟩ := run_refines (wf_new hn) ops
  rw [contents_new] at hq
  obtain ⟨o, cb1, hp, _, h1, h2, h3⟩ := pop_spec hw
  exact ⟨rs, cb, hr, hq, o, cb1, hp, h1, h2, h3⟩

/-- The calls of `main` (capacity 5): the sixth push is refused, the four pops
return 1, 2, 3, 4, and after the write position has wrapped the buffer holds 5, 6, 7. -/
theorem buffer_is_bounded_fifo_main :
    5 + 1 < 2 ^ 64 ∧
      (run (CircularBuffer.new 5) main_ops).map (fun x => (x.1, x.2.contents, x.2.write_pos,
          x.2.read_pos)) =
        some ([.pushed true, .pushed true, .pushed true, .pushed true, .pushed true,
          .pushed false, .popped (some 1), .popped (some 2), .popped (some 3),
          .popped (some 4), .pushed true, .pushed true], [5, 6, 7], 1, 4) ∧
      ∃ rs cb, run (CircularBuffer.new 5) main_ops = some (rs, cb) ∧
        queue_run 5 [] main_ops = (rs, cb.contents) ∧
        ∃ o cb1, cb.pop = some (o, cb1) ∧
          (o = none ↔ cb.contents = []) ∧ (o = none → cb1 = cb) ∧
          (∀ x, o = some x → cb.contents = x :: cb1.contents) :=
  ⟨by decide, by decide, buffer_is_bounded_fifo 5 (by decide) main_ops⟩

/-- For every capacity `n` whose array size `n + 1` fits `size_t`, in every state
reached from the freshly constructed buffer, `push` returns; it returns false exactly when
the buffer holds `n` elements, and then leaves the state unchanged; otherwise it returns
true and the value becomes the newest stored element. On a fresh buffer `n` consecutive
pushes succeed and the next one fails. -/
theorem push_refused_when_full [Inhabited T] (n : Nat) (hn : n + 1 < 2 ^ 64)
    (ops : List (Op T)) (v : T) :
    ∃ rs cb, run (CircularBuffer.new n) ops = some (rs, cb) ∧
      (∃ r cb1, cb.push v = some (r, cb1) ∧
        (r = false ↔ cb.contents.length = n) ∧ (r = false → cb1 = cb) ∧
        (r = true → cb1.contents = cb.contents ++ [v])) ∧
      ∀ vs : List T, vs.length = n →
        ∃ cb2, run (CircularBuffer.new n) ((vs ++ [v]).map Op.push) =
            some (vs.map (fun _ => Res.pushed true) ++ [Res.pushed false], cb2) ∧
          cb2.contents = vs := by
  obtain ⟨rs, cb, hr, hw, _⟩ := run_refines (wf_new (T := T) hn) ops
  obtain ⟨r, cb1, hp, _, h1, h2, h3⟩ := push_spec hw v
  refine ⟨rs, cb, hr, ⟨r, cb1, hp, h1, h2, h3⟩, ?_⟩
  intro vs hvs
  obtain ⟨rs2, cb2, hr2, _, hq2⟩ :=
    run_refines (wf_new (T := T) hn) ((vs ++ [v]).map Op.push)
  rw [contents_new, List.map_append, queue_run_append,
    queue_run_pushes n vs [] (by simp [hvs])] at hq2
  simp only [List.nil_append, List.map_cons, List.map_nil, queue_run, queue_step, hvs,
    if_true, Prod.mk.injEq] at hq2
  refine ⟨cb2, ?_, hq2.2.symm⟩
  rw [hr2, ← hq2.1]

/-- Capacity 5: pushing 1..5 succeeds and pushing 6 fails, as in `main`. -/
theorem push_refused_when_full_main :
    5 + 1 < 2 ^ 64 ∧
      ∃ rs cb, run (CircularBuffer.new 5) main_ops = some (rs, cb) ∧
        (∃ r cb1, cb.push (8 : Int) = some (r, cb1) ∧
          (r = false ↔ cb.contents.length = 5) ∧ (r = false → cb1 = cb) ∧
          (r = true → cb1.contents = cb.contents ++ [8])) ∧
        ∀ vs : List Int, vs.length = 5 →
          ∃ cb2, run (CircularBuffer.new 5) ((vs ++ [8]).map Op.push) =
              some (vs.map (fun _ => Res.pushed true) ++ [Res.pushed false], cb2) ∧
            cb2.contents = vs :=
  ⟨by decide, push_refused_when_full 5 (by decide) main_ops 8⟩

theorem size_eq_dist {n : Nat} {cb : CircularBuffer T} (h : WF n cb) :
    cb.size = dist (n + 1) cb.read_pos cb.write_pos := by
  have h1 := h.fits
  have h2 := h.rd
  have h3 := h.wr
  unfold CircularBuffer.size dist
  rw [h.cap]
  split
  · rfl
  · omega

theorem size_eq_length [Inhabited T] {n : Nat} {cb : CircularBuffer T} (h : WF n cb) :
    cb.size = cb.contents.length := by
  rw [size_eq_dist h, contents_length h]

theorem queue_run_count (n : Nat) (q : List T) (ops : List (Op T)) :
    (queue_run n q ops).2.length + successful_pops (queue_run n q ops).1 =
      q.length + accepted_pushes (queue_run n q ops).1 := by
  induction ops generalizing q with
  | nil => rfl
  | cons op ops ih =>
    have ih1 := ih (queue_step n q op).2
    cases op with
    | push v =>
      by_cases hf : q.length = n
      · have hs : queue_step n q (Op.push v) = (Res.pushed false, q) := by
          simp [queue_step, hf]
        rw [hs] at ih1
        simp only [queue_run, hs, accepted_pushes, successful_pops]
        exact ih1
      · have hs : queue_step n q (Op.push v) = (Res.pushed true, q ++ [v]) := by
          simp [queue_step, hf]
        rw [hs] at ih1
        simp only [queue_run, hs, accepted_pushes, successful_pops]
        simp only [List.length_append, List.length_singleton] at ih1
        omega
    | pop =>
      cases q with
      | nil =>
        have hs : queue_step n ([] : List T) Op.pop = (Res.popped none, []) := rfl
        rw [hs] at ih1
        simp only [queue_run, hs, accepted_pushes, successful_pops]
        exact ih1
      | cons x t =>
        have hs : queue_step n (x :: t) Op.pop = (Res.popped (some x), t) := rfl
        simp only [hs] at ih1
        simp only [queue_run, hs, accepted_pushes, successful_pops, List.length_cons]
        omega

theorem queue_run_drain (n : Nat) (q : List T) :
    queue_run n q (List.replicate q.length Op.pop ++ [Op.pop]) =
      (q.map (fun x => Res.popped (some x)) ++ [Res.popped none], []) := by
  induction q with
  | nil => rfl
  | cons x t ih =>
    have hs : queue_step n (x :: t) Op.pop = (Res.popped (some x), t) := rfl
    show queue_run n (x :: t) (Op.pop :: (List.replicate t.length Op.pop ++ [Op.pop])) = _
    simp only [queue_run, hs, ih, List.map_cons, List.cons_append]

theorem successful_pops_drain (xs : List T) :
    successful_pops (xs.map (fun x => Res.popped (some x)) ++ [Res.popped none]) =
      xs.length := by
  induction xs with
  | nil => rfl
  | cons x t ih =>
    show successful_pops (Res.popped (some x) ::
      (t.map (fun x => Res.popped (some x)) ++ [Res.popped none])) = _
    simp only [successful_pops, ih, List.length_cons]

/-- For every capacity `n` whose array size `n + 1` fits `size_t` and every sequence
of `push` and `pop` calls on a freshly constructed buffer, the calls run to completion and
in the reached state `size()` plus the number of pops that returned a value is the number
of accepted pushes, `size()` is the number of stored elements and is at most `n`, and
`size()` further pops return the stored elements, oldest first, and the pop after them
returns `nullopt`. Wrapped positions are included: the sequence is arbitrary. -/
theorem size_counts_fits [Inhabited T] (n : Nat) (hn : n + 1 < 2 ^ 64)
    (ops : List (Op T)) :
    ∃ rs cb, run (CircularBuffer.new n) ops = some (rs, cb) ∧
      cb.size + successful_pops rs = accepted_pushes rs ∧
      cb.size = cb.contents.length ∧ cb.size ≤ n ∧
      ∃ rs1 cb1, run cb (List.replicate cb.size Op.pop ++ [Op.pop]) = some (rs1, cb1) ∧
        rs1 = cb.contents.map (fun x => Res.popped (some x)) ++ [Res.popped none] ∧
        successful_pops rs1 = cb.size := by
  obtain ⟨rs, cb, hr, hw, hq⟩ := run_refines (wf_new hn) ops
  rw [contents_new] at hq
  have hsz := size_eq_length hw
  have hcount := queue_run_count n ([] : List T) ops
  rw [hq] at hcount
  simp only [List.length_nil, Nat.zero_add] at hcount
  have hle : cb.size ≤ n := by
    have := dist_lt hw.rd hw.wr
    rw [size_eq_dist hw]
    omega
  obtain ⟨rs1, cb1, hr1, _, hq1⟩ :=
    run_refines hw (List.replicate cb.size Op.pop ++ [Op.pop])
  rw [hsz, queue_run_drain] at hq1
  simp only [Prod.mk.injEq] at hq1
  refine ⟨rs, cb, hr, by rw [hsz]; exact hcount, hsz, hle, rs1, cb1, hr1, hq1.1.symm, ?_⟩
  rw [← hq1.1, successful_pops_drain, hsz]

theorem new_eq_of_slots [Inhabited T] {n m : Nat} (h : (n + 1) % 2 ^ 64 = m + 1) :
    (CircularBuffer.new n : CircularBuffer T) = CircularBuffer.new m := by
  have hm : (m + 1) % 2 ^ 64 = m + 1 :=
    Nat.mod_eq_of_lt (by rw [← h]; exact Nat.mod_lt _ (Nat.two_pow_pos 64))
  unfold CircularBuffer.new
  rw [h, hm]

theorem run_no_slots {cb0 : CircularBuffer T} (hc : cb0.capacity = 0)
    (he : cb0.read_pos = cb0.write_pos) (ops : List (Op T)) (rs : List (Res T))
    (cb : CircularBuffer T) (hr : run cb0 ops = some (rs, cb)) :
    cb = cb0 ∧ successful_pops rs = 0 ∧ accepted_pushes rs = 0 := by
  induction ops generalizing rs cb with
  | nil =>
    simp only [run, Option.some.injEq, Prod.mk.injEq] at hr
    obtain ⟨h1, h2⟩ := hr
    subst h1 h2
    exact ⟨rfl, rfl, rfl⟩
  | cons op ops ih =>
    cases op with
    | push v =>
      have hp : cb0.push v = none := by
        simp [CircularBuffer.push, CircularBuffer.increment, hc]
      simp [run, step, hp] at hr
    | pop =>
      have hp : cb0.pop = some (none, cb0) := by simp [CircularBuffer.pop, he]
      cases hr2 : run cb0 ops with
      | none => simp [run, step, hp, hr2] at hr
      | some y =>
        obtain ⟨rs2, cb2⟩ := y
        simp only [run, step, hp, hr2, Option.some.injEq, Prod.mk.injEq] at hr
        obtain ⟨h1, h2⟩ := hr
        subst h1 h2
        obtain ⟨e, hs, ha⟩ := ih rs2 cb2 hr2
        exact ⟨e, hs, ha⟩

theorem run_pops_no_slots {cb0 : CircularBuffer T} (he : cb0.read_pos = cb0.write_pos)
    (ops : List (Op T)) (hp : ∀ v, Op.push v ∉ ops) :
    run cb0 ops = some (ops.map (fun _ => Res.popped none), cb0) := by
  induction ops with
  | nil => rfl
  | cons op ops ih =>
    cases op with
    | push v => exact absurd (List.mem_cons_self _ _) (hp v)
    | pop =>
      have hpop : cb0.pop = some (none, cb0) := by simp [CircularBuffer.pop, he]
      simp only [run, step, hpop, ih (fun v hm => hp v (List.mem_cons_of_mem _ hm)),
        List.map_cons]

/-- C23. For every capacity `n` and every sequence of `push` and `pop` calls on a freshly
constructed buffer: the calls run to completion whenever the array size `capacity + 1`,
computed in `size_t`, is not 0 or no call is a push; and in every state the calls reach,
`size()` plus the number of pops that returned a value is the number of accepted pushes,
`size()` is the number of stored elements and is at most `n`, and `size()` further pops
return the stored elements, oldest first, and the pop after them returns `nullopt`.
Wrapped positions are included: the sequence is arbitrary. For capacity `2^64 - 1` the
array has no slot, the states reached are those of sequences of pops, and `size()` is 0
there. -/
theorem C23_size_counts_stored_elements [Inhabited T] (n : Nat) (ops : List (Op T)) :
    (((n + 1) % 2 ^ 64 ≠ 0 ∨ ∀ v, Op.push v ∉ ops) →
        ∃ rs cb, run (CircularBuffer.new n) ops = some (rs, cb)) ∧
      ∀ rs cb, run (CircularBuffer.new n) ops = some (rs, cb) →
        cb.size + successful_pops rs = accepted_pushes rs ∧
        cb.size = cb.contents.length ∧ cb.size ≤ n ∧
        ∃ rs1 cb1, run cb (List.replicate cb.size Op.pop ++ [Op.pop]) = some (rs1, cb1) ∧
          rs1 = cb.contents.map (fun x => Res.popped (some x)) ++ [Res.popped none] ∧
          successful_pops rs1 = cb.size := by
  cases hc : (n + 1) % 2 ^ 64 with
  | zero =>
    have hcap : (CircularBuffer.new n : CircularBuffer T).capacity = 0 := hc
    refine ⟨fun h => h.elim (fun h1 => absurd rfl h1)
      (fun h2 => ⟨_, _, run_pops_no_slots rfl ops h2⟩), ?_⟩
    intro rs cb hr
    obtain ⟨e, hs, ha⟩ := run_no_slots hcap rfl ops rs cb hr
    subst e
    have hsz : (CircularBuffer.new n : CircularBuffer T).size = 0 := by
      simp [CircularBuffer.size, CircularBuffer.new]
    have hpop : (CircularBuffer.new n : CircularBuffer T).pop =
        some (none, CircularBuffer.new n) := by
      simp [CircularBuffer.pop, CircularBuffer.new]
    rw [hsz, hs, ha, contents_new]
    refine ⟨rfl, rfl, Nat.zero_le n, [Res.popped none], CircularBuffer.new n, ?_, rfl, rfl⟩
    show run (CircularBuffer.new n) [Op.pop] = _
    simp only [run, step, hpop]
  | succ m =>
    have hm : m + 1 < 2 ^ 64 := by
      rw [← hc]
      exact Nat.mod_lt _ (Nat.two_pow_pos 64)
    have hle : m ≤ n := by
      have := Nat.mod_le (n + 1) (2 ^ 64)
      omega
    have hnew : (CircularBuffer.new n : CircularBuffer T) = CircularBuffer.new m :=
      new_eq_of_slots hc
    obtain ⟨rs0, cb0, hr0, h1, h2, h3, h4⟩ := size_counts_fits (T := T) m hm ops
    refine ⟨fun _ => ⟨rs0, cb0, by rw [hnew]; exact hr0⟩, ?_⟩
    intro rs cb hr
    rw [hnew, hr0] at hr
    simp only [Option.some.injEq, Prod.mk.injEq] at hr
    obtain ⟨e1, e2⟩ := hr
    subst e1 e2
    exact ⟨h1, h2, Nat.le_trans h3 hle, h4⟩

/-- C23 on the calls of `main` (capacity 5): after push 1..5, a refused push, four pops
and the pushes of 6 and 7 the write position 1 is below the read position 4 and `size()`
is 3, with seven accepted pushes and four pops that returned a value. -/
theorem C23_size_counts_stored_elements_witness :
    (5 + 1) % 2 ^ 64 ≠ 0 ∧
      run (CircularBuffer.new 5) main_ops = some (main_results, main_buffer) ∧
      (main_buffer.write_pos, main_buffer.read_pos, main_buffer.size,
        accepted_pushes main_results, successful_pops main_results) = (1, 4, 3, 7, 4) ∧
      (∃ rs cb, run (CircularBuffer.new 5) main_ops = some (rs, cb)) ∧
      (main_buffer.size + successful_pops main_results = accepted_pushes main_results ∧
        main_buffer.size = main_buffer.contents.length ∧ main_buffer.size ≤ 5 ∧
        ∃ rs1 cb1, run main_buffer (List.replicate main_buffer.size Op.pop ++ [Op.pop]) = some (rs1, cb1) ∧
          rs1 = main_buffer.contents.map (fun x => Res.popped (some x)) ++ [Res.popped none] ∧
          successful_pops rs1 = main_buffer.size) :=
  ⟨by decide, by decide, by decide,
    (C23_size_counts_stored_elements 5 main_ops).1 (Or.inl (by decide)),
    (C23_size_counts_stored_elements 5 main_ops).2 main_results main_buffer (by decide)⟩

theorem size_at_max_capacity :
    run max_capacity_buffer [.pop, .pop] =
        some ([.popped none, .popped none], max_capacity_buffer) ∧
      max_capacity_buffer.size = 0 ∧ max_capacity_buffer.contents = [] := by
  decide

/-- C17 fails on the code: constructed with capacity `2^64 - 1`, the largest `size_t`, the
buffer has an array of `capacity + 1 = 0` slots and holds no element, and the first `push`
does not return true: `increment` divides by zero. -/
theorem C17_push_undefined_at_max_capacity :
    max_capacity_buffer = ⟨0, 0, [], 0⟩ ∧ max_capacity_buffer.contents = [] ∧
      max_capacity_buffer.increment max_capacity_buffer.write_pos = none ∧
      max_capacity_buffer.push 1 = none := by
  decide

/-- C18 fails on the code: on the buffer constructed with capacity `2^64 - 1` the calls
`push(1)`, `pop()` do not run to completion (the push divides by zero), while the FIFO
queue bounded by `2^64 - 1` accepts the value and returns it. -/
theorem C18_no_queue_at_max_capacity :
    run max_capacity_buffer [.push 1, .pop] = none ∧
      step max_capacity_buffer (.push 1) = none ∧
      queue_run (2 ^ 64 - 1) ([] : List Int) [.push 1, .pop] =
        ([.pushed true, .popped (some 1)], []) := by
  decide

end circular_buffer

/-! # Laws and claims of `dll.cpp` -/

namespace dll

open order_book (lookup erase_key update lookup_update lookup_erase_key)

theorem dll_lookup_cons (a : Nat) (n : Node) (heap : List (Nat × Node)) (b : Nat) :
    lookup ((a, n) :: heap) b = if a = b then some n else lookup heap b := rfl

theorem dll_chain_of_agree {heap heap1 : List (Nat × Node)} {addrs : List Nat}
    (hn : ∀ a ∈ addrs.dropLast, next_of heap1 a = next_of heap a)
    (hp : ∀ a ∈ addrs.tail, prev_of heap1 a = prev_of heap a)
    (h : addrs.Chain' (fun a b => next_of heap a = some b ∧ prev_of heap b = some a)) :
    addrs.Chain' (fun a b => next_of heap1 a = some b ∧ prev_of heap1 b = some a) := by
  induction addrs with
  | nil => exact List.chain'_nil
  | cons a t ih =>
    cases t with
    | nil => exact List.chain'_singleton a
    | cons b t1 =>
      rw [List.chain'_cons] at h ⊢
      refine ⟨⟨?_, ?_⟩, ih ?_ ?_ h.2⟩
      · rw [hn a (by simp)]; exact h.1.1
      · rw [hp b (by simp)]; exact h.1.2
      · intro x hx
        exact hn x (by simp only [List.dropLast_cons₂]; exact List.mem_cons_of_mem _ hx)
      · intro x hx
        exact hp x (by simp only [List.tail_cons] at hx ⊢; exact List.mem_cons_of_mem _ hx)

theorem dll_to_list_chain (heap : List (Nat × Node)) (addrs : List Nat)
    (hlive : ∀ a ∈ addrs, lookup heap a ≠ none)
    (hlinks : addrs.Chain' (fun a b => next_of heap a = some b ∧ prev_of heap b = some a))
    (hlast : ∀ a, addrs.getLast? = some a → next_of heap a = none)
    (fuel : Nat) (hf : addrs.length ≤ fuel) :
    LinkedList.to_list heap fuel addrs.head? = addrs.map (value_of heap) := by
  induction addrs generalizing fuel with
  | nil => cases fuel <;> rfl
  | cons a t ih =>
    cases fuel with
    | zero => simp at hf
    | succ f =>
      cases hl : lookup heap a with
      | none => exact absurd hl (hlive a (List.mem_cons_self _ _))
      | some n =>
        have hv : value_of heap a = n.value := by simp [value_of, hl]
        have hnx : next_of heap a = n.next := by simp [next_of, hl]
        simp only [List.head?_cons, LinkedList.to_list, hl, List.map_cons, hv]
        congr 1
        cases t with
        | nil =>
          have := hlast a rfl
          rw [hnx] at this
          rw [this]
          cases f <;> rfl
        | cons b t1 =>
          rw [List.chain'_cons] at hlinks
          have hb := hlinks.1.1
          rw [hnx] at hb
          rw [hb]
          exact ih (fun x hx => hlive x (List.mem_cons_of_mem _ hx)) hlinks.2
            (fun x hx => hlast x (by rw [List.getLast?_cons_cons]; exact hx)) f
            (by simp only [List.length_cons] at hf ⊢; omega)

theorem dll_nodup_bounded_length {l : List Nat} {n : Nat} (hnd : l.Nodup) (hb : ∀ a ∈ l, a < n) :
    l.length ≤ n := by
  have hsub : l ⊆ List.range n := fun a ha => List.mem_range.2 (hb a ha)
  have := (List.subperm_of_subset hnd hsub).length_le
  simpa using this

theorem dll_addr_lt {l : LinkedList} {addrs : List Nat} (h : WF l addrs) {a : Nat}
    (ha : a ∈ addrs) : a < l.next_addr := by
  by_contra hc
  exact h.live a ha (h.fresh a (Nat.le_of_not_lt hc))

theorem dll_values_eq {l : LinkedList} {addrs : List Nat} (h : WF l addrs) :
    l.values = addrs.map (value_of l.heap) := by
  unfold LinkedList.values
  rw [h.head_eq]
  exact dll_to_list_chain l.heap addrs h.live h.links h.last _
    (dll_nodup_bounded_length h.nodup (fun a ha => dll_addr_lt h ha))

theorem wf_empty : WF LinkedList.empty [] := by
  refine ⟨rfl, rfl, List.nodup_nil, ?_, ?_, List.chain'_nil, ?_, ?_⟩
  · intro a ha; simp at ha
  · intro a _; rfl
  · intro a ha; simp at ha
  · intro a ha; simp at ha

theorem push_empty_wf {l : LinkedList} (h : WF l []) (v : Int) :
    WF ⟨some l.next_addr, some l.next_addr, size_inc l.length,
        (l.next_addr, ⟨v, none, none⟩) :: l.heap, l.next_addr + 1⟩ [l.next_addr] ∧
      value_of ((l.next_addr, (⟨v, none, none⟩ : Node)) :: l.heap) l.next_addr = v := by
  refine ⟨⟨rfl, rfl, List.nodup_singleton _, ?_, ?_, List.chain'_singleton _, ?_, ?_⟩, ?_⟩
  · intro a ha
    simp only [List.mem_singleton] at ha
    simp [dll_lookup_cons, ha]
  · intro a ha
    simp only at ha
    have hne : ¬ l.next_addr = a := by omega
    simp only [dll_lookup_cons, hne, if_false]
    exact h.fresh a (by omega)
  · intro a ha
    simp only [List.head?_cons, Option.some.injEq] at ha
    simp [prev_of, dll_lookup_cons, ha]
  · intro a ha
    simp only [List.getLast?_singleton, Option.some.injEq] at ha
    simp [next_of, dll_lookup_cons, ha]
  · simp [value_of, dll_lookup_cons]

theorem head_tail_none_iff {l : LinkedList} {addrs : List Nat} (h : WF l addrs) :
    (l.head = none ∧ l.tail = none) ↔ addrs = [] := by
  constructor
  · intro hc
    have := hc.1
    rw [h.head_eq] at this
    cases addrs with
    | nil => rfl
    | cons a t => simp at this
  · intro e
    subst e
    exact ⟨h.head_eq, h.tail_eq⟩

theorem push_front_wf {l : LinkedList} {addrs : List Nat} (h : WF l addrs) (v : Int) :
    ∃ l1, l.push_front v = some l1 ∧ WF l1 (l.next_addr :: addrs) ∧
      value_of l1.heap l.next_addr = v ∧
      ∀ a ∈ addrs, value_of l1.heap a = value_of l.heap a := by
  have hne0 : ∀ a ∈ addrs, a ≠ l.next_addr := fun a ha => Nat.ne_of_lt (dll_addr_lt h ha)
  cases addrs with
  | nil =>
    have hc := (head_tail_none_iff h).2 rfl
    obtain ⟨hw, hv⟩ := push_empty_wf h v
    refine ⟨_, by simp only [LinkedList.push_front, hc, and_self, if_true], hw, hv, ?_⟩
    intro a ha; simp at ha
  | cons hd rest =>
    obtain ⟨lh, lt, len, heap, na⟩ := l
    have hhead : lh = some hd := h.head_eq
    subst hhead
    have htail : lt = (hd :: rest).getLast? := h.tail_eq
    have hlive : ∀ a ∈ hd :: rest, lookup heap a ≠ none := h.live
    have hfresh : ∀ a, na ≤ a → lookup heap a = none := h.fresh
    have hne0 : ∀ a ∈ hd :: rest, a ≠ na := hne0
    have hhd0 : hd ≠ na := hne0 hd (List.mem_cons_self _ _)
    have hhd0' : ¬ na = hd := fun e => hhd0 e.symm
    have hrest : ∀ b ∈ rest, b ≠ hd := by
      intro b hb e
      have := h.nodup
      rw [List.nodup_cons] at this
      exact this.1 (e ▸ hb)
    cases hlhd : lookup heap hd with
    | none => exact absurd hlhd (hlive hd (List.mem_cons_self _ _))
    | some nh =>
      have hL : ∀ b, lookup (update (update ((na, (⟨v, none, none⟩ : Node)) :: heap)
          na (fun n => { n with next := some hd })) hd
          (fun n => { n with prev := some na })) b =
          if b = hd then some ⟨nh.value, nh.next, some na⟩
          else if b = na then some ⟨v, some hd, none⟩ else lookup heap b := by
        intro b
        simp only [lookup_update, dll_lookup_cons]
        by_cases hb : b = hd
        · subst hb
          simp [hhd0, hhd0', hlhd]
        · by_cases hb2 : b = na
          · subst hb2
            simp [hb]
          · have hb3 : ¬ na = b := fun e => hb2 e.symm
            simp [hb, hb2, hb3]
      have hl2 : lookup (update ((na, (⟨v, none, none⟩ : Node)) :: heap)
          na (fun n => { n with next := some hd })) hd = some nh := by
        simp only [lookup_update, dll_lookup_cons]
        simp [hhd0, hhd0', hlhd]
      refine ⟨⟨some na, lt, size_inc len,
        update (update ((na, (⟨v, none, none⟩ : Node)) :: heap)
          na (fun n => { n with next := some hd })) hd
          (fun n => { n with prev := some na }), na + 1⟩, ?_, ?_, ?_, ?_⟩
      · simp [LinkedList.push_front, hl2]
      · refine ⟨rfl, ?_, ?_, ?_, ?_, ?_, ?_, ?_⟩
        · show lt = _
          rw [htail, List.getLast?_cons_cons]
        · rw [List.nodup_cons]
          exact ⟨fun hm => (hne0 _ hm) rfl, h.nodup⟩
        · intro a ha
          show lookup _ a ≠ none
          rw [hL]
          by_cases h1 : a = hd
          · simp [h1]
          · by_cases h2 : a = na
            · simp [h2, hhd0']
            · simp only [h1, h2, if_false]
              rcases List.mem_cons.1 ha with e | e
              · exact absurd e h2
              · exact hlive a e
        · intro a ha
          have ha : na + 1 ≤ a := ha
          show lookup _ a = none
          rw [hL]
          have h1 : a ≠ hd := by
            have := dll_addr_lt h (List.mem_cons_self hd rest)
            have : hd < na := this
            omega
          have h2 : a ≠ na := by omega
          simp only [h1, h2, if_false]
          exact hfresh a (by omega)
        · rw [List.chain'_cons]
          refine ⟨⟨by simp [next_of, hL, hhd0'], by simp [prev_of, hL]⟩, ?_⟩
          refine dll_chain_of_agree ?_ ?_ h.links
          · intro a ha
            have ham : a ∈ hd :: rest := List.dropLast_subset _ ha
            by_cases h1 : a = hd
            · subst h1
              simp [next_of, hL, hlhd]
            · simp [next_of, hL, h1, hne0 a ham]
          · intro a ha
            simp only [List.tail_cons] at ha
            simp [prev_of, hL, hrest a ha, hne0 a (List.mem_cons_of_mem _ ha)]
        · intro a ha
          simp only [List.head?_cons, Option.some.injEq] at ha
          subst ha
          simp [prev_of, hL, hhd0']
        · intro a ha
          rw [List.getLast?_cons_cons] at ha
          have ham : a ∈ hd :: rest := List.mem_of_getLast?_eq_some ha
          have := h.last a ha
          by_cases h1 : a = hd
          · subst h1
            simpa [next_of, hL, hlhd] using this
          · simpa [next_of, hL, h1, hne0 a ham] using this
      · simp [value_of, hL, hhd0']
      · intro a ha
        by_cases h1 : a = hd
        · subst h1
          simp [value_of, hL, hlhd]
        · simp [value_of, hL, h1, hne0 a ha]

theorem push_back_wf {l : LinkedList} {addrs : List Nat} (h : WF l addrs) (v : Int) :
    ∃ l1, l.push_back v = some l1 ∧ WF l1 (addrs ++ [l.next_addr]) ∧
      value_of l1.heap l.next_addr = v ∧
      ∀ a ∈ addrs, value_of l1.heap a = value_of l.heap a := by
  have hne0 : ∀ a ∈ addrs, a ≠ l.next_addr := fun a ha => Nat.ne_of_lt (dll_addr_lt h ha)
  cases hlast : addrs.getLast? with
  | none =>
    have he : addrs = [] := List.getLast?_eq_none_iff.1 hlast
    subst he
    have hc := (head_tail_none_iff h).2 rfl
    obtain ⟨hw, hv⟩ := push_empty_wf h v
    refine ⟨_, by simp only [LinkedList.push_back, hc, and_self, if_true], hw, hv, ?_⟩
    intro a ha; simp at ha
  | some t =>
    obtain ⟨init, hinit⟩ := List.getLast?_eq_some_iff.1 hlast
    obtain ⟨lh, lt, len, heap, na⟩ := l
    have htail : lt = some t := h.tail_eq.trans hlast
    subst htail
    have hhead : lh = addrs.head? := h.head_eq
    have hlive : ∀ a ∈ addrs, lookup heap a ≠ none := h.live
    have hfresh : ∀ a, na ≤ a → lookup heap a = none := h.fresh
    have hne0 : ∀ a ∈ addrs, a ≠ na := hne0
    have htm : t ∈ addrs := List.mem_of_getLast?_eq_some hlast
    have ht0 : t ≠ na := hne0 t htm
    have ht0' : ¬ na = t := fun e => ht0 e.symm
    have hinit_ne : ∀ b ∈ addrs.dropLast, b ≠ t := by
      intro b hb e
      have hnd := h.nodup
      rw [hinit, List.dropLast_concat] at hb
      rw [hinit, List.nodup_append] at hnd
      exact hnd.2.2 hb (by simp [e])
    have hnonempty : addrs ≠ [] := List.ne_nil_of_mem htm
    cases hlt : lookup heap t with
    | none => exact absurd hlt (hlive t htm)
    | some nt =>
      have hL : ∀ b, lookup (update (update ((na, (⟨v, none, none⟩ : Node)) :: heap)
          t (fun n => { n with next := some na })) na
          (fun n => { n with prev := some t })) b =
          if b = na then some ⟨v, none, some t⟩
          else if b = t then some ⟨nt.value, some na, nt.prev⟩ else lookup heap b := by
        intro b
        simp only [lookup_update, dll_lookup_cons]
        by_cases hb : b = na
        · subst hb
          simp [ht0']
        · by_cases hb2 : b = t
          · subst hb2
            simp [hb, ht0', hlt]
          · have hb3 : ¬ na = b := fun e => hb e.symm
            simp [hb, hb2, hb3]
      have hl2 : lookup ((na, (⟨v, none, none⟩ : Node)) :: heap) t = some nt := by
        simp [dll_lookup_cons, ht0', hlt]
      have hcond : ¬ (lh = none ∧ (some t : Option Nat) = none) := fun c => by
        exact absurd c.2 (by simp)
      refine ⟨⟨lh, some na, size_inc len,
        update (update ((na, (⟨v, none, none⟩ : Node)) :: heap)
          t (fun n => { n with next := some na })) na
          (fun n => { n with prev := some t }), na + 1⟩, ?_, ?_, ?_, ?_⟩
      · simp [LinkedList.push_back, hl2]
      · refine ⟨?_, ?_, ?_, ?_, ?_, ?_, ?_, ?_⟩
        · show lh = _
          rw [hhead, List.head?_append]
          cases addrs with
          | nil => exact absurd rfl hnonempty
          | cons x xs => rfl
        · show some na = _
          rw [List.getLast?_concat]
        · rw [List.nodup_append]
          refine ⟨h.nodup, List.nodup_singleton _, ?_⟩
          intro a ha hb
          simp only [List.mem_singleton] at hb
          exact hne0 a ha hb
        · intro a ha
          show lookup _ a ≠ none
          rw [hL]
          by_cases h1 : a = na
          · simp [h1]
          · by_cases h2 : a = t
            · simp [h2, ht0]
            · simp only [h1, h2, if_false]
              rcases List.mem_append.1 ha with e | e
              · exact hlive a e
              · simp only [List.mem_singleton] at e
                exact absurd e h1
        · intro a ha
          have ha : na + 1 ≤ a := ha
          show lookup _ a = none
          rw [hL]
          have h1 : a ≠ t := by
            have : t < na := dll_addr_lt h htm
            omega
          have h2 : a ≠ na := by omega
          simp only [h1, h2, if_false]
          exact hfresh a (by omega)
        · rw [List.chain'_append]
          refine ⟨?_, List.chain'_singleton _, ?_⟩
          · refine dll_chain_of_agree ?_ ?_ h.links
            · intro a ha
              have ham : a ∈ addrs := List.dropLast_subset _ ha
              simp [next_of, hL, hne0 a ham, hinit_ne a ha]
            · intro a ha
              have ham : a ∈ addrs := List.tail_subset _ ha
              by_cases h1 : a = t
              · subst h1
                simp [prev_of, hL, ht0, hlt]
              · simp [prev_of, hL, h1, hne0 a ham]
          · intro x hx y hy
            rw [hlast] at hx
            simp only [Option.mem_def, Option.some.injEq, List.head?_cons] at hx hy
            subst hx hy
            exact ⟨by simp [next_of, hL, ht0], by simp [prev_of, hL]⟩
        · intro a ha
          have ha2 : addrs.head? = some a := by
            rw [List.head?_append] at ha
            cases addrs with
            | nil => exact absurd rfl hnonempty
            | cons x xs => exact ha
          have ham : a ∈ addrs := List.mem_of_mem_head? ha2
          have := h.first a ha2
          by_cases h1 : a = t
          · subst h1
            simpa [prev_of, hL, ht0, hlt] using this
          · simpa [prev_of, hL, h1, hne0 a ham] using this
        · intro a ha
          rw [List.getLast?_concat] at ha
          simp only [Option.some.injEq] at ha
          subst ha
          simp [next_of, hL]
      · simp [value_of, hL]
      · intro a ha
        by_cases h1 : a = t
        · subst h1
          simp [value_of, hL, ht0, hlt]
        · simp [value_of, hL, h1, hne0 a ha]

theorem pop_front_nil {l : LinkedList} (h : WF l []) : l.pop_front = some (none, l) := by
  have hc := (head_tail_none_iff h).2 rfl
  simp only [LinkedList.pop_front, hc, and_self, if_true]

theorem pop_back_nil {l : LinkedList} (h : WF l []) : l.pop_back = some (none, l) := by
  have hc := (head_tail_none_iff h).2 rfl
  simp only [LinkedList.pop_back, hc, and_self, if_true]

theorem wf_after_last_freed {lh lt : Option Nat} {len len1 : Nat} {heap : List (Nat × Node)}
    {na a : Nat} (h : WF ⟨lh, lt, len, heap, na⟩ [a]) :
    WF ⟨none, none, len1, erase_key heap a, na⟩ [] := by
  refine ⟨rfl, rfl, List.nodup_nil, ?_, ?_, List.chain'_nil, ?_, ?_⟩
  · intro x hx; simp at hx
  · intro x hx
    show lookup (erase_key heap a) x = none
    rw [lookup_erase_key]
    split
    · rfl
    · exact h.fresh x hx
  · intro x hx; simp at hx
  · intro x hx; simp at hx

theorem pop_front_cons {l : LinkedList} {a : Nat} {rest : List Nat} (h : WF l (a :: rest)) :
    ∃ l1, l.pop_front = some (some (value_of l.heap a), l1) ∧ WF l1 rest ∧
      ∀ b ∈ rest, value_of l1.heap b = value_of l.heap b := by
  obtain ⟨lh, lt, len, heap, na⟩ := l
  have hhead : lh = some a := h.head_eq
  subst hhead
  have htail : lt = (a :: rest).getLast? := h.tail_eq
  have hlive : ∀ x ∈ a :: rest, lookup heap x ≠ none := h.live
  have hfresh : ∀ x, na ≤ x → lookup heap x = none := h.fresh
  have hrest : ∀ x ∈ rest, x ≠ a := by
    intro x hx e
    have := h.nodup
    rw [List.nodup_cons] at this
    exact this.1 (e ▸ hx)
  cases hla : lookup heap a with
  | none => exact absurd hla (hlive a (List.mem_cons_self _ _))
  | some n =>
    have hva : value_of heap a = n.value := by simp [value_of, hla]
    cases rest with
    | nil =>
      have ht : lt = some a := htail
      subst ht
      refine ⟨⟨none, none, size_dec len, erase_key heap a, na⟩, ?_,
        wf_after_last_freed h, ?_⟩
      · simp [LinkedList.pop_front, hla, hva]
      · intro b hb; simp at hb
    | cons b rest1 =>
      have hlinks := h.links
      rw [List.chain'_cons] at hlinks
      have hba : b ≠ a := hrest b (List.mem_cons_self _ _)
      have hba' : ¬ a = b := fun e => hba e.symm
      cases hlb : lookup heap b with
      | none => exact absurd hlb (hlive b (by simp))
      | some n1 =>
        have hn : n.next = some b := by
          have := hlinks.1.1
          simpa [next_of, hla] using this
        have hp : n1.prev = some a := by
          have := hlinks.1.2
          simpa [prev_of, hlb] using this
        obtain ⟨z, hz⟩ : ∃ z, (b :: rest1).getLast? = some z := by
          cases hg : (b :: rest1).getLast? with
          | none => simp at hg
          | some z => exact ⟨z, rfl⟩
        have htz : lt = some z := by rw [htail, List.getLast?_cons_cons, hz]
        subst htz
        have hzm : z ∈ b :: rest1 := List.mem_of_getLast?_eq_some hz
        have hza : z ≠ a := hrest z hzm
        have hza' : ¬ a = z := fun e => hza e.symm
        have hL : ∀ x, lookup (update (erase_key heap a) b (fun m => { m with prev := none })) x =
            if x = b then some ⟨n1.value, n1.next, none⟩
            else if x = a then none else lookup heap x := by
          intro x
          simp only [lookup_update, lookup_erase_key]
          by_cases hx : x = b
          · subst hx
            simp [hba, hlb]
          · simp [hx]
        have hrest1 : ∀ x ∈ rest1, x ≠ b := by
          intro x hx e
          have := h.nodup
          rw [List.nodup_cons, List.nodup_cons] at this
          exact this.2.1 (e ▸ hx)
        refine ⟨⟨some b, some z, size_dec len,
          update (erase_key heap a) b (fun m => { m with prev := none }), na⟩, ?_, ?_, ?_⟩
        · have hl3 : lookup (erase_key heap a) b = some n1 := by
            rw [lookup_erase_key]; simp [hba, hlb]
          simp [LinkedList.pop_front, hla, hza', hn, hlb, hp, LinkedList.free, hl3, hva]
        · refine ⟨rfl, ?_, ?_, ?_, ?_, ?_, ?_, ?_⟩
          · show some z = _
            rw [hz]
          · have := h.nodup
            rw [List.nodup_cons] at this
            exact this.2
          · intro x hx
            show lookup _ x ≠ none
            rw [hL]
            by_cases h1 : x = b
            · simp [h1]
            · simp only [h1, if_false, hrest x hx]
              exact hlive x (List.mem_cons_of_mem _ hx)
          · intro x hx
            have hx : na ≤ x := hx
            show lookup _ x = none
            rw [hL]
            have h1 : x ≠ b := by
              have : b < na := dll_addr_lt h (by simp)
              omega
            simp only [h1, if_false]
            split
            · rfl
            · exact hfresh x hx
          · refine dll_chain_of_agree ?_ ?_ hlinks.2
            · intro x hx
              have hxm : x ∈ b :: rest1 := List.dropLast_subset _ hx
              by_cases h1 : x = b
              · subst h1
                simp [next_of, hL, hlb]
              · simp [next_of, hL, h1, hrest x hxm]
            · intro x hx
              simp only [List.tail_cons] at hx
              simp [prev_of, hL, hrest1 x hx, hrest x (List.mem_cons_of_mem _ hx)]
          · intro x hx
            simp only [List.head?_cons, Option.some.injEq] at hx
            subst hx
            simp [prev_of, hL]
          · intro x hx
            have hxm : x ∈ b :: rest1 := List.mem_of_getLast?_eq_some hx
            have := h.last x (by rw [List.getLast?_cons_cons]; exact hx)
            by_cases h1 : x = b
            · subst h1
              simpa [next_of, hL, hlb] using this
            · simpa [next_of, hL, h1, hrest x hxm] using this
        · intro x hx
          by_cases h1 : x = b
          · subst h1
            simp [value_of, hL, hlb]
          · simp [value_of, hL, h1, hrest x hx]

theorem pop_back_concat {l : LinkedList} {init : List Nat} {t : Nat}
    (h : WF l (init ++ [t])) :
    ∃ l1, l.pop_back = some (some (value_of l.heap t), l1) ∧ WF l1 init ∧
      ∀ b ∈ init, value_of l1.heap b = value_of l.heap b := by
  obtain ⟨lh, lt, len, heap, na⟩ := l
  have htail : lt = some t := h.tail_eq.trans (List.getLast?_concat init)
  subst htail
  have hhead : lh = (init ++ [t]).head? := h.head_eq
  have hlive : ∀ x ∈ init ++ [t], lookup heap x ≠ none := h.live
  have hfresh : ∀ x, na ≤ x → lookup heap x = none := h.fresh
  have hnd := h.nodup
  rw [List.nodup_append] at hnd
  have hinit : ∀ x ∈ init, x ≠ t := fun x hx e => hnd.2.2 hx (by simp [e])
  cases hlt : lookup heap t with
  | none => exact absurd hlt (hlive t (by simp))
  | some n =>
    have hvt : value_of heap t = n.value := by simp [value_of, hlt]
    cases hg : init.getLast? with
    | none =>
      have he : init = [] := List.getLast?_eq_none_iff.1 hg
      subst he
      have hh : lh = some t := hhead
      subst hh
      refine ⟨⟨none, none, size_dec len, erase_key heap t, na⟩, ?_, wf_after_last_freed h, ?_⟩
      · simp [LinkedList.pop_back, hlt, hvt]
      · intro b hb; simp at hb
    | some t1 =>
      obtain ⟨init1, hinit1⟩ := List.getLast?_eq_some_iff.1 hg
      have ht1m : t1 ∈ init := List.mem_of_getLast?_eq_some hg
      have ht1 : t1 ≠ t := hinit t1 ht1m
      have ht1' : ¬ t = t1 := fun e => ht1 e.symm
      have hlinks := h.links
      rw [List.chain'_append] at hlinks
      have hR := hlinks.2.2 t1 (by simp [hg]) t (by simp)
      obtain ⟨hd0, hhd0⟩ : ∃ hd0, init.head? = some hd0 := by
        cases init with
        | nil => simp at hg
        | cons x xs => exact ⟨x, rfl⟩
      have hh : lh = some hd0 := by
        rw [hhead, List.head?_append, hhd0]; rfl
      subst hh
      have hhd0m : hd0 ∈ init := List.mem_of_mem_head? hhd0
      have hhd0t : hd0 ≠ t := hinit hd0 hhd0m
      cases hlt1 : lookup heap t1 with
      | none => exact absurd hlt1 (hlive t1 (List.mem_append_left _ ht1m))
      | some n1 =>
        have hp : n.prev = some t1 := by
          have := hR.2
          simpa [prev_of, hlt] using this
        have hn : n1.next = some t := by
          have := hR.1
          simpa [next_of, hlt1] using this
        have hL : ∀ x, lookup (update (erase_key heap t) t1 (fun m => { m with next := none })) x =
            if x = t1 then some ⟨n1.value, none, n1.prev⟩
            else if x = t then none else lookup heap x := by
          intro x
          simp only [lookup_update, lookup_erase_key]
          by_cases hx : x = t1
          · subst hx
            simp [ht1, hlt1]
          · simp [hx]
        have hdrop : ∀ x ∈ init.dropLast, x ≠ t1 := by
          intro x hx e
          have hndi := hnd.1
          rw [hinit1, List.dropLast_concat] at hx
          rw [hinit1, List.nodup_append] at hndi
          exact hndi.2.2 hx (by simp [e])
        refine ⟨⟨some hd0, some t1, size_dec len,
          update (erase_key heap t) t1 (fun m => { m with next := none }), na⟩, ?_, ?_, ?_⟩
        · have hl3 : lookup (erase_key heap t) t1 = some n1 := by
            rw [lookup_erase_key]; simp [ht1, hlt1]
          simp [LinkedList.pop_back, hhd0t, hlt, hp, hlt1, hn, LinkedList.free, hl3, hvt]
        · refine ⟨?_, ?_, hnd.1, ?_, ?_, ?_, ?_, ?_⟩
          · show some hd0 = _
            rw [hhd0]
          · show some t1 = _
            rw [hg]
          · intro x hx
            show lookup _ x ≠ none
            rw [hL]
            by_cases h1 : x = t1
            · simp [h1]
            · simp only [h1, if_false, hinit x hx]
              exact hlive x (List.mem_append_left _ hx)
          · intro x hx
            have hx : na ≤ x := hx
            show lookup _ x = none
            rw [hL]
            have h1 : x ≠ t1 := by
              have : t1 < na := dll_addr_lt h (List.mem_append_left _ ht1m)
              omega
            simp only [h1, if_false]
            split
            · rfl
            · exact hfresh x hx
          · refine dll_chain_of_agree ?_ ?_ hlinks.1
            · intro x hx
              have hxm : x ∈ init := List.dropLast_subset _ hx
              simp [next_of, hL, hdrop x hx, hinit x hxm]
            · intro x hx
              have hxm : x ∈ init := List.tail_subset _ hx
              by_cases h1 : x = t1
              · subst h1
                simp [prev_of, hL, hlt1]
              · simp [prev_of, hL, h1, hinit x hxm]
          · intro x hx
            have hxm : x ∈ init := List.mem_of_mem_head? hx
            have := h.first x (by rw [List.head?_append, hx]; rfl)
            by_cases h1 : x = t1
            · subst h1
              simpa [prev_of, hL, hlt1] using this
            · simpa [prev_of, hL, h1, hinit x hxm] using this
          · intro x hx
            rw [hg] at hx
            simp only [Option.some.injEq] at hx
            subst hx
            simp [next_of, hL]
        · intro x hx
          by_cases h1 : x = t1
          · subst h1
            simp [value_of, hL, hlt1]
          · simp [value_of, hL, h1, hinit x hx]

theorem map_value_congr {heap heap1 : List (Nat × Node)} {addrs : List Nat}
    (h : ∀ a ∈ addrs, value_of heap1 a = value_of heap a) :
    addrs.map (value_of heap1) = addrs.map (value_of heap) :=
  List.map_congr_left h

theorem dll_step_refines {l : LinkedList} {addrs : List Nat} (h : WF l addrs) (op : Op) :
    ∃ r l1 addrs1, step l op = some (r, l1) ∧ WF l1 addrs1 ∧
      deque_step l.values op = (r, l1.values) := by
  have hv := dll_values_eq h
  cases op with
  | push_front v =>
    obtain ⟨l1, hp, hw, hv0, hvs⟩ := push_front_wf h v
    refine ⟨.pushed, l1, _, by simp only [step, hp], hw, ?_⟩
    rw [dll_values_eq hw, hv, List.map_cons, hv0, map_value_congr hvs]
    rfl
  | push_back v =>
    obtain ⟨l1, hp, hw, hv0, hvs⟩ := push_back_wf h v
    refine ⟨.pushed, l1, _, by simp only [step, hp], hw, ?_⟩
    rw [dll_values_eq hw, hv, List.map_append, List.map_cons, List.map_nil, hv0,
      map_value_congr hvs]
    rfl
  | pop_front =>
    cases addrs with
    | nil =>
      refine ⟨.popped none, l, [], by simp only [step, pop_front_nil h], h, ?_⟩
      rw [hv]; rfl
    | cons a rest =>
      obtain ⟨l1, hp, hw, hvs⟩ := pop_front_cons h
      refine ⟨.popped (some (value_of l.heap a)), l1, rest, by simp only [step, hp], hw, ?_⟩
      rw [dll_values_eq hw, hv, map_value_congr hvs]
      rfl
  | pop_back =>
    cases hg : addrs.getLast? with
    | none =>
      have he : addrs = [] := List.getLast?_eq_none_iff.1 hg
      subst he
      refine ⟨.popped none, l, [], by simp only [step, pop_back_nil h], h, ?_⟩
      rw [hv]; rfl
    | some t =>
      obtain ⟨init, hinit⟩ := List.getLast?_eq_some_iff.1 hg
      subst hinit
      obtain ⟨l1, hp, hw, hvs⟩ := pop_back_concat h
      refine ⟨.popped (some (value_of l.heap t)), l1, init, by simp only [step, hp], hw, ?_⟩
      rw [dll_values_eq hw, hv, map_value_congr hvs]
      simp [deque_step]

theorem dll_run_refines {l : LinkedList} {addrs : List Nat} (h : WF l addrs) (ops : List Op) :
    ∃ rs l1 addrs1, run l ops = some (rs, l1) ∧ WF l1 addrs1 ∧
      deque_run l.values ops = (rs, l1.values) := by
  induction ops generalizing l addrs with
  | nil => exact ⟨[], l, addrs, rfl, h, rfl⟩
  | cons op ops ih =>
    obtain ⟨r, l1, addrs1, hs, hw, hq⟩ := dll_step_refines h op
    obtain ⟨rs, l2, addrs2, hr, hw2, hq2⟩ := ih hw
    refine ⟨r :: rs, l2, addrs2, by simp only [run, hs, hr], hw2, ?_⟩
    simp only [deque_run, hq, hq2]

theorem values_empty : LinkedList.empty.values = [] := rfl

/-- C19. For every sequence of `push_front`, `push_back`, `pop_front` and `pop_back` calls
on an empty list, the calls run to completion and return exactly what a double-ended queue
returns, and the values from head to tail are the elements of that queue; in the reached
state each pop returns `nullopt` exactly when the list is empty, and then changes
nothing. -/
theorem C19_list_is_deque (ops : List Op) :
    ∃ rs l, run LinkedList.empty ops = some (rs, l) ∧
      deque_run [] ops = (rs, l.values) ∧
      (∃ o l1, l.pop_front = some (o, l1) ∧ (o = none ↔ l.values = []) ∧
        (o = none → l1 = l)) ∧
      (∃ o l1, l.pop_back = some (o, l1) ∧ (o = none ↔ l.values = []) ∧
        (o = none → l1 = l)) := by
  obtain ⟨rs, l, addrs, hr, hw, hq⟩ := dll_run_refines wf_empty ops
  rw [values_empty] at hq
  have hv := dll_values_eq hw
  refine ⟨rs, l, hr, hq, ?_, ?_⟩
  · cases addrs with
    | nil =>
      exact ⟨none, l, pop_front_nil hw, by simp [hv], fun _ => rfl⟩
    | cons a rest =>
      obtain ⟨l1, hp, _, _⟩ := pop_front_cons hw
      exact ⟨_, l1, hp, by simp [hv], fun e => absurd e (by simp)⟩
  · cases hg : addrs.getLast? with
    | none =>
      have he : addrs = [] := List.getLast?_eq_none_iff.1 hg
      subst he
      exact ⟨none, l, pop_back_nil hw, by simp [hv], fun _ => rfl⟩
    | some t =>
      obtain ⟨init, hinit⟩ := List.getLast?_eq_some_iff.1 hg
      subst hinit
      obtain ⟨l1, hp, _, _⟩ := pop_back_concat hw
      exact ⟨_, l1, hp, by simp [hv], fun e => absurd e (by simp)⟩

theorem run_main_dll :
    (run LinkedList.empty [.push_back 1, .push_back 2, .push_front 3]).map
        (fun x => x.2.values) = some [3, 1, 2] ∧
      (run LinkedList.empty main_ops).map (fun x => (x.1, x.2.values)) =
        some ([.pushed, .pushed, .pushed, .popped (some 3), .popped (some 2)], [1]) := by
  decide

theorem push_front_length {l l1 : LinkedList} {v : Int} (h : l.push_front v = some l1) :
    l1.length = size_inc l.length := by
  unfold LinkedList.push_front at h
  simp only at h
  repeat' split at h
  all_goals first
    | (simp only [Option.some.injEq] at h; rw [← h])
    | simp at h

theorem push_back_length {l l1 : LinkedList} {v : Int} (h : l.push_back v = some l1) :
    l1.length = size_inc l.length := by
  unfold LinkedList.push_back at h
  simp only at h
  repeat' split at h
  all_goals first
    | (simp only [Option.some.injEq] at h; rw [← h])
    | simp at h

theorem pop_front_length {l l1 : LinkedList} {o : Option Int}
    (h : l.pop_front = some (o, l1)) :
    l1.length = if l.head = none ∧ l.tail = none then l.length else size_dec l.length := by
  unfold LinkedList.pop_front at h
  simp only at h
  by_cases hc : l.head = none ∧ l.tail = none
  · rw [if_pos hc] at h ⊢
    simp only [Option.some.injEq, Prod.mk.injEq] at h
    rw [← h.2]
  · rw [if_neg hc] at h ⊢
    repeat' split at h
    all_goals first
      | (simp only [Option.some.injEq, Prod.mk.injEq] at h; rw [← h.2])
      | simp at h

theorem pop_back_length {l l1 : LinkedList} {o : Option Int}
    (h : l.pop_back = some (o, l1)) :
    l1.length = if l.head = none ∧ l.tail = none then l.length else size_dec l.length := by
  unfold LinkedList.pop_back at h
  simp only at h
  by_cases hc : l.head = none ∧ l.tail = none
  · rw [if_pos hc] at h ⊢
    simp only [Option.some.injEq, Prod.mk.injEq] at h
    rw [← h.2]
  · rw [if_neg hc] at h ⊢
    repeat' split at h
    all_goals first
      | (simp only [Option.some.injEq, Prod.mk.injEq] at h; rw [← h.2])
      | simp at h

theorem step_counts {l : LinkedList} {addrs : List Nat} (h : WF l addrs)
    (hl : l.length = addrs.length % 2 ^ 64) (op : Op) :
    ∃ r l1 addrs1, step l op = some (r, l1) ∧ WF l1 addrs1 ∧
      l1.length = addrs1.length % 2 ^ 64 := by
  cases op with
  | push_front v =>
    obtain ⟨l1, hp, hw, _⟩ := push_front_wf h v
    have hlen := push_front_length hp
    refine ⟨.pushed, l1, _, by simp only [step, hp], hw, ?_⟩
    unfold size_inc at hlen
    rw [hlen, hl, List.length_cons]
    omega
  | push_back v =>
    obtain ⟨l1, hp, hw, _⟩ := push_back_wf h v
    have hlen := push_back_length hp
    refine ⟨.pushed, l1, _, by simp only [step, hp], hw, ?_⟩
    unfold size_inc at hlen
    rw [hlen, hl, List.length_append, List.length_singleton]
    omega
  | pop_front =>
    cases addrs with
    | nil => exact ⟨.popped none, l, [], by simp only [step, pop_front_nil h], h, hl⟩
    | cons a rest =>
      obtain ⟨l1, hp, hw, _⟩ := pop_front_cons h
      have hlen := pop_front_length hp
      have hc : ¬ (l.head = none ∧ l.tail = none) := fun e => by
        have := (head_tail_none_iff h).1 e
        simp at this
      rw [if_neg hc] at hlen
      refine ⟨.popped (some (value_of l.heap a)), l1, rest, by simp only [step, hp], hw, ?_⟩
      unfold size_dec at hlen
      rw [hlen, hl, List.length_cons]
      omega
  | pop_back =>
    rcases List.eq_nil_or_concat addrs with e | ⟨init, t, e⟩
    · subst e
      exact ⟨.popped none, l, [], by simp only [step, pop_back_nil h], h, hl⟩
    · subst e
      rw [List.concat_eq_append] at h hl
      obtain ⟨l1, hp, hw, _⟩ := pop_back_concat h
      have hlen := pop_back_length hp
      have hc : ¬ (l.head = none ∧ l.tail = none) := fun e => by
        have := (head_tail_none_iff h).1 e
        simp at this
      rw [if_neg hc] at hlen
      refine ⟨.popped (some (value_of l.heap t)), l1, init, by simp only [step, hp], hw, ?_⟩
      unfold size_dec at hlen
      rw [hlen, hl, List.length_append, List.length_singleton]
      omega

theorem run_counts {l : LinkedList} {addrs : List Nat} (h : WF l addrs)
    (hl : l.length = addrs.length % 2 ^ 64) (ops : List Op) :
    ∃ rs l1 addrs1, run l ops = some (rs, l1) ∧ WF l1 addrs1 ∧
      l1.length = addrs1.length % 2 ^ 64 := by
  induction ops generalizing l addrs with
  | nil => exact ⟨[], l, addrs, rfl, h, hl⟩
  | cons op ops ih =>
    obtain ⟨r, l1, addrs1, hs, hw, hl1⟩ := step_counts h hl op
    obtain ⟨rs, l2, addrs2, hr, hw2, hl2⟩ := ih hw hl1
    exact ⟨r :: rs, l2, addrs2, by simp only [run, hs, hr], hw2, hl2⟩

theorem wf_with_length {l : LinkedList} {addrs : List Nat} (h : WF l addrs) (k : Nat) :
    WF ⟨l.head, l.tail, k, l.heap, l.next_addr⟩ addrs :=
  ⟨h.head_eq, h.tail_eq, h.nodup, h.live, h.fresh, h.links, h.first, h.last⟩

theorem copy_loop_spec (src : List (Nat × Node)) (c : List Nat)
    (hlive : ∀ a ∈ c, lookup src a ≠ none)
    (hlinks : c.Chain' (fun a b => next_of src a = some b ∧ prev_of src b = some a))
    (hlast : ∀ a, c.getLast? = some a → next_of src a = none)
    (fuel : Nat) (hf : c.length ≤ fuel) {l : LinkedList} {addrs : List Nat} (h : WF l addrs)
    (hlt : l.length < 2 ^ 64) :
    ∃ l1 addrs1, LinkedList.copy_loop src fuel c.head? l = some l1 ∧ WF l1 addrs1 ∧
      l1.values = l.values ++ c.map (value_of src) ∧
      l1.length = (l.length + 2 * c.length) % 2 ^ 64 := by
  induction c generalizing fuel l addrs with
  | nil =>
    refine ⟨l, addrs, by cases fuel <;> rfl, h, by simp, ?_⟩
    simp only [List.length_nil]
    omega
  | cons a t ih =>
    cases fuel with
    | zero => simp at hf
    | succ f =>
      cases hla : lookup src a with
      | none => exact absurd hla (hlive a (List.mem_cons_self _ _))
      | some n =>
        have hnx : n.next = t.head? := by
          have hn : next_of src a = n.next := by simp [next_of, hla]
          rw [← hn]
          cases t with
          | nil => exact hlast a rfl
          | cons b t1 =>
            rw [List.chain'_cons] at hlinks
            exact hlinks.1.1
        have hv : value_of src a = n.value := by simp [value_of, hla]
        obtain ⟨l2, hp, hw, hv0, hvs⟩ := push_back_wf h n.value
        have hlen := push_back_length hp
        have hw2 := wf_with_length hw (size_inc l2.length)
        have hlast1 : ∀ x, t.getLast? = some x → next_of src x = none := by
          intro x hx
          cases t with
          | nil => simp at hx
          | cons b t1 => exact hlast x (by rw [List.getLast?_cons_cons]; exact hx)
        have hlt2 : size_inc l2.length < 2 ^ 64 := by
          unfold size_inc
          exact Nat.mod_lt _ (by decide)
        obtain ⟨l3, addrs3, hc, hw3, hv3, hl3⟩ :=
          ih (fun x hx => hlive x (List.mem_cons_of_mem _ hx)) hlinks.tail hlast1 f
            (by simp only [List.length_cons] at hf; omega) hw2 hlt2
        refine ⟨l3, addrs3, ?_, hw3, ?_, ?_⟩
        · simp only [List.head?_cons, LinkedList.copy_loop, hla, hp, hnx]
          exact hc
        · rw [hv3]
          have e1 : (⟨l2.head, l2.tail, size_inc l2.length, l2.heap, l2.next_addr⟩ :
              LinkedList).values = l2.values := rfl
          rw [e1, dll_values_eq hw, dll_values_eq h, List.map_append, map_value_congr hvs,
            List.map_cons, List.map_nil, hv0, List.map_cons, hv, List.append_assoc]
          rfl
        · rw [hl3]
          show (size_inc l2.length + 2 * t.length) % 2 ^ 64 = _
          rw [hlen]
          unfold size_inc
          simp only [List.length_cons]
          omega

theorem copy_spec {l : LinkedList} {addrs : List Nat} (h : WF l addrs) :
    ∃ c caddrs, l.copy = some c ∧ WF c caddrs ∧ c.values = l.values ∧
      c.length = (2 * addrs.length) % 2 ^ 64 := by
  obtain ⟨c, caddrs, hc, hw, hv, hl⟩ := copy_loop_spec l.heap addrs h.live h.links h.last
    l.next_addr (dll_nodup_bounded_length h.nodup (fun a ha => dll_addr_lt h ha)) wf_empty
    (by show 0 < 2 ^ 64; decide)
  refine ⟨c, caddrs, ?_, hw, ?_, ?_⟩
  · unfold LinkedList.copy
    rw [h.head_eq]
    exact hc
  · rw [hv, dll_values_eq h]
    rfl
  · rw [hl]
    show (0 + 2 * addrs.length) % 2 ^ 64 = _
    rw [Nat.zero_add]

theorem clear_loop_spec (c : List Nat) (hnd : c.Nodup) (heap : List (Nat × Node))
    (hlive : ∀ a ∈ c, lookup heap a ≠ none)
    (hlinks : c.Chain' (fun a b => next_of heap a = some b ∧ prev_of heap b = some a))
    (hlast : ∀ a, c.getLast? = some a → next_of heap a = none)
    (fuel : Nat) (hf : c.length ≤ fuel) :
    ∃ heap1, LinkedList.clear_loop heap fuel c.head? = some heap1 ∧
      ∀ x, lookup heap x = none → lookup heap1 x = none := by
  induction c generalizing heap fuel with
  | nil => exact ⟨heap, by cases fuel <;> rfl, fun _ hx => hx⟩
  | cons a t ih =>
    cases fuel with
    | zero => simp at hf
    | succ f =>
      cases hla : lookup heap a with
      | none => exact absurd hla (hlive a (List.mem_cons_self _ _))
      | some n =>
        have hnx : n.next = t.head? := by
          have hn : next_of heap a = n.next := by simp [next_of, hla]
          rw [← hn]
          cases t with
          | nil => exact hlast a rfl
          | cons b t1 =>
            rw [List.chain'_cons] at hlinks
            exact hlinks.1.1
        have hne : ∀ x ∈ t, x ≠ a := by
          intro x hx e
          exact (List.nodup_cons.1 hnd).1 (e ▸ hx)
        have hkeep : ∀ x ∈ t, lookup (erase_key heap a) x = lookup heap x := by
          intro x hx
          rw [lookup_erase_key, if_neg (hne x hx)]
        have hlast1 : ∀ x, t.getLast? = some x → next_of (erase_key heap a) x = none := by
          intro x hx
          have hm := List.mem_of_getLast?_eq_some hx
          have : next_of (erase_key heap a) x = next_of heap x := by
            simp only [next_of, hkeep x hm]
          rw [this]
          cases t with
          | nil => simp at hx
          | cons b t1 => exact hlast x (by rw [List.getLast?_cons_cons]; exact hx)
        obtain ⟨heap1, hc, hnone⟩ := ih (List.nodup_cons.1 hnd).2 (erase_key heap a)
          (fun x hx => by rw [hkeep x hx]; exact hlive x (List.mem_cons_of_mem _ hx))
          (dll_chain_of_agree
            (fun x hx => by simp only [next_of, hkeep x (List.dropLast_subset _ hx)])
            (fun x hx => by simp only [prev_of, hkeep x (List.tail_subset _ hx)])
            hlinks.tail)
          hlast1 f (by simp only [List.length_cons] at hf; omega)
        refine ⟨heap1, ?_, ?_⟩
        · simp only [List.head?_cons, LinkedList.clear_loop, hla, hnx]
          exact hc
        · intro x hx
          refine hnone x ?_
          rw [lookup_erase_key]
          split
          · rfl
          · exact hx

theorem clear_spec {l : LinkedList} {addrs : List Nat} (h : WF l addrs) :
    ∃ l1, l.clear = some l1 ∧ WF l1 [] ∧ l1.length = 0 ∧ l1.values = [] := by
  obtain ⟨heap1, hc, hnone⟩ := clear_loop_spec addrs h.nodup l.heap h.live h.links h.last
    l.next_addr (dll_nodup_bounded_length h.nodup (fun a ha => dll_addr_lt h ha))
  have hw : WF ⟨none, none, 0, heap1, l.next_addr⟩ [] := by
    refine ⟨rfl, rfl, List.nodup_nil, ?_, ?_, List.chain'_nil, ?_, ?_⟩
    · intro a ha; simp at ha
    · intro a ha
      exact hnone a (h.fresh a ha)
    · intro a ha; simp at ha
    · intro a ha; simp at ha
  refine ⟨_, ?_, hw, rfl, ?_⟩
  · unfold LinkedList.clear
    rw [← h.head_eq] at hc
    rw [hc]
  · rw [dll_values_eq hw]
    rfl

theorem assign_spec {l other : LinkedList} {addrs oaddrs : List Nat} (h : WF l addrs)
    (ho : WF other oaddrs) :
    ∃ c caddrs, l.assign other = some c ∧ WF c caddrs ∧ c.values = other.values ∧
      c.length = (2 * oaddrs.length) % 2 ^ 64 := by
  obtain ⟨l0, hc, hw0, hl0, hv0⟩ := clear_spec h
  obtain ⟨c, caddrs, hcp, hw, hv, hl⟩ := copy_loop_spec other.heap oaddrs ho.live ho.links
    ho.last other.next_addr
    (dll_nodup_bounded_length ho.nodup (fun a ha => dll_addr_lt ho ha)) hw0
    (by rw [hl0]; decide)
  refine ⟨c, caddrs, ?_, hw, ?_, ?_⟩
  · unfold LinkedList.assign
    rw [hc, ho.head_eq]
    exact hcp
  · rw [hv, hv0, dll_values_eq ho]
    rfl
  · rw [hl, hl0, Nat.zero_add]

theorem copy_of_reachable (ops : List Op) :
    ∃ rs l c, run LinkedList.empty ops = some (rs, l) ∧
      l.size = l.values.length % 2 ^ 64 ∧
      l.copy = some c ∧ c.values = l.values ∧
      c.size = (2 * l.values.length) % 2 ^ 64 := by
  obtain ⟨rs, l, addrs, hr, hw, hl⟩ := run_counts wf_empty (by rfl) ops
  obtain ⟨c, caddrs, hc, _, hv, hcl⟩ := copy_spec hw
  have hlen : l.values.length = addrs.length := by rw [dll_values_eq hw, List.length_map]
  exact ⟨rs, l, c, hr, by rw [hlen]; exact hl, hc, hv, by rw [hlen]; exact hcl⟩

theorem assign_of_reachable (ops ops1 : List Op) :
    ∃ rs l rs1 l1 c l0, run LinkedList.empty ops = some (rs, l) ∧
      run LinkedList.empty ops1 = some (rs1, l1) ∧
      l1.assign l = some c ∧ c.values = l.values ∧
      c.size = (2 * l.values.length) % 2 ^ 64 ∧
      l1.clear = some l0 ∧ l0.values = [] ∧ l0.size = 0 := by
  obtain ⟨rs, l, addrs, hr, hw, _⟩ := run_counts wf_empty (by rfl) ops
  obtain ⟨rs1, l1, addrs1, hr1, hw1, _⟩ := run_counts wf_empty (by rfl) ops1
  obtain ⟨c, caddrs, hc, _, hv, hcl⟩ := assign_spec hw1 hw
  obtain ⟨l0, hcl0, _, hl0, hv0⟩ := clear_spec hw1
  have hlen : l.values.length = addrs.length := by rw [dll_values_eq hw, List.length_map]
  exact ⟨rs, l, rs1, l1, c, l0, hr, hr1, hc, hv, by rw [hlen]; exact hcl, hcl0, hv0, hl0⟩

/-- C24 fails on the code: the list built by `push_back(1)` and `push_back(2)` has two
nodes and `size()` 2; its copy holds the same two values in two nodes and has `size()` 4,
and so does a list the source is copy-assigned to; `clear` leaves no node and `size()` 0. -/
theorem C24_copy_doubles_size :
    (run LinkedList.empty [.push_back 1, .push_back 2]).map
        (fun x => (x.2.values, x.2.size)) = some ([1, 2], 2) ∧
      ((run LinkedList.empty [.push_back 1, .push_back 2]).bind
        (fun x => x.2.copy)).map (fun c => (c.values, c.values.length, c.size)) =
          some ([1, 2], 2, 4) ∧
      ((run LinkedList.empty [.push_back 1, .push_back 2]).bind
        (fun x => (run LinkedList.empty [.push_front 7]).bind
          (fun y => y.2.assign x.2))).map (fun c => (c.values, c.values.length, c.size)) =
          some ([1, 2], 2, 4) ∧
      ((run LinkedList.empty [.push_back 1, .push_back 2]).bind
        (fun x => x.2.clear)).map (fun c => (c.values, c.size)) = some ([], 0) := by
  decide

end dll

/-! # Laws and claims of `sll.cpp` -/

namespace sll

open order_book (lookup erase_key update lookup_update lookup_erase_key)

theorem run_main_list : run SList.new main_ops = some ([.done, .done, .done], main_list) := by
  decide

theorem sll_lookup_cons (a : Nat) (n : Node) (heap : List (Nat × Node)) (b : Nat) :
    lookup ((a, n) :: heap) b = if a = b then some n else lookup heap b := rfl

theorem sll_chain_of_agree {heap heap1 : List (Nat × Node)} {c : List Nat}
    (hn : ∀ a ∈ c.dropLast, next_of heap1 a = next_of heap a)
    (h : c.Chain' (fun a b => next_of heap a = some b)) :
    c.Chain' (fun a b => next_of heap1 a = some b) := by
  induction c with
  | nil => exact List.chain'_nil
  | cons a t ih =>
    cases t with
    | nil => exact List.chain'_singleton a
    | cons b t1 =>
      rw [List.chain'_cons] at h ⊢
      refine ⟨?_, ih ?_ h.2⟩
      · rw [hn a (by simp)]; exact h.1
      · intro x hx
        exact hn x (by simp only [List.dropLast_cons₂]; exact List.mem_cons_of_mem _ hx)

theorem next_eq_head {heap : List (Nat × Node)} {a : Nat} {t : List Nat}
    (hlinks : (a :: t).Chain' (fun a b => next_of heap a = some b))
    (hlast : ∀ x, (a :: t).getLast? = some x → next_of heap x = none) :
    next_of heap a = t.head? := by
  cases t with
  | nil => exact hlast a rfl
  | cons b t1 =>
    rw [List.chain'_cons] at hlinks
    exact hlinks.1

theorem node_next {heap : List (Nat × Node)} {a : Nat} {n : Node} (h : lookup heap a = some n) :
    next_of heap a = n.next := by
  simp [next_of, h]

theorem sll_to_list_chain (heap : List (Nat × Node)) (c : List Nat)
    (hlive : ∀ a ∈ c, lookup heap a ≠ none)
    (hlinks : c.Chain' (fun a b => next_of heap a = some b))
    (hlast : ∀ a, c.getLast? = some a → next_of heap a = none)
    (fuel : Nat) (hf : c.length ≤ fuel) :
    to_list heap fuel c.head? = c.map (value_of heap) := by
  induction c generalizing fuel with
  | nil => cases fuel <;> rfl
  | cons a t ih =>
    cases fuel with
    | zero => simp at hf
    | succ f =>
      cases hl : lookup heap a with
      | none => exact absurd hl (hlive a (List.mem_cons_self _ _))
      | some n =>
        have hv : value_of heap a = n.value := by simp [value_of, hl]
        have hnx := next_eq_head hlinks hlast
        rw [node_next hl] at hnx
        simp only [List.head?_cons, to_list, hl, List.map_cons, hv, hnx]
        congr 1
        refine ih (fun x hx => hlive x (List.mem_cons_of_mem _ hx)) hlinks.tail ?_ f
          (by simp only [List.length_cons] at hf; omega)
        intro x hx
        cases t with
        | nil => simp at hx
        | cons b t1 => exact hlast x (by rw [List.getLast?_cons_cons]; exact hx)

theorem last_node_chain (heap : List (Nat × Node)) (a : Nat) (t : List Nat)
    (hlive : ∀ x ∈ a :: t, lookup heap x ≠ none)
    (hlinks : (a :: t).Chain' (fun a b => next_of heap a = some b))
    (hlast : ∀ x, (a :: t).getLast? = some x → next_of heap x = none)
    (fuel : Nat) (hf : (a :: t).length ≤ fuel) :
    last_node heap fuel a = (a :: t).getLast? := by
  induction t generalizing a fuel with
  | nil =>
    cases fuel with
    | zero => simp at hf
    | succ f =>
      cases hl : lookup heap a with
      | none => exact absurd hl (hlive a (List.mem_cons_self _ _))
      | some n =>
        have := hlast a rfl
        rw [node_next hl] at this
        simp [last_node, hl, this]
  | cons b t1 ih =>
    cases fuel with
    | zero => simp at hf
    | succ f =>
      cases hl : lookup heap a with
      | none => exact absurd hl (hlive a (List.mem_cons_self _ _))
      | some n =>
        have hnx := next_eq_head hlinks hlast
        rw [node_next hl] at hnx
        simp only [last_node, hl, hnx, List.head?_cons, List.getLast?_cons_cons]
        exact ih b (fun x hx => hlive x (List.mem_cons_of_mem _ hx)) hlinks.tail
          (fun x hx => hlast x (by rw [List.getLast?_cons_cons]; exact hx)) f
          (by simp only [List.length_cons] at hf ⊢; omega)

theorem seek_last_chain (heap : List (Nat × Node)) (p a : Nat) (t : List Nat)
    (hlive : ∀ x ∈ a :: t, lookup heap x ≠ none)
    (hlinks : (a :: t).Chain' (fun a b => next_of heap a = some b))
    (hlast : ∀ x, (a :: t).getLast? = some x → next_of heap x = none)
    (fuel : Nat) (hf : (a :: t).length ≤ fuel) :
    ∃ y z, seek_last heap fuel p a = some (y, z) ∧
      (p :: a :: t) = (p :: a :: t).dropLast.dropLast ++ [y, z] := by
  induction t generalizing p a fuel with
  | nil =>
    cases fuel with
    | zero => simp at hf
    | succ f =>
      cases hl : lookup heap a with
      | none => exact absurd hl (hlive a (List.mem_cons_self _ _))
      | some n =>
        have := hlast a rfl
        rw [node_next hl] at this
        exact ⟨p, a, by simp [seek_last, hl, this], by simp⟩
  | cons b t1 ih =>
    cases fuel with
    | zero => simp at hf
    | succ f =>
      cases hl : lookup heap a with
      | none => exact absurd hl (hlive a (List.mem_cons_self _ _))
      | some n =>
        have hnx := next_eq_head hlinks hlast
        rw [node_next hl] at hnx
        obtain ⟨y, z, hs, he⟩ := ih a b (fun x hx => hlive x (List.mem_cons_of_mem _ hx))
          hlinks.tail (fun x hx => hlast x (by rw [List.getLast?_cons_cons]; exact hx)) f
          (by simp only [List.length_cons] at hf ⊢; omega)
        refine ⟨y, z, by simp only [seek_last, hl, hnx, List.head?_cons, hs], ?_⟩
        have hd : (p :: a :: b :: t1).dropLast.dropLast =
            p :: (a :: b :: t1).dropLast.dropLast := by
          cases t1 <;> simp
        rw [hd, List.cons_append, ← he]

theorem seek_idx_found (heap : List (Nat × Node)) (p : Nat) (pre : List Nat) (c : Nat)
    (post : List Nat) (hlive : ∀ x ∈ pre ++ c :: post, lookup heap x ≠ none)
    (hlinks : (p :: (pre ++ c :: post)).Chain' (fun a b => next_of heap a = some b)) :
    ∃ a, (p :: pre).getLast? = some a ∧
      seek_idx heap pre.length p (pre ++ c :: post).head? = some (a, some c, 0) := by
  induction pre generalizing p with
  | nil => exact ⟨p, rfl, rfl⟩
  | cons d pre1 ih =>
    cases hl : lookup heap d with
    | none => exact absurd hl (hlive d (by simp))
    | some n =>
      have htl := hlinks.tail
      simp only [List.tail_cons, List.cons_append] at htl
      have hnx : n.next = (pre1 ++ c :: post).head? := by
        rw [← node_next hl]
        cases hr : pre1 ++ c :: post with
        | nil => simp at hr
        | cons e r =>
          rw [hr, List.chain'_cons] at htl
          exact htl.1
      obtain ⟨a, ha, hs⟩ := ih d (fun x hx => hlive x (by
        simp only [List.cons_append]; exact List.mem_cons_of_mem _ hx)) htl
      refine ⟨a, by rw [List.getLast?_cons_cons]; exact ha, ?_⟩
      simp only [List.cons_append, List.head?_cons, List.length_cons, seek_idx, hl, hnx, hs]

theorem seek_idx_past (heap : List (Nat × Node)) (p : Nat) (xs : List Nat)
    (hlive : ∀ x ∈ xs, lookup heap x ≠ none)
    (hlinks : (p :: xs).Chain' (fun a b => next_of heap a = some b))
    (hlast : ∀ x, (p :: xs).getLast? = some x → next_of heap x = none)
    (k : Nat) (hk : xs.length ≤ k) :
    ∃ a r, seek_idx heap k p xs.head? = some (a, none, r) := by
  induction xs generalizing p k with
  | nil =>
    cases k with
    | zero => exact ⟨p, 0, rfl⟩
    | succ k1 => exact ⟨p, k1 + 1, rfl⟩
  | cons d rest ih =>
    cases k with
    | zero => simp at hk
    | succ k1 =>
      cases hl : lookup heap d with
      | none => exact absurd hl (hlive d (by simp))
      | some n =>
        have htl := hlinks.tail
        simp only [List.tail_cons] at htl
        have hlast1 : ∀ x, (d :: rest).getLast? = some x → next_of heap x = none :=
          fun x hx => hlast x (by rw [List.getLast?_cons_cons]; exact hx)
        have hnx := next_eq_head htl hlast1
        rw [node_next hl] at hnx
        obtain ⟨a, r, hs⟩ := ih d (fun x hx => hlive x (List.mem_cons_of_mem _ hx)) htl hlast1
          k1 (by simp only [List.length_cons] at hk; omega)
        exact ⟨a, r, by simp only [List.head?_cons, seek_idx, hl, hnx, hs]⟩

theorem sll_nodup_bounded_length {l : List Nat} {n : Nat} (hnd : l.Nodup) (hb : ∀ a ∈ l, a < n) :
    l.length ≤ n := by
  have hsub : l ⊆ List.range n := fun a ha => List.mem_range.2 (hb a ha)
  have := (List.subperm_of_subset hnd hsub).length_le
  simpa using this

theorem sll_addr_lt {l : SList} {addrs : List Nat} (h : WF l addrs) {a : Nat}
    (ha : a ∈ l.head :: addrs) : a < l.next_addr := by
  by_contra hc
  exact h.live a ha (h.fresh a (Nat.le_of_not_lt hc))

theorem chain_length_le {l : SList} {addrs : List Nat} (h : WF l addrs) :
    (l.head :: addrs).length ≤ l.next_addr :=
  sll_nodup_bounded_length h.nodup (fun _ ha => sll_addr_lt h ha)

theorem head_node {l : SList} {addrs : List Nat} (h : WF l addrs) :
    ∃ hn, lookup l.heap l.head = some hn ∧ hn.next = addrs.head? := by
  cases hl : lookup l.heap l.head with
  | none => exact absurd hl (h.live _ (List.mem_cons_self _ _))
  | some hn =>
    refine ⟨hn, rfl, ?_⟩
    rw [← node_next hl]
    exact next_eq_head h.links h.last

theorem last_of_tail {l : SList} {addrs : List Nat} (h : WF l addrs) :
    ∀ a, addrs.getLast? = some a → next_of l.heap a = none := by
  intro a ha
  cases addrs with
  | nil => simp at ha
  | cons b t => exact h.last a (by rw [List.getLast?_cons_cons]; exact ha)

theorem sll_values_eq {l : SList} {addrs : List Nat} (h : WF l addrs) :
    l.values = addrs.map (value_of l.heap) := by
  obtain ⟨hn, hl, hnx⟩ := head_node h
  unfold SList.values
  rw [hl]
  simp only [hnx]
  refine sll_to_list_chain l.heap addrs (fun a ha => h.live a (List.mem_cons_of_mem _ ha))
    h.links.tail (last_of_tail h) _ ?_
  have := chain_length_le h
  simp only [List.length_cons] at this
  omega

theorem sll_wf_new : WF SList.new [] := by
  refine ⟨by simp, ?_, ?_, List.chain'_singleton _, ?_, rfl, by simp⟩
  · intro a ha
    simp only [List.mem_singleton] at ha
    subst ha
    simp [SList.new, lookup]
  · intro a ha
    have ha : 1 ≤ a := ha
    have hne : ¬ 0 = a := by omega
    simp [SList.new, lookup, hne]
  · intro a ha
    simp only [List.getLast?_singleton, Option.some.injEq] at ha
    subst ha
    simp [next_of, SList.new, lookup]

theorem push_wf {l : SList} {addrs : List Nat} (h : WF l addrs) (v : Int) {l1 : SList}
    (hp : l.push v = some l1) : WF l1 (addrs ++ [l.next_addr]) := by
  obtain ⟨hd, ne, heap, na⟩ := l
  have hlive : ∀ a ∈ hd :: addrs, lookup heap a ≠ none := h.live
  have hfresh : ∀ a, na ≤ a → lookup heap a = none := h.fresh
  have hcount : ne = (addrs.length : Int) := h.count
  have hne0 : ∀ a ∈ hd :: addrs, a ≠ na := fun a ha => Nat.ne_of_lt (sll_addr_lt h ha)
  obtain ⟨z, hz⟩ : ∃ z, (hd :: addrs).getLast? = some z := by
    cases hg : (hd :: addrs).getLast? with
    | none => simp at hg
    | some z => exact ⟨z, rfl⟩
  obtain ⟨init, hinit⟩ := List.getLast?_eq_some_iff.1 hz
  have hzm : z ∈ hd :: addrs := List.mem_of_getLast?_eq_some hz
  have hz0 : z ≠ na := hne0 z hzm
  have hz0' : ¬ na = z := fun e => hz0 e.symm
  have hdrop : ∀ x ∈ (hd :: addrs).dropLast, x ≠ z := by
    intro x hx e
    have hnd := h.nodup
    have hnd2 : (init ++ [z]).Nodup := hinit ▸ hnd
    rw [hinit, List.dropLast_concat] at hx
    rw [List.nodup_append] at hnd2
    exact hnd2.2.2 hx (by simp [e])
  have hln : last_node heap na hd = some z := by
    rw [← hz]
    exact last_node_chain heap hd addrs hlive h.links h.last na (chain_length_le h)
  cases hlz : lookup heap z with
  | none => exact absurd hlz (hlive z hzm)
  | some nz =>
    by_cases hov : ne = 2 ^ 31 - 1
    · have hinc : int_inc ne = none := by unfold int_inc; rw [if_pos hov]
      simp only [SList.push, hln, hinc] at hp
      exact absurd hp (by simp)
    · have hinc : int_inc ne = some (ne + 1) := by unfold int_inc; rw [if_neg hov]
      simp only [SList.push, hln, hinc, Option.some.injEq] at hp
      subst hp
      have hL : ∀ x, lookup (update ((na, (⟨v, none⟩ : Node)) :: heap) z
          (fun n => { n with next := some na })) x =
          if x = z then some ⟨nz.value, some na⟩
          else if x = na then some ⟨v, none⟩ else lookup heap x := by
        intro x
        simp only [lookup_update, sll_lookup_cons]
        by_cases hx : x = z
        · subst hx
          simp [hz0', hlz]
        · by_cases hx2 : x = na
          · subst hx2
            simp [hx]
          · have hx3 : ¬ na = x := fun e => hx2 e.symm
            simp [hx, hx2, hx3]
      have happ : hd :: (addrs ++ [na]) = (hd :: addrs) ++ [na] := rfl
      refine ⟨?_, ?_, ?_, ?_, ?_, ?_, ?_⟩
      · show (hd :: (addrs ++ [na])).Nodup
        rw [happ, List.nodup_append]
        refine ⟨h.nodup, List.nodup_singleton _, ?_⟩
        intro a ha hb
        simp only [List.mem_singleton] at hb
        exact hne0 a ha hb
      · intro a ha
        have ha : a ∈ hd :: (addrs ++ [na]) := ha
        show lookup _ a ≠ none
        rw [hL]
        by_cases h1 : a = z
        · simp [h1]
        · by_cases h2 : a = na
          · simp [h2, hz0']
          · simp only [h1, h2, if_false]
            rw [happ] at ha
            rcases List.mem_append.1 ha with e | e
            · exact hlive a e
            · simp only [List.mem_singleton] at e
              exact absurd e h2
      · intro a ha
        have ha : na + 1 ≤ a := ha
        show lookup _ a = none
        rw [hL]
        have h1 : a ≠ z := by
          have : z < na := sll_addr_lt h hzm
          omega
        have h2 : a ≠ na := by omega
        simp only [h1, h2, if_false]
        exact hfresh a (by omega)
      · show (hd :: (addrs ++ [na])).Chain' _
        rw [happ, List.chain'_append]
        refine ⟨sll_chain_of_agree ?_ h.links, List.chain'_singleton _, ?_⟩
        · intro a ha
          have ham : a ∈ hd :: addrs := List.dropLast_subset _ ha
          simp [next_of, hL, hdrop a ha, hne0 a ham]
        · intro x hx y hy
          have hx : x ∈ (hd :: addrs).getLast? := hx
          rw [hz] at hx
          simp only [Option.mem_def, Option.some.injEq, List.head?_cons] at hx hy
          subst hx hy
          simp [next_of, hL]
      · intro a ha
        have ha : (hd :: (addrs ++ [na])).getLast? = some a := ha
        rw [happ, List.getLast?_concat] at ha
        simp only [Option.some.injEq] at ha
        subst ha
        simp [next_of, hL, hz0']
      · show ne + 1 = ((addrs ++ [na]).length : Int)
        rw [hcount]
        simp
      · have hs := h.small
        show (addrs ++ [na]).length < 2 ^ 31
        simp only [List.length_append, List.length_singleton]
        rw [hcount] at hov
        omega

theorem unlink_wf {l : SList} {pre post : List Nat} {c : Nat} (h : WF l (pre ++ c :: post))
    {p : Nat} (hp : (l.head :: pre).getLast? = some p) (heap1 : List (Nat × Node))
    (hL : ∀ x, lookup heap1 x = if x = c then none else if x = p then
      (lookup l.heap p).map (fun n => { n with next := post.head? }) else lookup l.heap x) :
    WF ⟨l.head, l.num_elems - 1, heap1, l.next_addr⟩ (pre ++ post) ∧
      (pre ++ post).map (value_of heap1) =
        ((pre ++ c :: post).map (value_of l.heap)).eraseIdx pre.length := by
  obtain ⟨hd, ne, heap, na⟩ := l
  have hnd : ((hd :: pre) ++ c :: post).Nodup := h.nodup
  have hlive : ∀ a ∈ (hd :: pre) ++ c :: post, lookup heap a ≠ none := h.live
  have hfresh : ∀ a, na ≤ a → lookup heap a = none := h.fresh
  have hlinks : ((hd :: pre) ++ c :: post).Chain' (fun a b => next_of heap a = some b) :=
    h.links
  have hlast : ∀ a, ((hd :: pre) ++ c :: post).getLast? = some a → next_of heap a = none :=
    h.last
  have hcount : ne = ((pre ++ c :: post).length : Int) := h.count
  have hsmall : (pre ++ c :: post).length < 2 ^ 31 := h.small
  have hL : ∀ x, lookup heap1 x = if x = c then none else if x = p then
      (lookup heap p).map (fun n => { n with next := post.head? }) else lookup heap x := hL
  have hp : (hd :: pre).getLast? = some p := hp
  have hpm : p ∈ hd :: pre := List.mem_of_getLast?_eq_some hp
  obtain ⟨init, hinit⟩ := List.getLast?_eq_some_iff.1 hp
  rw [List.nodup_append] at hnd
  obtain ⟨hnd1, hnd2, hdisj⟩ := hnd
  have hcpost : c ∉ post := (List.nodup_cons.1 hnd2).1
  have hc0 : ∀ x ∈ hd :: pre, x ≠ c := fun x hx e => hdisj hx (by simp [e])
  have hpc : p ≠ c := hc0 p hpm
  have hpost : ∀ x ∈ post, x ≠ c ∧ x ≠ p := by
    intro x hx
    refine ⟨fun e => hcpost (e ▸ hx), fun e => ?_⟩
    exact hdisj hpm (List.mem_cons_of_mem _ (e ▸ hx))
  have hinit0 : ∀ x ∈ (hd :: pre).dropLast, x ≠ p := by
    intro x hx e
    rw [hinit, List.dropLast_concat] at hx
    rw [hinit, List.nodup_append] at hnd1
    exact hnd1.2.2 hx (by simp [e])
  cases hlp : lookup heap p with
  | none => exact absurd hlp (hlive p (List.mem_append_left _ hpm))
  | some pn =>
    have hnp : next_of heap1 p = post.head? := by
      simp [next_of, hL, hpc, hlp]
    have hnx : ∀ x, x ≠ c → x ≠ p → next_of heap1 x = next_of heap x := by
      intro x h1 h2
      simp [next_of, hL, h1, h2]
    have hvx : ∀ x, x ≠ c → value_of heap1 x = value_of heap x := by
      intro x h1
      by_cases h2 : x = p
      · subst h2
        simp [value_of, hL, h1, hlp]
      · simp [value_of, hL, h1, h2]
    have hch := List.chain'_append.1 hlinks
    have happ : hd :: (pre ++ post) = (hd :: pre) ++ post := rfl
    refine ⟨⟨?_, ?_, ?_, ?_, ?_, ?_, ?_⟩, ?_⟩
    · show (hd :: (pre ++ post)).Nodup
      rw [happ, List.nodup_append]
      exact ⟨hnd1, (List.nodup_cons.1 hnd2).2,
        fun a ha hb => hdisj ha (List.mem_cons_of_mem _ hb)⟩
    · intro a ha
      have ha : a ∈ hd :: (pre ++ post) := ha
      show lookup heap1 a ≠ none
      rw [happ] at ha
      have hac : a ≠ c := by
        rcases List.mem_append.1 ha with e | e
        · exact hc0 a e
        · exact (hpost a e).1
      rw [hL]
      by_cases h2 : a = p
      · simp [h2, hpc, hlp]
      · simp only [hac, h2, if_false]
        rcases List.mem_append.1 ha with e | e
        · exact hlive a (List.mem_append_left _ e)
        · exact hlive a (List.mem_append_right _ (List.mem_cons_of_mem _ e))
    · intro a ha
      have ha : na ≤ a := ha
      show lookup heap1 a = none
      rw [hL]
      by_cases h1 : a = c
      · simp [h1]
      · have h2 : a ≠ p := by
          intro e
          have := hfresh a ha
          rw [e, hlp] at this
          exact absurd this (by simp)
        simp only [h1, h2, if_false]
        exact hfresh a ha
    · show (hd :: (pre ++ post)).Chain' _
      rw [happ, List.chain'_append]
      refine ⟨sll_chain_of_agree ?_ hch.1, sll_chain_of_agree ?_ hch.2.1.tail, ?_⟩
      · intro a ha
        exact hnx a (hc0 a (List.dropLast_subset _ ha)) (hinit0 a ha)
      · intro a ha
        have := hpost a (List.dropLast_subset _ ha)
        exact hnx a this.1 this.2
      · intro x hx y hy
        rw [hp] at hx
        simp only [Option.mem_def, Option.some.injEq] at hx hy
        subst hx
        rw [hnp, hy]
    · intro a ha
      have ha : (hd :: (pre ++ post)).getLast? = some a := ha
      show next_of heap1 a = none
      rw [happ] at ha
      cases post with
      | nil =>
        rw [List.append_nil, hp] at ha
        simp only [Option.some.injEq] at ha
        subst ha
        rw [hnp]
        rfl
      | cons b t =>
        have hm : a ∈ b :: t := by
          rw [List.getLast?_append_of_ne_nil _ (List.cons_ne_nil b t)] at ha
          exact List.mem_of_getLast?_eq_some ha
        have := hpost a hm
        rw [hnx a this.1 this.2]
        refine hlast a ?_
        rw [List.getLast?_append_of_ne_nil _ (List.cons_ne_nil c (b :: t)),
          List.getLast?_cons_cons]
        rw [List.getLast?_append_of_ne_nil _ (List.cons_ne_nil b t)] at ha
        exact ha
    · show ne - 1 = ((pre ++ post).length : Int)
      rw [hcount]
      simp only [List.length_append, List.length_cons]
      push_cast
      ring
    · show (pre ++ post).length < 2 ^ 31
      simp only [List.length_append, List.length_cons] at hsmall ⊢
      omega
    · have hm : (pre ++ post).map (value_of heap1) = (pre ++ post).map (value_of heap) := by
        refine List.map_congr_left ?_
        intro x hx
        refine hvx x ?_
        rcases List.mem_append.1 hx with e | e
        · exact hc0 x (List.mem_cons_of_mem _ e)
        · exact (hpost x e).1
      rw [hm]
      show _ = ((pre ++ c :: post).map (value_of heap)).eraseIdx pre.length
      rw [List.map_append, List.map_append, List.map_cons,
        List.eraseIdx_append_of_length_le (by simp)]
      simp

theorem int_dec_count {n : Int} {k : Nat} (h : n = (k : Int)) : int_dec n = some (n - 1) := by
  unfold int_dec
  rw [if_neg (by omega)]

theorem delete_at_hit {l : SList} {pre post : List Nat} {c : Nat}
    (h : WF l (pre ++ c :: post)) :
    ∃ l1, l.delete_at (pre.length : Int) = some l1 ∧ WF l1 (pre ++ post) ∧
      l1.values = l.values.eraseIdx pre.length ∧ l1.size = l.size - 1 := by
  obtain ⟨hn, hlh, hnx⟩ := head_node h
  obtain ⟨a, ha, hs⟩ := seek_idx_found l.heap l.head pre c post
    (fun x hx => h.live x (List.mem_cons_of_mem _ hx)) h.links
  have ham : a ∈ l.head :: pre := List.mem_of_getLast?_eq_some ha
  have hnd : ((l.head :: pre) ++ c :: post).Nodup := h.nodup
  have hac : a ≠ c := by
    intro e
    exact (List.nodup_append.1 hnd).2.2 ham (by simp [e])
  have hca : ¬ c = a := fun e => hac e.symm
  have hch := List.chain'_append.1 (show ((l.head :: pre) ++ c :: post).Chain' _ from h.links)
  have hlast : ∀ x, (c :: post).getLast? = some x → next_of l.heap x = none := by
    intro x hx
    refine h.last x ?_
    show ((l.head :: pre) ++ c :: post).getLast? = some x
    rw [List.getLast?_append_of_ne_nil _ (List.cons_ne_nil c post)]
    exact hx
  cases hla : lookup l.heap a with
  | none => exact absurd hla (h.live a (by
      show a ∈ (l.head :: pre) ++ c :: post
      exact List.mem_append_left _ ham))
  | some pn =>
    cases hlc : lookup l.heap c with
    | none => exact absurd hlc (h.live c (by
        show c ∈ (l.head :: pre) ++ c :: post
        simp))
    | some cn =>
      have hpn : pn.next = some c := by
        rw [← node_next hla]
        exact hch.2.2 a ha c rfl
      have hcn : cn.next = post.head? := by
        rw [← node_next hlc]
        exact next_eq_head hch.2.1 hlast
      have hfree : free (update l.heap a (fun n => { n with next := cn.next })) (some c) =
          some (erase_key (update l.heap a (fun n => { n with next := cn.next })) c) := by
        simp only [free, lookup_update, hca, if_false, hlc]
      have hdec := int_dec_count h.count
      have hpos : ¬ ((pre.length : Int) < 0) := by omega
      have hd : l.delete_at (pre.length : Int) = some ⟨l.head, l.num_elems - 1,
          erase_key (update l.heap a (fun n => { n with next := cn.next })) c,
          l.next_addr⟩ := by
        unfold SList.delete_at
        rw [if_neg hpos, hlh]
        simp only [Int.toNat_ofNat, hnx, hs, hla, hlc, hpn, hfree, hdec, ne_eq,
          not_true_eq_false, if_false]
      obtain ⟨hw, hv⟩ := unlink_wf h ha
        (erase_key (update l.heap a (fun n => { n with next := cn.next })) c) (by
          intro x
          rw [lookup_erase_key, lookup_update, hcn])
      refine ⟨_, hd, hw, ?_, rfl⟩
      rw [sll_values_eq hw, sll_values_eq h]
      exact hv

theorem delete_at_miss {l : SList} {addrs : List Nat} (h : WF l addrs) (idx : Int)
    (hi : idx < 0 ∨ (addrs.length : Int) ≤ idx) : l.delete_at idx = some l := by
  unfold SList.delete_at
  by_cases hneg : idx < 0
  · rw [if_pos hneg]
  · rw [if_neg hneg]
    obtain ⟨hn, hlh, hnx⟩ := head_node h
    obtain ⟨a, r, hs⟩ := seek_idx_past l.heap l.head addrs
      (fun x hx => h.live x (List.mem_cons_of_mem _ hx)) h.links h.last idx.toNat (by omega)
    rw [hlh]
    simp only [hnx, hs]

theorem pop_nil {l : SList} (h : WF l []) : l.pop = some (none, l) := by
  obtain ⟨hn, hlh, hnx⟩ := head_node h
  unfold SList.pop
  rw [hlh]
  simp only [hnx, List.head?_nil]

theorem pop_concat {l : SList} {pre : List Nat} {z : Nat} (h : WF l (pre ++ [z])) :
    ∃ l1, l.pop = some (some (value_of l.heap z), l1) ∧ WF l1 pre ∧
      l1.values = l.values.dropLast := by
  obtain ⟨hn, hlh, hnx⟩ := head_node h
  obtain ⟨a, t, hat⟩ : ∃ a t, pre ++ [z] = a :: t := by
    cases pre with
    | nil => exact ⟨z, [], rfl⟩
    | cons b r => exact ⟨b, r ++ [z], rfl⟩
  have hlive : ∀ x ∈ a :: t, lookup l.heap x ≠ none := by
    intro x hx
    exact h.live x (List.mem_cons_of_mem _ (hat ▸ hx))
  have hlinks : (l.head :: a :: t).Chain' (fun a b => next_of l.heap a = some b) :=
    hat ▸ h.links
  have hlen : (a :: t).length ≤ l.next_addr := by
    have := chain_length_le h
    rw [hat] at this
    simp only [List.length_cons] at this ⊢
    omega
  obtain ⟨y, z1, hs, he⟩ := seek_last_chain l.heap l.head a t hlive hlinks.tail
    (hat ▸ last_of_tail h) l.next_addr hlen
  obtain ⟨p, hp⟩ : ∃ p, (l.head :: pre).getLast? = some p := by
    cases hg : (l.head :: pre).getLast? with
    | none => simp at hg
    | some p => exact ⟨p, rfl⟩
  obtain ⟨init, hinit⟩ := List.getLast?_eq_some_iff.1 hp
  have he2 : init ++ [p] ++ [z] = (l.head :: a :: t).dropLast.dropLast ++ [y] ++ [z1] := by
    rw [← hinit, List.append_assoc _ [y] [z1]]
    show l.head :: (pre ++ [z]) = _
    rw [hat]
    exact he
  obtain ⟨he3, he4⟩ := List.append_inj' he2 rfl
  obtain ⟨_, he5⟩ := List.append_inj' he3 rfl
  simp only [List.cons.injEq, and_true] at he4 he5
  subst he4 he5
  have hpm : p ∈ l.head :: pre := List.mem_of_getLast?_eq_some hp
  have hnd : ((l.head :: pre) ++ [z]).Nodup := h.nodup
  have hpz : p ≠ z := by
    intro e
    exact (List.nodup_append.1 hnd).2.2 hpm (by simp [e])
  have hch := List.chain'_append.1 (show ((l.head :: pre) ++ [z]).Chain' _ from h.links)
  cases hlp : lookup l.heap p with
  | none => exact absurd hlp (h.live p (by
      show p ∈ (l.head :: pre) ++ [z]
      exact List.mem_append_left _ hpm))
  | some pn =>
    cases hlz : lookup l.heap z with
    | none => exact absurd hlz (h.live z (by
        show z ∈ (l.head :: pre) ++ [z]
        simp))
    | some zn =>
      have hpn : pn.next = some z := by
        rw [← node_next hlp]
        exact hch.2.2 p hp z rfl
      have hfree : free l.heap (some z) = some (erase_key l.heap z) := by
        simp only [free, hlz]
      have hlp1 : lookup (erase_key l.heap z) p = some pn := by
        rw [lookup_erase_key, if_neg hpz, hlp]
      have hdec := int_dec_count h.count
      have hfirst : hn.next = some a := by rw [hnx, hat]; rfl
      have hv : value_of l.heap z = zn.value := by simp [value_of, hlz]
      have hd : l.pop = some (some (value_of l.heap z), ⟨l.head, l.num_elems - 1,
          update (erase_key l.heap z) p (fun n => { n with next := none }),
          l.next_addr⟩) := by
        unfold SList.pop
        rw [hlh]
        simp only [hfirst, hs, hlz, hlp, hpn, hfree, hlp1, hdec, hv]
      obtain ⟨hw, hvs⟩ := @unlink_wf l pre [] z h p hp
        (update (erase_key l.heap z) p (fun n => { n with next := none })) (by
          intro x
          rw [lookup_update, lookup_erase_key, lookup_erase_key, if_neg hpz]
          by_cases h1 : x = z
          · have h2 : ¬ x = p := fun e => hpz (e ▸ h1)
            simp [h1, h2]
            intro e
            exact absurd e.symm hpz
          · simp [h1])
      rw [List.append_nil] at hw hvs
      refine ⟨_, hd, hw, ?_⟩
      rw [sll_values_eq hw, sll_values_eq h, hvs, List.map_append, List.map_cons, List.map_nil,
        List.dropLast_concat, List.eraseIdx_append_of_length_le (by simp)]
      simp

theorem step_wf {l : SList} {addrs : List Nat} (h : WF l addrs) (op : Op) {r : Res}
    {l1 : SList} (hs : step l op = some (r, l1)) : ∃ addrs1, WF l1 addrs1 := by
  cases op with
  | push v =>
    cases hp : l.push v with
    | none => simp [step, hp] at hs
    | some l2 =>
      simp only [step, hp, Option.some.injEq, Prod.mk.injEq] at hs
      exact ⟨_, hs.2 ▸ push_wf h v hp⟩
  | pop =>
    rcases List.eq_nil_or_concat addrs with e | ⟨pre, z, e⟩
    · subst e
      simp only [step, pop_nil h, Option.some.injEq, Prod.mk.injEq] at hs
      exact ⟨[], hs.2 ▸ h⟩
    · subst e
      rw [List.concat_eq_append] at h
      obtain ⟨l2, hp, hw, _⟩ := pop_concat h
      simp only [step, hp, Option.some.injEq, Prod.mk.injEq] at hs
      exact ⟨pre, hs.2 ▸ hw⟩
  | delete_at idx =>
    by_cases hi : idx < 0 ∨ (addrs.length : Int) ≤ idx
    · simp only [step, delete_at_miss h idx hi, Option.some.injEq, Prod.mk.injEq] at hs
      exact ⟨addrs, hs.2 ▸ h⟩
    · have hk : idx.toNat < addrs.length := by omega
      have hsplit : addrs = addrs.take idx.toNat ++ addrs[idx.toNat] :: addrs.drop (idx.toNat + 1) := by
        rw [← List.drop_eq_getElem_cons hk, List.take_append_drop]
      have hlen : ((addrs.take idx.toNat).length : Int) = idx := by
        rw [List.length_take]
        omega
      have h2 := h
      rw [hsplit] at h2
      obtain ⟨l2, hp, hw, _⟩ := delete_at_hit h2
      rw [hlen] at hp
      simp only [step, hp, Option.some.injEq, Prod.mk.injEq] at hs
      exact ⟨_, hs.2 ▸ hw⟩

theorem run_wf {l : SList} {addrs : List Nat} (h : WF l addrs) (ops : List Op)
    {rs : List Res} {l1 : SList} (hr : run l ops = some (rs, l1)) : ∃ addrs1, WF l1 addrs1 := by
  induction ops generalizing l addrs rs with
  | nil =>
    simp only [run, Option.some.injEq, Prod.mk.injEq] at hr
    exact ⟨addrs, hr.2 ▸ h⟩
  | cons op ops ih =>
    cases hs : step l op with
    | none => simp [run, hs] at hr
    | some x =>
      obtain ⟨r, l2⟩ := x
      obtain ⟨addrs2, h2⟩ := step_wf h op hs
      cases hr2 : run l2 ops with
      | none => simp [run, hs, hr2] at hr
      | some y =>
        obtain ⟨rs2, l3⟩ := y
        simp only [run, hs, hr2, Option.some.injEq, Prod.mk.injEq] at hr
        obtain ⟨_, hl⟩ := hr
        subst hl
        exact ih h2 hr2

theorem main_delete_at :
    (main_list.delete_at 1).map (fun l => (l.values, l.size)) = some ([1, 3], 2) ∧
      main_list.delete_at 3 = some main_list ∧ main_list.delete_at (-1) = some main_list ∧
      SList.new.delete_at 0 = some SList.new ∧ SList.new.delete_at 100 = some SList.new := by
  decide

/-- C20: on every list `l` that calls of `push`, `pop` and `delete_at` build from the
constructor, `size()` is the number of elements, and for every index `idx` the call
`delete_at(idx)` returns; when `0 <= idx < size()` the elements afterwards are the
elements before with exactly the one at position `idx` taken out, the others in their
order, and `size()` is one less; when `idx` is negative or `idx >= size()`, which covers
every `idx` on an empty list, the list is left as it was, `size()` included. -/
theorem C20_delete_at_removes_position (ops : List Op) (rs : List Res) (l : SList) (idx : Int)
    (hr : run SList.new ops = some (rs, l)) :
    l.size = (l.values.length : Int) ∧
      ∃ l1, l.delete_at idx = some l1 ∧
        (0 ≤ idx ∧ idx < l.size →
          l1.values = l.values.eraseIdx idx.toNat ∧ l1.size = l.size - 1) ∧
        (idx < 0 ∨ l.size ≤ idx → l1 = l ∧ l1.size = l.size) := by
  obtain ⟨addrs, h⟩ := run_wf sll_wf_new ops hr
  have hsz : l.size = (addrs.length : Int) := h.count
  have hlen : l.values.length = addrs.length := by rw [sll_values_eq h, List.length_map]
  refine ⟨by rw [hsz, hlen], ?_⟩
  by_cases hi : idx < 0 ∨ (addrs.length : Int) ≤ idx
  · refine ⟨l, delete_at_miss h idx hi, ?_, fun _ => ⟨rfl, rfl⟩⟩
    intro hin
    rw [hsz] at hin
    omega
  · have hk : idx.toNat < addrs.length := by omega
    have hsplit : addrs =
        addrs.take idx.toNat ++ addrs[idx.toNat] :: addrs.drop (idx.toNat + 1) := by
      rw [← List.drop_eq_getElem_cons hk, List.take_append_drop]
    have hpre : ((addrs.take idx.toNat).length : Int) = idx := by
      rw [List.length_take]
      omega
    have hpre2 : (addrs.take idx.toNat).length = idx.toNat := by
      rw [List.length_take]
      omega
    have h2 := h
    rw [hsplit] at h2
    obtain ⟨l2, hp, _, hv, hs⟩ := delete_at_hit h2
    rw [hpre] at hp
    rw [hpre2] at hv
    refine ⟨l2, hp, fun _ => ⟨hv, hs⟩, ?_⟩
    intro hout
    rw [hsz] at hout
    exact absurd hout hi

/-- C20 on the list `1 -> 2 -> 3` of `main` and the index 1 of its first `delete_at`. -/
theorem C20_delete_at_removes_position_witness :
    run SList.new main_ops = some ([.done, .done, .done], main_list) ∧
      (main_list.size = (main_list.values.length : Int) ∧
        ∃ l1, main_list.delete_at 1 = some l1 ∧
          (0 ≤ (1 : Int) ∧ 1 < main_list.size →
            l1.values = main_list.values.eraseIdx (1 : Int).toNat ∧
              l1.size = main_list.size - 1) ∧
          ((1 : Int) < 0 ∨ main_list.size ≤ 1 → l1 = main_list ∧ l1.size = main_list.size)) :=
  ⟨by decide, C20_delete_at_removes_position main_ops [.done, .done, .done] main_list 1
    (by decide)⟩

end sll
